import Mathlib

/-!
# scnlib floating point literal scanner (`src/src/reader.cpp`)

Shallow embedding of `scn::detail::string_to_ieee` and of the functions it calls.

Conventions of the embedding.

* A character of the input span (`CharT`, narrow or wide) is its code unit, a natural number,
  and a `span<const CharT>` is a `List Nat`; `ascii_widen c` is the code unit of the ASCII
  character `c`.
* An iterator `it` into the input span is the list of the characters from `it` to `in.end()`;
  `it == in.end()` is `it = []`, `*it` is the head of that list and `it - in.begin()` is
  `in.size()` minus its length.
* The written part of the digit buffer, `[buffer.begin(), buffer_it)`, is a list of characters.
* The C++ `int` variables `significant_digits`, `insignificant_digits`, `exponent` and `num`
  are integers.  In the loops each of them changes by at most one per input character (or is
  clamped), and `exponent += num` stands behind a range check, so on an input of fewer than
  2^31 characters these have their mathematical value.  The sums of reader.cpp 288 and 293,
  `exponent += insignificant_digits` and `--exponent`, can leave the range of `int` on such
  an input: they are taken modulo 2^32 (`int_wrap`), the two's complement result.
* A failed `SCN_EXPECT` / `SCN_ENSURE`, a read of `*it` at `in.end()` and a write past the end
  of the buffer are faults: the embedding returns `Except.error` with the fault, and
  `Except.ok` for every run that reaches a `return` statement.
* The native routines `std::strtold` and `std::wcstold` are not part of the repository: the
  `long double` path takes the routine as a parameter, a function from the string to its
  outcome (the value, the offset of `end` and `errno` after the call).
-/

namespace scn

/-- The error codes of `scn::error` that `reader.cpp` returns. -/
inductive error where
  | invalid_scanned_value
  | value_out_of_range
deriving DecidableEq, Repr

/-- The type `expected<T>`: a value or an error. -/
inductive expected (T : Type) where
  | value (v : T)
  | unexpected (e : error)
deriving DecidableEq, Repr

namespace detail

/-- Code unit of an ASCII character: `ascii_widen<CharT>(c)`. -/
def ascii_widen (c : Char) : Nat := c.toNat

/-- Ways a run can leave the defined behaviour of the function. -/
inductive fault where
  | expect_nonempty_input
  | read_past_end
  | ensure_it_not_end
  | expect_exponent_range
  | buffer_overflow
  | ensure_buffer_not_full
deriving DecidableEq, Repr

/-- Value of the floating point type `T` (float or double): sign bit and, for a finite value,
the magnitude. -/
inductive ieee_value where
  | finite (negative : Bool) (magnitude : ℚ)
  | infinity (negative : Bool)
  | quiet_NaN (negative : Bool)
deriving DecidableEq

/-- Unary minus of the floating point type: flips the sign bit. -/
def ieee_value.neg : ieee_value → ieee_value
  | .finite s m => .finite (!s) m
  | .infinity s => .infinity (!s)
  | .quiet_NaN s => .quiet_NaN (!s)

/-- Source: `do_float_conversion` (reader.cpp 35-39), whose body is `return T{0.0};`. -/
def do_float_conversion (_s : List Nat) (_exponent : Int) : ieee_value :=
  .finite false 0

/-- Source: `max_significant_digits` (reader.cpp 42). -/
def max_significant_digits : Int := 772

/-- Size of `array<CharT, max_significant_digits + 10> buffer`. -/
def buffer_size : Nat := 782

/-- Source: `nan_string` (reader.cpp 44-55). -/
def nan_string : List Nat := "nan".toList.map ascii_widen

/-- Source: `inf_string` (reader.cpp 57-68). -/
def inf_string : List Nat := "inf".toList.map ascii_widen

/-- Source: `infinity_string` (reader.cpp 70-81). -/
def infinity_string : List Nat := "infinity".toList.map ascii_widen

/-- Source: the lambda `case_insensitive_cmp` (reader.cpp 103-113). -/
def case_insensitive_cmp (l r : Nat) : Bool :=
  let l := if ascii_widen 'A' ≤ l ∧ l ≤ ascii_widen 'Z' then l + 32 else l
  let r := if ascii_widen 'A' ≤ r ∧ r ≤ ascii_widen 'Z' then r + 32 else r
  decide (l = r)

/-- The three-iterator `std::equal(first1, last1, first2, pred)`: the first range is compared
element by element with the range that starts at `first2`.  The callers check the sizes
first, so the second range is never exhausted before the first. -/
def std_equal (pred : Nat → Nat → Bool) : List Nat → List Nat → Bool
  | [], _ => true
  | _ :: _, [] => false
  | a :: as, b :: bs => pred a b && std_equal pred as bs

/-- The local variables of the digit loops (reader.cpp 169-173); `buffer` is the written part
`[buffer.begin(), buffer_it)`. -/
structure digit_state where
  buffer : List Nat
  significant_digits : Int
  insignificant_digits : Int
  exponent : Int
  nonzero_digit_dropped : Bool
deriving DecidableEq, Repr

/-- The statements `*buffer_it = c; ++buffer_it;` on the array of `buffer_size` characters. -/
def buffer_write (buffer : List Nat) (c : Nat) : Except fault (List Nat) :=
  if buffer.length < buffer_size then .ok (buffer ++ [c]) else .error .buffer_overflow

/-- What the scanning part of `string_to_ieee` ends with: a `return` statement before the label
`parsing_done`, or the call `do_float_conversion(buffer, exponent)` of line 297, with the sign
and the position `it - in.begin()`. -/
inductive scanned where
  | returned (r : expected ieee_value) (chars : Nat)
  | convert (sign : Bool) (buffer : List Nat) (exponent : Int) (chars : Nat)
deriving DecidableEq

/-- How a digit loop is left: by `goto parsing_done` or by its condition becoming false. -/
inductive loop_exit where
  | parsing_done (it : List Nat) (st : digit_state)
  | fallthrough (it : List Nat) (st : digit_state)
deriving DecidableEq, Repr

/-- The value of the 32-bit type `int` that a sum has in two's complement arithmetic: the
integer of the range from -2^31 to 2^31 - 1 that differs from `v` by a multiple of 2^32. -/
def int_wrap (v : Int) : Int := (v + 2147483648) % 4294967296 - 2147483648

/-- Source: reader.cpp 287-296, from the label `parsing_done` to the converter call. -/
def parsing_done (in_size : Nat) (sign : Bool) (it : List Nat) (st : digit_state) :
    Except fault scanned :=
  let exponent := int_wrap (st.exponent + st.insignificant_digits)
  if st.nonzero_digit_dropped then
    match buffer_write st.buffer (ascii_widen '1') with
    | .error f => .error f
    | .ok buffer =>
      if buffer.length = buffer_size then .error .ensure_buffer_not_full
      else .ok (.convert sign buffer (int_wrap (exponent - 1)) (in_size - it.length))
  else
    if st.buffer.length = buffer_size then .error .ensure_buffer_not_full
    else .ok (.convert sign st.buffer exponent (in_size - it.length))

/-- Body of the integer digit loop, reader.cpp 177-186, for the digit `c = *it`. -/
def integer_digit (c : Nat) (st : digit_state) : Except fault digit_state :=
  if st.significant_digits < max_significant_digits then
    match buffer_write st.buffer c with
    | .error f => .error f
    | .ok buffer =>
      .ok { st with buffer := buffer, significant_digits := st.significant_digits + 1 }
  else
    .ok { st with
      insignificant_digits := st.insignificant_digits + 1
      nonzero_digit_dropped := st.nonzero_digit_dropped || decide (c ≠ ascii_widen '0') }

/-- Source: the integer digit loop, reader.cpp 175-191. -/
def integer_loop : List Nat → digit_state → Except fault loop_exit
  | [], _ => .error .read_past_end
  | c :: cs, st =>
    if ascii_widen '0' ≤ c ∧ c ≤ ascii_widen '9' then
      match integer_digit c st with
      | .error f => .error f
      | .ok st1 => if cs = [] then .ok (.parsing_done cs st1) else integer_loop cs st1
    else .ok (.fallthrough (c :: cs) st)

/-- How the loop over the zeros after the decimal point is left: by the `return` of line 209,
or by its condition becoming false, with the iterator and the exponent. -/
inductive zero_exit where
  | returned
  | fallthrough (it : List Nat) (exponent : Int)
deriving DecidableEq, Repr

/-- Source: the loop over the zeros that follow the decimal point, reader.cpp 205-212. -/
def fraction_zero_loop : List Nat → Int → Except fault zero_exit
  | [], _ => .error .read_past_end
  | c :: cs, exponent =>
    if c = ascii_widen '0' then
      if cs = [] then .ok .returned else fraction_zero_loop cs (exponent - 1)
    else .ok (.fallthrough (c :: cs) exponent)

/-- Body of the fraction digit loop, reader.cpp 217-226, for the digit `c = *it`. -/
def fraction_digit (c : Nat) (st : digit_state) : Except fault digit_state :=
  if st.significant_digits < max_significant_digits then
    match buffer_write st.buffer c with
    | .error f => .error f
    | .ok buffer =>
      .ok { st with
        buffer := buffer
        significant_digits := st.significant_digits + 1
        exponent := st.exponent - 1 }
  else
    .ok { st with
      nonzero_digit_dropped := st.nonzero_digit_dropped || decide (c ≠ ascii_widen '0') }

/-- Source: the fraction digit loop, reader.cpp 215-231. -/
def fraction_loop : List Nat → digit_state → Except fault loop_exit
  | [], _ => .error .read_past_end
  | c :: cs, st =>
    if ascii_widen '0' ≤ c ∧ c ≤ ascii_widen '9' then
      match fraction_digit c st with
      | .error f => .error f
      | .ok st1 => if cs = [] then .ok (.parsing_done cs st1) else fraction_loop cs st1
    else .ok (.fallthrough (c :: cs) st)

/-- Source: `max_exponent = std::numeric_limits<int>::max() / 2` (reader.cpp 265-266). -/
def max_exponent : Int := 2147483647 / 2

/-- Condition of the `do ... while` of reader.cpp 281-282 at the iterator `it`. -/
def exponent_loop_cond (it : List Nat) : Bool :=
  match it with
  | [] => false
  | c :: _ => decide (ascii_widen '0' ≤ c ∧ c ≤ ascii_widen '9')

/-- Body of the exponent loop, reader.cpp 271-279, for the digit `c = *it`: the new value of
`num`. -/
def exponent_digit (c : Nat) (num : Int) : Int :=
  let digit : Int := (c : Int) - (ascii_widen '0' : Int)
  if num ≥ max_exponent / 10 ∧ ¬ (num = max_exponent / 10 ∧ digit ≤ max_exponent % 10) then
    max_exponent
  else num * 10 + digit

/-- Source: the `do ... while` loop that accumulates the exponent digits, reader.cpp 270-282;
returns the iterator and `num` at the exit. -/
def exponent_loop : List Nat → Int → Except fault (List Nat × Int)
  | [], _ => .error .read_past_end
  | c :: cs, num =>
    let num1 := exponent_digit c num
    if exponent_loop_cond cs then exponent_loop cs num1 else .ok (cs, num1)

/-- Source: reader.cpp 234-285, from the validity check to the end of the exponent part; `it`
is not at the end of the input here. -/
def exponent_part (in_size : Nat) (sign leading_zero : Bool) (it : List Nat)
    (st : digit_state) : Except fault scanned :=
  if !leading_zero ∧ st.exponent = 0 ∧ st.significant_digits = 0 then
    .ok (.returned (.unexpected .invalid_scanned_value) 0)
  else
    match it with
    | [] => .error .read_past_end
    | c :: it1 =>
      if c = ascii_widen 'e' ∨ c = ascii_widen 'E' then
        let junk_begin := c :: it1
        match it1 with
        | [] => parsing_done in_size sign junk_begin st
        | s :: it2 =>
          let signed : Bool := decide (s = ascii_widen '+' ∨ s = ascii_widen '-')
          let esign := if signed then s else ascii_widen '+'
          let it3 := if signed then it2 else s :: it2
          if signed ∧ it3 = [] then parsing_done in_size sign junk_begin st
          else if !exponent_loop_cond it3 then parsing_done in_size sign junk_begin st
          else if ¬ (-(max_exponent / 2) ≤ st.exponent ∧ st.exponent ≤ max_exponent / 2) then
            .error .expect_exponent_range
          else
            match exponent_loop it3 0 with
            | .error f => .error f
            | .ok (it4, num) =>
              parsing_done in_size sign it4
                { st with
                  exponent := st.exponent + (if esign = ascii_widen '-' then -num else num) }
      else parsing_done in_size sign (c :: it1) st

/-- Source: reader.cpp 193-232, from `SCN_ENSURE(it != in.end())` to the end of the fraction
part, followed by the rest of the function. -/
def fraction_part (in_size : Nat) (sign leading_zero : Bool) (it : List Nat)
    (st : digit_state) : Except fault scanned :=
  match it with
  | [] => .error .ensure_it_not_end
  | c :: it1 =>
    if c = ascii_widen '.' then
      if it1 = [] then
        if st.significant_digits = 0 ∧ !leading_zero then
          .ok (.returned (.unexpected .invalid_scanned_value) 0)
        else parsing_done in_size sign it1 st
      else
        let zeros : Except fault zero_exit :=
          if st.significant_digits = 0 then fraction_zero_loop it1 st.exponent
          else .ok (.fallthrough it1 st.exponent)
        match zeros with
        | .error f => .error f
        | .ok .returned =>
          .ok (.returned (.value (if sign then .finite true 0 else .finite false 0)) in_size)
        | .ok (.fallthrough it2 exponent) =>
          match fraction_loop it2 { st with exponent := exponent } with
          | .error f => .error f
          | .ok (.parsing_done it3 st1) => parsing_done in_size sign it3 st1
          | .ok (.fallthrough it3 st1) => exponent_part in_size sign leading_zero it3 st1
    else exponent_part in_size sign leading_zero (c :: it1) st

/-- Source: reader.cpp 169-191 and what follows: the buffer and the counters are initialised
and the integer digits are read. -/
def digits_part (in_size : Nat) (sign leading_zero : Bool) (it : List Nat) :
    Except fault scanned :=
  match integer_loop it ⟨[], 0, 0, 0, false⟩ with
  | .error f => .error f
  | .ok (.parsing_done it1 st) => parsing_done in_size sign it1 st
  | .ok (.fallthrough it1 st) => fraction_part in_size sign leading_zero it1 st

/-- Source: reader.cpp 115-167 and what follows: the special values and the leading zero, at
the iterator `it` that follows the optional sign. -/
def after_sign (in_size : Nat) (sign : Bool) (it : List Nat) : Except fault scanned :=
  match it with
  | [] => .error .read_past_end
  | c :: it1 =>
    if c = ascii_widen 'n' ∨ c = ascii_widen 'N' then
      if it.length ≠ nan_string.length ∨ !std_equal case_insensitive_cmp it nan_string then
        .ok (.returned (.unexpected .invalid_scanned_value) 0)
      else .ok (.returned (.value (if sign then (ieee_value.quiet_NaN false).neg
        else .quiet_NaN false)) 0)
    else if c = ascii_widen 'i' ∨ c = ascii_widen 'I' then
      if (it.length ≠ inf_string.length ∨ !std_equal case_insensitive_cmp it inf_string) ∧
          (it.length ≠ infinity_string.length ∨
            !std_equal case_insensitive_cmp it infinity_string) then
        .ok (.returned (.unexpected .invalid_scanned_value) 0)
      else .ok (.returned (.value (if sign then (ieee_value.infinity false).neg
        else .infinity false)) 0)
    else if c = ascii_widen '0' then
      match it1 with
      | [] => .ok (.returned (.value (if sign then .finite true 0 else .finite false 0)) 0)
      | x :: it2 =>
        if x = ascii_widen 'x' ∨ x = ascii_widen 'X' then
          if it2 = [] then .ok (.returned (.unexpected .invalid_scanned_value) 0)
          else digits_part in_size sign true it2
        else digits_part in_size sign true (x :: it2)
    else digits_part in_size sign false (c :: it1)

/-- Source: reader.cpp 86-296: `string_to_ieee` up to the converter call. -/
def string_to_ieee_scan (input : List Nat) : Except fault scanned :=
  match input with
  | [] => .error .expect_nonempty_input
  | c :: it1 =>
    if c = ascii_widen '+' ∨ c = ascii_widen '-' then
      let sign : Bool := decide (c = ascii_widen '+')
      if it1 = [] then .ok (.returned (.unexpected .invalid_scanned_value) 0)
      else after_sign input.length sign it1
    else after_sign input.length false (c :: it1)

/-- The result of a call: the returned `expected<T>` and the output parameter `chars`. -/
structure scan_result where
  result : expected ieee_value
  chars : Nat
deriving DecidableEq

/-- Source: `string_to_ieee` (reader.cpp 83-301). -/
def string_to_ieee (input : List Nat) : Except fault scan_result :=
  match string_to_ieee_scan input with
  | .error f => .error f
  | .ok (.returned r chars) => .ok ⟨r, chars⟩
  | .ok (.convert sign buffer exponent chars) =>
    let converted := do_float_conversion buffer exponent
    .ok ⟨.value (if sign then converted.neg else converted), chars⟩

/-- The characters of a string literal as an input span. -/
def span_of (s : String) : List Nat := s.toList.map ascii_widen

/-- Source: `read_float_impl<CharT, T>::get` (reader.cpp 303-309), the primary template, used
for the 32-bit and 64-bit targets `float` and `double`. -/
def read_float_impl.get (s : List Nat) : Except fault scan_result :=
  string_to_ieee s

/-- The outcome of the native routine (`std::strtold`, `std::wcstold`), which is called with
`errno` 0: the returned value, the offset of `end` in the string and the value of `errno`
after the call. -/
structure native_outcome where
  ld : ieee_value
  end_offset : Nat
  errno : Nat
deriving DecidableEq

/-- The comparison `ld == 0.0l`: true of the zeros of either sign. -/
def ieee_value.eq_zero : ieee_value → Bool
  | .finite _ m => decide (m = 0)
  | .infinity _ => false
  | .quiet_NaN _ => false

/-- The C string that starts at offset `n` of the data of `str` and that the first NUL ends:
what `end == str` compares with `str`, `end` being a character pointer and `str` a string
object. -/
def c_string_at (str : List Nat) (n : Nat) : List Nat :=
  ((str ++ [0]).drop n).takeWhile (fun c => decide (c ≠ 0))

/-- The result of a call of the native path: the returned `expected<long double>`, the output
parameter `chars` and the value of `errno` after the call. -/
structure native_result where
  result : expected ieee_value
  chars : Nat
  errno : Nat
deriving DecidableEq

/-- Source: `read_float_impl<char, long double>::get` (reader.cpp 311-335) and
`read_float_impl<wchar_t, long double>::get` (reader.cpp 336-361), the same statements over
the two character types.  `ERANGE` is the value of the macro and `native` the native
routine. -/
def read_float_impl_long_double.get (ERANGE : Nat) (native : List Nat → native_outcome)
    (s : List Nat) : native_result :=
  let str := s
  let out := native str
  let chars := out.end_offset
  if out.errno = ERANGE then
    ⟨.unexpected .value_out_of_range, chars, 0⟩
  else if out.ld.eq_zero && decide (c_string_at str out.end_offset = str) then
    ⟨.unexpected .invalid_scanned_value, chars, out.errno⟩
  else
    ⟨.value out.ld, chars, out.errno⟩

/-! ## Vocabulary of the claims and of the proofs -/

/-- An optional sign: nothing, `+` or `-`. -/
def optional_sign (sg : List Nat) : Prop :=
  sg = [] ∨ sg = [ascii_widen '+'] ∨ sg = [ascii_widen '-']

/-- The characters `l` spell the lower-case ASCII word `token` up to the case of each
letter: same length, and each character is the letter of the word or its upper-case form. -/
def case_variant (token : String) (l : List Nat) : Prop :=
  List.Forall₂ (fun t c => c = t.toNat ∨ c = t.toUpper.toNat) token.toList l

/-- A decimal digit `0`..`9`. -/
def is_digit (c : Nat) : Prop := ascii_widen '0' ≤ c ∧ c ≤ ascii_widen '9'

instance (c : Nat) : Decidable (is_digit c) := by unfold is_digit; infer_instance

/-- A run of decimal digits, possibly empty. -/
def digits (l : List Nat) : Prop := ∀ c ∈ l, is_digit c

instance (l : List Nat) : Decidable (digits l) := by unfold digits; infer_instance

/-- The list `l` is empty or begins with a character that is not a decimal digit. -/
def stops_digits (l : List Nat) : Prop := ∀ c, l.head? = some c → ¬ is_digit c

/-- The buffer holds `significant_digits` characters, at most `max_significant_digits`. -/
def digit_state.wf (st : digit_state) : Prop :=
  (st.buffer.length : Int) = st.significant_digits ∧
    st.significant_digits ≤ max_significant_digits

/-- The state after one run of a loop body on the character `c`. -/
def digits_step (body : Nat → digit_state → Except fault digit_state) (st : digit_state)
    (c : Nat) : digit_state :=
  match body c st with
  | .ok st1 => st1
  | .error _ => st

/-- The state after the integer digit loop has read the digits `D`. -/
def integer_digits (D : List Nat) (st : digit_state) : digit_state :=
  D.foldl (digits_step integer_digit) st

/-- The state after the fraction digit loop has read the digits `F`. -/
def fraction_digits (F : List Nat) (st : digit_state) : digit_state :=
  F.foldl (digits_step fraction_digit) st

/-- The value of `num` after the exponent loop has read the digits `X`. -/
def exponent_digits (X : List Nat) (num : Int) : Int :=
  X.foldl (fun n c => exponent_digit c n) num

/-- The buffer handed to the converter: the stored digits, with the injected `1` when a
nonzero digit was dropped. -/
def final_buffer (st : digit_state) : List Nat :=
  if st.nonzero_digit_dropped then st.buffer ++ [ascii_widen '1'] else st.buffer

/-- The exponent handed to the converter: the exponent, raised by the count of dropped
integer digits and lowered by one for the injected digit, as sums of the type `int`. -/
def final_exponent (st : digit_state) : Int :=
  if st.nonzero_digit_dropped then
    int_wrap (int_wrap (st.exponent + st.insignificant_digits) - 1)
  else int_wrap (st.exponent + st.insignificant_digits)

/-- The state passes the validity check of reader.cpp 234. -/
def passes_validity (leading_zero : Bool) (st : digit_state) : Prop :=
  leading_zero = true ∨ st.exponent ≠ 0 ∨ st.significant_digits ≠ 0

/-- The state of reader.cpp 169-173, before the first digit. -/
def initial_state : digit_state := ⟨[], 0, 0, 0, false⟩

/-- The input, after the sign, begins with the hexadecimal mark `0x` or `0X`. -/
def hex_start (l : List Nat) : Prop :=
  ∃ x t, l = ascii_widen '0' :: x :: t ∧ (x = ascii_widen 'x' ∨ x = ascii_widen 'X')

/-- The mantissa of the decimal grammar: `digit+ ('.' digit*)?` or `'.' digit+`. -/
def mantissa (M : List Nat) : Prop :=
  (M ≠ [] ∧ digits M) ∨
  (∃ D F, M = D ++ ascii_widen '.' :: F ∧ D ≠ [] ∧ digits D ∧ digits F) ∨
  (∃ F, M = ascii_widen '.' :: F ∧ F ≠ [] ∧ digits F)

/-- What the scanning part returns when it accepts the input with `n` characters consumed:
it reaches the converter call, or returns a value, with `chars = n`. -/
def scanned.accepts (r : scanned) (n : Nat) : Prop :=
  (∃ sign buffer exponent, r = .convert sign buffer exponent n) ∨
  (∃ v, r = .returned (.value v) n)

/-- The sign flag the scanner computes for an optional sign. -/
def sign_flag (sg : List Nat) : Bool := decide (sg = [ascii_widen '+'])

/-- What can follow an exponent marker that is not the start of an exponent: nothing, a lone
sign, a sign followed by a character that is not a digit, or a character that is neither a
sign nor a digit. -/
def dangling (r : List Nat) : Prop :=
  r = [] ∨
  (∃ s, (s = ascii_widen '+' ∨ s = ascii_widen '-') ∧ r = [s]) ∨
  (∃ s c t, (s = ascii_widen '+' ∨ s = ascii_widen '-') ∧ ¬ is_digit c ∧ r = s :: c :: t) ∨
  (∃ c t, ¬ (c = ascii_widen '+' ∨ c = ascii_widen '-') ∧ ¬ is_digit c ∧ r = c :: t)

/-- The input without its optional sign: the part after a leading `+` or `-`. -/
def after_optional_sign : List Nat → List Nat
  | [] => []
  | c :: t => if c = ascii_widen '+' ∨ c = ascii_widen '-' then t else c :: t

/-- The list begins with a decimal digit, or with `.` immediately followed by a decimal
digit. -/
def starts_number (body : List Nat) : Prop :=
  (∃ d t, body = d :: t ∧ is_digit d) ∨
  (∃ d t, body = ascii_widen '.' :: d :: t ∧ is_digit d)

/-- The optional exponent of the decimal grammar: nothing, or `[eE] [+-]? digit+`. -/
def exponent_opt (E : List Nat) : Prop :=
  E = [] ∨
  ∃ m sg X, E = m :: (sg ++ X) ∧ (m = ascii_widen 'e' ∨ m = ascii_widen 'E') ∧
    optional_sign sg ∧ X ≠ [] ∧ digits X

/-- The list begins with a marker, an optional sign and a digit: an exponent starts here. -/
def starts_exponent (R : List Nat) : Prop :=
  ∃ m sg x t, R = m :: (sg ++ x :: t) ∧ (m = ascii_widen 'e' ∨ m = ascii_widen 'E') ∧
    optional_sign sg ∧ is_digit x

/-- The decimal grammar `[+-]? ( digit+ ('.' digit*)? | '.' digit+ ) ( [eE] [+-]? digit+ )?`:
an optional sign, a mantissa and an optional exponent. -/
def decimal_literal (l : List Nat) : Prop :=
  ∃ sg M E, l = sg ++ (M ++ E) ∧ optional_sign sg ∧ mantissa M ∧ exponent_opt E

/-- The list begins with a character that is not a sign. -/
def starts_unsigned (x : List Nat) : Prop :=
  ∃ c t, x = c :: t ∧ ¬ (c = ascii_widen '+' ∨ c = ascii_widen '-')

/-- Value of a decimal digit character. -/
def digit_value (c : Nat) : Nat := c - ascii_widen '0'

/-- The number that a run of decimal digits denotes, read after the number `v`. -/
def decimal_value_from (v : Nat) (ds : List Nat) : Nat :=
  ds.foldl (fun v c => 10 * v + digit_value c) v

/-- The number that a run of decimal digits denotes; the empty run denotes 0. -/
def decimal_value (ds : List Nat) : Nat := decimal_value_from 0 ds

/-- Some character of the list is not `0`. -/
def has_nonzero (l : List Nat) : Bool := l.any (fun c => decide (c ≠ ascii_widen '0'))


/-- What a run of the scanning part can end with, the failed exponent range check apart: the
converter call with a buffer of at most 772 stored digits and possibly the injected `1`, a
returned value, or the error `invalid_scanned_value`. -/
def outcome_ok (res : Except fault scanned) : Prop :=
  res = .error .expect_exponent_range ∨
  (∃ sign stored exponent chars, stored.length ≤ 772 ∧
    (res = .ok (.convert sign stored exponent chars) ∨
      res = .ok (.convert sign (stored ++ [ascii_widen '1']) exponent chars))) ∨
  (∃ v n, res = .ok (.returned (.value v) n)) ∨
  (∃ n, res = .ok (.returned (.unexpected .invalid_scanned_value) n))

/-- The state of the digit loops after the mantissa: `I` are the digits that the integer loop
has read, `z` counts the zeros skipped after the decimal point and `F` are the digits that
the fraction loop has read.  The first 772 of these digits are stored, each stored fraction
digit and each skipped zero lowers the exponent by one, each integer digit that is not
stored is counted, and the flag records a digit other than `0` that is not stored. -/
def mantissa_state (I : List Nat) (z : Nat) (F : List Nat) : digit_state :=
  { buffer := (I ++ F).take 772
    significant_digits := (min (I ++ F).length 772 : Nat)
    insignificant_digits := (I.length - 772 : Nat)
    exponent := -(z : Int) - (min F.length (772 - I.length) : Nat)
    nonzero_digit_dropped := has_nonzero ((I ++ F).drop 772) }

/-- The buffer handed to the converter after the mantissa digits `I` and `F`: the first 772
digits, followed by the injected `1` when one of the other digits is not `0`. -/
def converter_buffer (I F : List Nat) : List Nat :=
  (I ++ F).take 772 ++ (if has_nonzero ((I ++ F).drop 772) then [ascii_widen '1'] else [])

/-- The exponent handed to the converter: the contribution `x` of the exponent part, lowered
by one for each of the `z` skipped zeros and for each stored fraction digit, raised by one
for each integer digit that is not stored, and lowered by one for the injected digit, as a
value of the type `int`. -/
def converter_exponent (I : List Nat) (z : Nat) (F : List Nat) (x : Int) : Int :=
  int_wrap (x - (z : Int) - (min F.length (772 - I.length) : Nat) + (I.length - 772 : Nat) -
    (if has_nonzero ((I ++ F).drop 772) then 1 else 0))

/-- The exponent part `E` of a scan and what it adds to the exponent: nothing, or a marker,
an optional sign and a non-empty run of digits, which add the accumulated `num`, negated
after a `-`. -/
def exponent_contribution (E : List Nat) (x : Int) : Prop :=
  (E = [] ∧ x = 0) ∨
  ∃ m sg X, E = m :: (sg ++ X) ∧ (m = ascii_widen 'e' ∨ m = ascii_widen 'E') ∧
    optional_sign sg ∧ X ≠ [] ∧ digits X ∧
    x = if sg = [ascii_widen '-'] then -exponent_digits X 0 else exponent_digits X 0

/-- The characters from the integer digit loop on, split as the loops read them: the integer
digits `I`, then, when `dot` is set, a decimal point, the zeros `Z` that are skipped (none
unless `I` is empty) and the fraction digits `F`, then the exponent part `E`, which adds `x`
to the exponent, and the rest `R`, which is not consumed. -/
def digits_form (it I : List Nat) (dot : Bool) (Z F E R : List Nat) (x : Int) : Prop :=
  it = I ++ ((if dot then ascii_widen '.' :: (Z ++ F) else []) ++ (E ++ R)) ∧
  digits I ∧ (∀ c ∈ Z, c = ascii_widen '0') ∧ digits F ∧
  (dot = false → Z = [] ∧ F = []) ∧ (I ≠ [] → Z = []) ∧
  (I = [] → ∀ c, F.head? = some c → c ≠ ascii_widen '0') ∧
  exponent_contribution E x

/-- What stands between the sign and the characters `it` that the integer digit loop starts
with: nothing (then `it` does not begin with `0`), a leading zero (then `it` does not begin
with `x` or `X`), or a leading zero and a hexadecimal mark. -/
def leading_mark (lead it : List Nat) : Prop :=
  (lead = [] ∧ ∀ c, it.head? = some c → c ≠ ascii_widen '0') ∨
  (lead = [ascii_widen '0'] ∧
    ∀ c, it.head? = some c → ¬ (c = ascii_widen 'x' ∨ c = ascii_widen 'X')) ∨
  (∃ x, (x = ascii_widen 'x' ∨ x = ascii_widen 'X') ∧ lead = [ascii_widen '0', x])

/-- The rational number that a decimal literal denotes: the digits `W` before the decimal
point, the digits `Fr` after it, and the power of ten `x` of its exponent part. -/
def literal_value (W Fr : List Nat) (x : Int) : ℚ :=
  (decimal_value (W ++ Fr) : ℚ) / 10 ^ Fr.length * 10 ^ x

/-- The exponent part `E` of a literal denotes the power of ten `x` and is of magnitude at
most `max_exponent`: no exponent part and 0, or a marker, an optional sign and a non-empty
run of digits whose value, at most `max_exponent`, is `x`, negated after a `-`. -/
def exact_exponent (E : List Nat) (x : Int) : Prop :=
  (E = [] ∧ x = 0) ∨
  ∃ m sg X, E = m :: (sg ++ X) ∧ (m = ascii_widen 'e' ∨ m = ascii_widen 'E') ∧
    optional_sign sg ∧ X ≠ [] ∧ digits X ∧ (decimal_value X : Int) ≤ max_exponent ∧
    x = if sg = [ascii_widen '-'] then -(decimal_value X : Int) else (decimal_value X : Int)

/-- The rational `q` is a finite binary64 number: an integer of magnitude below 2^53 times a
power of two between 2^-1074 and 2^971. -/
def binary64_finite (q : ℚ) : Prop :=
  ∃ m e : Int, |m| < 2 ^ 53 ∧ -1074 ≤ e ∧ e ≤ 971 ∧ q = (m : ℚ) * 2 ^ e

/-- The binary64 number `r` is nearest to `q`: no finite binary64 number is closer.  Every
result of rounding `q` to nearest, ties to even, is such an `r`. -/
def rounds_to_nearest (q r : ℚ) : Prop :=
  binary64_finite r ∧ ∀ r2, binary64_finite r2 → |q - r| ≤ |q - r2|

/-- The value is one of the 32-bit type `int`. -/
def int_range (v : Int) : Prop := -2147483648 ≤ v ∧ v ≤ 2147483647

/-! ## Code units of the ASCII characters the scanner tests for -/

@[simp] theorem ascii_widen_plus : ascii_widen '+' = 43 := rfl
@[simp] theorem ascii_widen_minus : ascii_widen '-' = 45 := rfl
@[simp] theorem ascii_widen_dot : ascii_widen '.' = 46 := rfl
@[simp] theorem ascii_widen_0 : ascii_widen '0' = 48 := rfl
@[simp] theorem ascii_widen_1 : ascii_widen '1' = 49 := rfl
@[simp] theorem ascii_widen_9 : ascii_widen '9' = 57 := rfl
@[simp] theorem ascii_widen_A : ascii_widen 'A' = 65 := rfl
@[simp] theorem ascii_widen_E : ascii_widen 'E' = 69 := rfl
@[simp] theorem ascii_widen_I : ascii_widen 'I' = 73 := rfl
@[simp] theorem ascii_widen_N : ascii_widen 'N' = 78 := rfl
@[simp] theorem ascii_widen_X : ascii_widen 'X' = 88 := rfl
@[simp] theorem ascii_widen_Z : ascii_widen 'Z' = 90 := rfl
@[simp] theorem ascii_widen_e : ascii_widen 'e' = 101 := rfl
@[simp] theorem ascii_widen_i : ascii_widen 'i' = 105 := rfl
@[simp] theorem ascii_widen_n : ascii_widen 'n' = 110 := rfl
@[simp] theorem ascii_widen_x : ascii_widen 'x' = 120 := rfl

/-! ## The special values -/

theorem case_insensitive_cmp_lower (c t : Nat) (ht : 97 ≤ t ∧ t ≤ 122) :
    case_insensitive_cmp c t = true ↔ c = t ∨ c + 32 = t := by
  simp only [case_insensitive_cmp, ascii_widen_A, ascii_widen_Z, decide_eq_true_eq]
  have h2 : ¬ (65 ≤ t ∧ t ≤ 90) := by omega
  rw [if_neg h2]
  split_ifs with h1 <;> omega

theorem std_equal_case_variant (token : List Char)
    (h : ∀ t ∈ token, (97 ≤ t.toNat ∧ t.toNat ≤ 122) ∧ t.toUpper.toNat + 32 = t.toNat)
    (l : List Nat) :
    (l.length = token.length ∧ std_equal case_insensitive_cmp l (token.map ascii_widen) = true)
      ↔ List.Forall₂ (fun t c => c = t.toNat ∨ c = t.toUpper.toNat) token l := by
  induction token generalizing l with
  | nil => cases l <;> simp [std_equal]
  | cons t ts ih =>
    cases l with
    | nil => simp
    | cons c cs =>
      have ht := h t (List.mem_cons_self _ _)
      have ih1 := ih (fun x hx => h x (List.mem_cons_of_mem _ hx)) cs
      simp only [List.length_cons, List.map_cons, std_equal, Bool.and_eq_true,
        List.forall₂_cons, add_left_inj]
      have h3 := case_insensitive_cmp_lower c t.toNat ht.1
      have h4 : (c = t.toNat ∨ c + 32 = t.toNat) ↔ (c = t.toNat ∨ c = t.toUpper.toNat) := by
        constructor <;> (intro h1; rcases h1 with h1 | h1 <;> omega)
      rw [← ih1]
      unfold ascii_widen
      tauto

theorem nan_case_variant (l : List Nat) :
    (l.length = nan_string.length ∧ std_equal case_insensitive_cmp l nan_string = true)
      ↔ case_variant "nan" l :=
  std_equal_case_variant "nan".toList (by decide) l

theorem inf_case_variant (l : List Nat) :
    (l.length = inf_string.length ∧ std_equal case_insensitive_cmp l inf_string = true)
      ↔ case_variant "inf" l :=
  std_equal_case_variant "inf".toList (by decide) l

theorem infinity_case_variant (l : List Nat) :
    (l.length = infinity_string.length ∧
        std_equal case_insensitive_cmp l infinity_string = true)
      ↔ case_variant "infinity" l :=
  std_equal_case_variant "infinity".toList (by decide) l

/-- What `after_sign` returns when the first character is `n` or `N`. -/
theorem after_sign_nan (in_size : Nat) (sign : Bool) (c : Nat) (rest : List Nat)
    (hc : c = ascii_widen 'n' ∨ c = ascii_widen 'N') :
    (case_variant "nan" (c :: rest) →
      after_sign in_size sign (c :: rest) = .ok (.returned (.value (.quiet_NaN sign)) 0)) ∧
    (¬ case_variant "nan" (c :: rest) →
      after_sign in_size sign (c :: rest) =
        .ok (.returned (.unexpected .invalid_scanned_value) 0)) := by
  rw [← nan_case_variant]
  simp only [after_sign, if_pos hc]
  refine ⟨fun h => ?_, fun h => ?_⟩
  · rw [if_neg (by simp [h.1, h.2])]
    cases sign <;> rfl
  · rw [if_pos]
    simp only [ne_eq, Bool.not_eq_true_eq_eq_false] at h ⊢
    by_cases h1 : (c :: rest).length = nan_string.length
    · right; simpa [h1] using h
    · left; exact h1

/-- What `after_sign` returns when the first character is `i` or `I`. -/
theorem after_sign_inf (in_size : Nat) (sign : Bool) (c : Nat) (rest : List Nat)
    (hc : c = ascii_widen 'i' ∨ c = ascii_widen 'I') :
    (case_variant "inf" (c :: rest) ∨ case_variant "infinity" (c :: rest) →
      after_sign in_size sign (c :: rest) = .ok (.returned (.value (.infinity sign)) 0)) ∧
    (¬ (case_variant "inf" (c :: rest) ∨ case_variant "infinity" (c :: rest)) →
      after_sign in_size sign (c :: rest) =
        .ok (.returned (.unexpected .invalid_scanned_value) 0)) := by
  rw [← inf_case_variant, ← infinity_case_variant]
  simp only [after_sign]
  have hn : ¬ (c = ascii_widen 'n' ∨ c = ascii_widen 'N') := by
    simp only [ascii_widen_i, ascii_widen_I, ascii_widen_n, ascii_widen_N] at hc ⊢
    omega
  rw [if_neg hn, if_pos hc]
  refine ⟨fun h => ?_, fun h => ?_⟩
  · rw [if_neg]
    · cases sign <;> rfl
    · simp only [ne_eq, Bool.not_eq_true_eq_eq_false, not_and, not_or, not_not]
      rcases h with h | h
      · intro h1; exact absurd h.2 (by simpa [h.1] using h1)
      · intro _; exact ⟨h.1, by simp [h.2]⟩
  · rw [if_pos]
    simp only [ne_eq, Bool.not_eq_true_eq_eq_false]
    simp only [not_or, not_and, Bool.not_eq_true] at h
    constructor
    · by_cases h1 : (c :: rest).length = inf_string.length
      · right; simpa using h.1 h1
      · left; exact h1
    · by_cases h1 : (c :: rest).length = infinity_string.length
      · right; simpa using h.2 h1
      · left; exact h1

/-- The scanner on an optional sign followed by a non-empty rest. -/
theorem string_to_ieee_scan_sign (sg : List Nat) (c : Nat) (rest : List Nat)
    (hsg : optional_sign sg)
    (hc : sg = [] → ¬ (c = ascii_widen '+' ∨ c = ascii_widen '-')) :
    string_to_ieee_scan (sg ++ c :: rest) =
      after_sign (sg.length + (c :: rest).length) (decide (sg = [ascii_widen '+']))
        (c :: rest) := by
  rcases hsg with rfl | rfl | rfl
  · simp only [List.nil_append, string_to_ieee_scan, if_neg (hc rfl)]
    simp
  · simp [string_to_ieee_scan]; congr 1; omega
  · simp [string_to_ieee_scan]; congr 1; omega

/-! ## The digit loops -/

theorem digits_cons {c : Nat} {l : List Nat} : digits (c :: l) ↔ is_digit c ∧ digits l := by
  simp [digits]

theorem digits_nil : digits [] := by simp [digits]

theorem digits_append {a b : List Nat} : digits (a ++ b) ↔ digits a ∧ digits b := by
  simp only [digits, List.mem_append]
  constructor
  · intro h; exact ⟨fun c hc => h c (Or.inl hc), fun c hc => h c (Or.inr hc)⟩
  · rintro ⟨h1, h2⟩ c (hc | hc)
    · exact h1 c hc
    · exact h2 c hc

theorem stops_digits_nil : stops_digits [] := by simp [stops_digits]

theorem stops_digits_cons {c : Nat} {l : List Nat} :
    stops_digits (c :: l) ↔ ¬ is_digit c := by
  simp [stops_digits]

theorem integer_digit_ok (c : Nat) (st : digit_state) (h : st.wf) :
    integer_digit c st = .ok (digits_step integer_digit st c) ∧
      (digits_step integer_digit st c).wf := by
  obtain ⟨h1, h2⟩ := h
  unfold digits_step integer_digit buffer_write
  unfold max_significant_digits at h2 ⊢
  by_cases hs : st.significant_digits < 772
  · have hl : st.buffer.length < buffer_size := by unfold buffer_size; omega
    simp only [if_pos hs, if_pos hl]
    refine ⟨trivial, ?_, ?_⟩
    · simp only [List.length_append, List.length_singleton, Nat.cast_add, Nat.cast_one]
      omega
    · show st.significant_digits + 1 ≤ 772
      omega
  · simp only [if_neg hs]
    exact ⟨trivial, h1, h2⟩

theorem fraction_digit_ok (c : Nat) (st : digit_state) (h : st.wf) :
    fraction_digit c st = .ok (digits_step fraction_digit st c) ∧
      (digits_step fraction_digit st c).wf := by
  obtain ⟨h1, h2⟩ := h
  unfold digits_step fraction_digit buffer_write
  unfold max_significant_digits at h2 ⊢
  by_cases hs : st.significant_digits < 772
  · have hl : st.buffer.length < buffer_size := by unfold buffer_size; omega
    simp only [if_pos hs, if_pos hl]
    refine ⟨trivial, ?_, ?_⟩
    · simp only [List.length_append, List.length_singleton, Nat.cast_add, Nat.cast_one]
      omega
    · show st.significant_digits + 1 ≤ 772
      omega
  · simp only [if_neg hs]
    exact ⟨trivial, h1, h2⟩

theorem integer_digits_wf (D : List Nat) (st : digit_state) (h : st.wf) :
    (integer_digits D st).wf := by
  induction D generalizing st with
  | nil => exact h
  | cons c cs ih => exact ih _ (integer_digit_ok c st h).2

theorem fraction_digits_wf (F : List Nat) (st : digit_state) (h : st.wf) :
    (fraction_digits F st).wf := by
  induction F generalizing st with
  | nil => exact h
  | cons c cs ih => exact ih _ (fraction_digit_ok c st h).2

/-- The integer digit loop on a run of digits `D` followed by `rest`, which is empty or begins
with a character that is not a digit. -/
theorem integer_loop_eq (D rest : List Nat) (st : digit_state) (hD : digits D)
    (hrest : stops_digits rest) (hwf : st.wf) :
    integer_loop (D ++ rest) st =
      if rest = [] then
        if D = [] then .error .read_past_end
        else .ok (.parsing_done [] (integer_digits D st))
      else .ok (.fallthrough rest (integer_digits D st)) := by
  induction D generalizing st with
  | nil =>
    cases rest with
    | nil => simp [integer_loop]
    | cons c cs =>
      have hc : ¬ (ascii_widen '0' ≤ c ∧ c ≤ ascii_widen '9') := stops_digits_cons.1 hrest
      simp only [List.nil_append, integer_loop, if_neg hc]
      simp [integer_digits]
  | cons d ds ih =>
    have hd : ascii_widen '0' ≤ d ∧ d ≤ ascii_widen '9' := (digits_cons.1 hD).1
    obtain ⟨hok, hwf1⟩ := integer_digit_ok d st hwf
    have ih1 := ih (digits_step integer_digit st d) (digits_cons.1 hD).2 hwf1
    rw [List.cons_append, integer_loop, if_pos hd, hok]
    dsimp only
    by_cases hnil : ds ++ rest = []
    · obtain ⟨h1, h2⟩ := List.append_eq_nil.1 hnil
      subst h1 h2
      simp [integer_digits]
    · rw [if_neg hnil, ih1]
      have hne : ¬ (ds = [] ∧ rest = []) := fun h => hnil (by simp [h.1, h.2])
      by_cases hr : rest = []
      · have hds : ds ≠ [] := fun h => hne ⟨h, hr⟩
        simp [hr, hds, integer_digits]
      · simp [hr, integer_digits]

/-- The fraction digit loop on a run of digits `F` followed by `rest`, which is empty or
begins with a character that is not a digit. -/
theorem fraction_loop_eq (F rest : List Nat) (st : digit_state) (hF : digits F)
    (hrest : stops_digits rest) (hwf : st.wf) :
    fraction_loop (F ++ rest) st =
      if rest = [] then
        if F = [] then .error .read_past_end
        else .ok (.parsing_done [] (fraction_digits F st))
      else .ok (.fallthrough rest (fraction_digits F st)) := by
  induction F generalizing st with
  | nil =>
    cases rest with
    | nil => simp [fraction_loop]
    | cons c cs =>
      have hc : ¬ (ascii_widen '0' ≤ c ∧ c ≤ ascii_widen '9') := stops_digits_cons.1 hrest
      simp only [List.nil_append, fraction_loop, if_neg hc]
      simp [fraction_digits]
  | cons d ds ih =>
    have hd : ascii_widen '0' ≤ d ∧ d ≤ ascii_widen '9' := (digits_cons.1 hF).1
    obtain ⟨hok, hwf1⟩ := fraction_digit_ok d st hwf
    have ih1 := ih (digits_step fraction_digit st d) (digits_cons.1 hF).2 hwf1
    rw [List.cons_append, fraction_loop, if_pos hd, hok]
    dsimp only
    by_cases hnil : ds ++ rest = []
    · obtain ⟨h1, h2⟩ := List.append_eq_nil.1 hnil
      subst h1 h2
      simp [fraction_digits]
    · rw [if_neg hnil, ih1]
      have hne : ¬ (ds = [] ∧ rest = []) := fun h => hnil (by simp [h.1, h.2])
      by_cases hr : rest = []
      · have hds : ds ≠ [] := fun h => hne ⟨h, hr⟩
        simp [hr, hds, fraction_digits]
      · simp [hr, fraction_digits]

theorem integer_digits_cons (d : Nat) (ds : List Nat) (st : digit_state) :
    integer_digits (d :: ds) st = integer_digits ds (digits_step integer_digit st d) := rfl

theorem fraction_digits_cons (d : Nat) (ds : List Nat) (st : digit_state) :
    fraction_digits (d :: ds) st = fraction_digits ds (digits_step fraction_digit st d) := rfl

theorem integer_step_props (c : Nat) (st : digit_state) (h : st.wf) :
    (digits_step integer_digit st c).exponent = st.exponent ∧
    st.significant_digits ≤ (digits_step integer_digit st c).significant_digits ∧
    (st.significant_digits < max_significant_digits →
      st.significant_digits < (digits_step integer_digit st c).significant_digits) := by
  obtain ⟨h1, h2⟩ := h
  unfold digits_step integer_digit buffer_write
  unfold max_significant_digits at h2 ⊢
  by_cases hs : st.significant_digits < 772
  · have hl : st.buffer.length < buffer_size := by unfold buffer_size; omega
    simp only [if_pos hs, if_pos hl]
    refine ⟨trivial, ?_, fun _ => ?_⟩ <;> omega
  · simp only [if_neg hs]
    exact ⟨trivial, le_refl _, fun h3 => absurd h3 hs⟩

theorem fraction_step_props (c : Nat) (st : digit_state) (h : st.wf) :
    (digits_step fraction_digit st c).exponent ≤ st.exponent ∧
    st.significant_digits ≤ (digits_step fraction_digit st c).significant_digits ∧
    (st.significant_digits < max_significant_digits →
      st.significant_digits < (digits_step fraction_digit st c).significant_digits) := by
  obtain ⟨h1, h2⟩ := h
  unfold digits_step fraction_digit buffer_write
  unfold max_significant_digits at h2 ⊢
  by_cases hs : st.significant_digits < 772
  · have hl : st.buffer.length < buffer_size := by unfold buffer_size; omega
    simp only [if_pos hs, if_pos hl]
    refine ⟨?_, ?_, fun _ => ?_⟩ <;> omega
  · simp only [if_neg hs]
    exact ⟨le_refl _, le_refl _, fun h3 => absurd h3 hs⟩

/-- The integer digits leave the exponent alone and never lower the count of stored digits;
a first digit is stored when there is room. -/
theorem integer_digits_props (D : List Nat) (st : digit_state) (h : st.wf) :
    (integer_digits D st).exponent = st.exponent ∧
    st.significant_digits ≤ (integer_digits D st).significant_digits ∧
    (D ≠ [] → st.significant_digits < max_significant_digits →
      st.significant_digits < (integer_digits D st).significant_digits) := by
  induction D generalizing st with
  | nil => exact ⟨rfl, le_refl _, fun h1 => absurd rfl h1⟩
  | cons d ds ih =>
    obtain ⟨p1, p2, p3⟩ := integer_step_props d st h
    obtain ⟨q1, q2, _⟩ := ih _ (integer_digit_ok d st h).2
    rw [integer_digits_cons]
    exact ⟨q1.trans p1, p2.trans q2, fun _ h3 => lt_of_lt_of_le (p3 h3) q2⟩

/-- The fraction digits never raise the exponent and never lower the count of stored digits;
a first digit is stored when there is room. -/
theorem fraction_digits_props (F : List Nat) (st : digit_state) (h : st.wf) :
    (fraction_digits F st).exponent ≤ st.exponent ∧
    st.significant_digits ≤ (fraction_digits F st).significant_digits ∧
    (F ≠ [] → st.significant_digits < max_significant_digits →
      st.significant_digits < (fraction_digits F st).significant_digits) := by
  induction F generalizing st with
  | nil => exact ⟨le_refl _, le_refl _, fun h1 => absurd rfl h1⟩
  | cons d ds ih =>
    obtain ⟨p1, p2, p3⟩ := fraction_step_props d st h
    obtain ⟨q1, q2, _⟩ := ih _ (fraction_digit_ok d st h).2
    rw [fraction_digits_cons]
    exact ⟨q1.trans p1, p2.trans q2, fun _ h3 => lt_of_lt_of_le (p3 h3) q2⟩

/-- The loop over the zeros after the decimal point, on a run `Z` of zeros followed by
`rest`, which is empty or begins with a character other than `0`. -/
theorem fraction_zero_loop_eq (Z rest : List Nat) (exponent : Int)
    (hZ : ∀ c ∈ Z, c = ascii_widen '0')
    (hrest : ∀ c, rest.head? = some c → c ≠ ascii_widen '0') :
    fraction_zero_loop (Z ++ rest) exponent =
      if rest = [] then
        if Z = [] then .error .read_past_end else .ok .returned
      else .ok (.fallthrough rest (exponent - Z.length)) := by
  induction Z generalizing exponent with
  | nil =>
    cases rest with
    | nil => simp [fraction_zero_loop]
    | cons c cs =>
      have hc : c ≠ ascii_widen '0' := hrest c rfl
      rw [List.nil_append, fraction_zero_loop, if_neg hc]
      simp
  | cons z zs ih =>
    have hz : z = ascii_widen '0' := hZ z (List.mem_cons_self _ _)
    have ih1 := ih (exponent - 1) (fun c hc => hZ c (List.mem_cons_of_mem _ hc))
    rw [List.cons_append, fraction_zero_loop, if_pos hz]
    by_cases hnil : zs ++ rest = []
    · obtain ⟨h1, h2⟩ := List.append_eq_nil.1 hnil
      subst h1 h2
      simp
    · rw [if_neg hnil, ih1]
      by_cases hr : rest = []
      · have hzs : zs ≠ [] := fun h => hnil (by simp [h, hr])
        simp [hr, hzs]
      · simp only [hr, if_false, List.length_cons, Nat.cast_add, Nat.cast_one]
        congr 2
        omega

/-- The exponent loop on a first character `x`, a run of digits `X` and `rest`, which is empty
or begins with a character that is not a digit. -/
theorem exponent_loop_eq (x : Nat) (X rest : List Nat) (num : Int) (hX : digits X)
    (hrest : stops_digits rest) :
    exponent_loop (x :: X ++ rest) num = .ok (rest, exponent_digits (x :: X) num) := by
  induction X generalizing x num with
  | nil =>
    have hc : exponent_loop_cond rest = false := by
      cases rest with
      | nil => rfl
      | cons c cs =>
        have := stops_digits_cons.1 hrest
        simpa [exponent_loop_cond, is_digit] using this
    simp [exponent_loop, hc, exponent_digits]
  | cons d ds ih =>
    have hd : exponent_loop_cond (d :: ds ++ rest) = true := by
      have := (digits_cons.1 hX).1
      simpa [exponent_loop_cond, is_digit] using this
    have ih1 := ih d (exponent_digit x num) (digits_cons.1 hX).2
    rw [List.cons_append, exponent_loop]
    simp only [List.cons_append] at hd ih1 ⊢
    rw [if_pos hd, ih1]
    rfl

/-- From the label `parsing_done` on, a well-formed state reaches the converter call. -/
theorem parsing_done_eq (in_size : Nat) (sign : Bool) (it : List Nat) (st : digit_state)
    (h : st.wf) :
    parsing_done in_size sign it st =
      .ok (.convert sign (final_buffer st) (final_exponent st) (in_size - it.length)) := by
  obtain ⟨h1, h2⟩ := h
  unfold max_significant_digits at h2
  unfold parsing_done final_buffer final_exponent buffer_write buffer_size
  by_cases hd : st.nonzero_digit_dropped = true
  · have hl : st.buffer.length < 782 := by omega
    have hl2 : ¬ (st.buffer ++ [ascii_widen '1']).length = 782 := by
      simp only [List.length_append, List.length_singleton]; omega
    simp only [hd, if_true, if_pos hl, if_neg hl2]
  · have hl2 : ¬ st.buffer.length = 782 := by omega
    simp only [hd, if_false, if_neg hl2]
    simp

theorem initial_state_wf : (⟨[], 0, 0, 0, false⟩ : digit_state).wf := by
  simp [digit_state.wf, max_significant_digits]

/-! ## The exponent part -/

theorem passes_validity_iff (leading_zero : Bool) (st : digit_state) :
    ¬ ((!leading_zero) = true ∧ st.exponent = 0 ∧ st.significant_digits = 0) ↔
      passes_validity leading_zero st := by
  unfold passes_validity
  cases leading_zero <;> (simp; try tauto)

theorem exponent_part_invalid (in_size : Nat) (sign leading_zero : Bool) (it : List Nat)
    (st : digit_state) (h : ¬ passes_validity leading_zero st) :
    exponent_part in_size sign leading_zero it st =
      .ok (.returned (.unexpected .invalid_scanned_value) 0) := by
  unfold exponent_part
  rw [if_pos (not_not.1 (mt (passes_validity_iff leading_zero st).1 h))]

/-- A character other than `e` and `E` ends the scan where it stands. -/
theorem exponent_part_other (in_size : Nat) (sign leading_zero : Bool) (c : Nat)
    (it1 : List Nat) (st : digit_state) (h : passes_validity leading_zero st)
    (hc : ¬ (c = ascii_widen 'e' ∨ c = ascii_widen 'E')) :
    exponent_part in_size sign leading_zero (c :: it1) st =
      parsing_done in_size sign (c :: it1) st := by
  unfold exponent_part
  rw [if_neg ((passes_validity_iff leading_zero st).2 h)]
  dsimp only
  rw [if_neg hc]

theorem exponent_loop_cond_digit (x : Nat) (t : List Nat) (hx : is_digit x) :
    exponent_loop_cond (x :: t) = true := by
  simpa [exponent_loop_cond, is_digit] using hx

theorem exponent_loop_cond_stops (rest : List Nat) (h : stops_digits rest) :
    exponent_loop_cond rest = false := by
  cases rest with
  | nil => rfl
  | cons c cs =>
    have := stops_digits_cons.1 h
    simpa [exponent_loop_cond, is_digit] using this

theorem is_digit_not_sign {c : Nat} (h : is_digit c) :
    ¬ (c = ascii_widen '+' ∨ c = ascii_widen '-') := by
  unfold is_digit at h
  simp only [ascii_widen_0, ascii_widen_9, ascii_widen_plus, ascii_widen_minus] at h ⊢
  omega

/-- The exponent part on a marker `m`, an optional sign `sg`, a run of digits `X` and `rest`,
which is empty or begins with a character that is not a digit: without a digit the iterator
goes back to the marker, with digits the exponent is added. -/
theorem exponent_part_eq (in_size : Nat) (sign leading_zero : Bool) (m : Nat)
    (sg X rest : List Nat) (st : digit_state) (h : passes_validity leading_zero st)
    (hm : m = ascii_widen 'e' ∨ m = ascii_widen 'E') (hsg : optional_sign sg)
    (hX : digits X) (hrest : stops_digits rest)
    (hns : sg = [] → X = [] →
      ∀ c, rest.head? = some c → ¬ (c = ascii_widen '+' ∨ c = ascii_widen '-')) :
    exponent_part in_size sign leading_zero (m :: (sg ++ (X ++ rest))) st =
      if X = [] then parsing_done in_size sign (m :: (sg ++ (X ++ rest))) st
      else if -(max_exponent / 2) ≤ st.exponent ∧ st.exponent ≤ max_exponent / 2 then
        parsing_done in_size sign rest
          { st with exponent := st.exponent +
              (if sg = [ascii_widen '-'] then -exponent_digits X 0 else exponent_digits X 0) }
      else .error .expect_exponent_range := by
  have hv := (passes_validity_iff leading_zero st).2 h
  unfold exponent_part
  rw [if_neg hv]
  dsimp only
  rw [if_pos hm]
  cases X with
  | nil =>
    simp only [List.nil_append, if_true]
    have hcond := exponent_loop_cond_stops rest hrest
    rcases hsg with rfl | rfl | rfl
    · cases rest with
      | nil => rfl
      | cons c cs =>
        have hc := hns rfl rfl c rfl
        simp only [List.nil_append, hc, decide_False, Bool.false_eq_true, false_and, if_false,
          hcond, Bool.not_false, if_true]
    · cases rest with
      | nil => simp
      | cons c cs => simp [hcond]
    · cases rest with
      | nil => simp
      | cons c cs => simp [hcond]
  | cons x xs =>
    have hx := (digits_cons.1 hX).1
    have hxs := (digits_cons.1 hX).2
    have hxn := is_digit_not_sign hx
    have hcond := exponent_loop_cond_digit x (xs ++ rest) hx
    have hloop := exponent_loop_eq x xs rest 0 hxs hrest
    simp only [List.cons_append] at hloop ⊢
    simp only [if_neg (List.cons_ne_nil x xs)]
    rcases hsg with rfl | rfl | rfl
    · simp only [List.nil_append, hxn, decide_False, Bool.false_eq_true, false_and, if_false,
        hcond, Bool.not_true, hloop]
      by_cases hr : -(max_exponent / 2) ≤ st.exponent ∧ st.exponent ≤ max_exponent / 2
      · simp [hr]
      · simp [hr]
    · simp only [List.singleton_append, ascii_widen_plus, ascii_widen_minus, true_or,
        decide_True, if_true, List.cons_ne_nil, and_false, if_false, hcond, Bool.not_true,
        Bool.false_eq_true, hloop]
      by_cases hr : -(max_exponent / 2) ≤ st.exponent ∧ st.exponent ≤ max_exponent / 2
      · simp [hr]
      · simp [hr]
    · simp only [List.singleton_append, ascii_widen_plus, ascii_widen_minus, or_true,
        decide_True, if_true, List.cons_ne_nil, and_false, if_false, hcond, Bool.not_true,
        Bool.false_eq_true, hloop]
      by_cases hr : -(max_exponent / 2) ≤ st.exponent ∧ st.exponent ≤ max_exponent / 2
      · simp [hr]
      · simp [hr]

/-! ## The fraction part -/

/-- A character other than the decimal point sends the scan to the exponent part. -/
theorem fraction_part_nodot (in_size : Nat) (sign leading_zero : Bool) (c : Nat)
    (it1 : List Nat) (st : digit_state) (hc : c ≠ ascii_widen '.') :
    fraction_part in_size sign leading_zero (c :: it1) st =
      exponent_part in_size sign leading_zero (c :: it1) st := by
  unfold fraction_part
  dsimp only
  rw [if_neg hc]

theorem wf_with_exponent (st : digit_state) (e : Int) (h : st.wf) :
    ({ st with exponent := e } : digit_state).wf := h

/-- The fraction part when digits are already stored: a decimal point, a run of digits
`F` and `rest`, which is empty or begins with a character that is not a digit. -/
theorem fraction_part_dot_pos (in_size : Nat) (sign leading_zero : Bool)
    (F rest : List Nat) (st : digit_state) (hF : digits F) (hrest : stops_digits rest)
    (hwf : st.wf) (hsig : st.significant_digits ≠ 0) :
    fraction_part in_size sign leading_zero (ascii_widen '.' :: (F ++ rest)) st =
      if rest = [] then parsing_done in_size sign [] (fraction_digits F st)
      else exponent_part in_size sign leading_zero rest (fraction_digits F st) := by
  unfold fraction_part
  dsimp only
  rw [if_pos rfl]
  by_cases hnil : F ++ rest = []
  · obtain ⟨h1, h2⟩ := List.append_eq_nil.1 hnil
    subst h1 h2
    simp [hsig, fraction_digits]
  · rw [if_neg hnil, if_neg hsig]
    dsimp only
    have hst : ({ st with exponent := st.exponent } : digit_state) = st := rfl
    rw [hst, fraction_loop_eq F rest st hF hrest hwf]
    by_cases hr : rest = []
    · have hFne : F ≠ [] := fun h => hnil (by simp [h, hr])
      simp [hr, hFne]
    · simp [hr]

/-- The fraction part when no digit is stored yet: a decimal point, a run `Z` of zeros, a
run of digits `F` that does not begin with a zero and `rest`, which is empty or begins with
a character that is not a digit. -/
theorem fraction_part_dot_zero (in_size : Nat) (sign leading_zero : Bool)
    (Z F rest : List Nat) (st : digit_state) (hZ : ∀ c ∈ Z, c = ascii_widen '0')
    (hF : digits F) (hF0 : ∀ c, F.head? = some c → c ≠ ascii_widen '0')
    (hrest : stops_digits rest) (hwf : st.wf) (hsig : st.significant_digits = 0) :
    fraction_part in_size sign leading_zero (ascii_widen '.' :: (Z ++ (F ++ rest))) st =
      if rest = [] then
        if F = [] then
          if Z = [] then
            if leading_zero = true then parsing_done in_size sign [] st
            else .ok (.returned (.unexpected .invalid_scanned_value) 0)
          else .ok (.returned (.value (if sign then .finite true 0 else .finite false 0))
            in_size)
        else parsing_done in_size sign []
          (fraction_digits F { st with exponent := st.exponent - Z.length })
      else exponent_part in_size sign leading_zero rest
        (fraction_digits F { st with exponent := st.exponent - Z.length }) := by
  have hstop : ∀ c, (F ++ rest).head? = some c → c ≠ ascii_widen '0' := by
    intro c hc
    cases F with
    | nil =>
      have h1 : ¬ is_digit c := hrest c (by simpa using hc)
      intro h2
      exact h1 (by rw [h2]; decide)
    | cons f fs => exact hF0 c (by simpa using hc)
  unfold fraction_part
  dsimp only
  rw [if_pos rfl]
  by_cases hnil : Z ++ (F ++ rest) = []
  · obtain ⟨h1, h2⟩ := List.append_eq_nil.1 hnil
    obtain ⟨h3, h4⟩ := List.append_eq_nil.1 h2
    subst h1 h3 h4
    cases leading_zero <;> simp [hsig]
  · rw [if_neg hnil, if_pos hsig, fraction_zero_loop_eq Z (F ++ rest) st.exponent hZ hstop]
    by_cases hFr : F ++ rest = []
    · obtain ⟨h3, h4⟩ := List.append_eq_nil.1 hFr
      subst h3 h4
      have hZne : Z ≠ [] := fun h => hnil (by simp [h])
      simp [hZne]
    · rw [if_neg hFr]
      dsimp only
      rw [fraction_loop_eq F rest _ hF hrest (wf_with_exponent st _ hwf)]
      by_cases hr : rest = []
      · have hFne : F ≠ [] := fun h => hFr (by simp [h, hr])
        simp [hr, hFne]
      · simp [hr]

/-! ## The integer part and the mantissa -/

/-- The integer part on a run of digits `D` followed by `rest`, which is empty or begins with
a character that is not a digit. -/
theorem digits_part_eq (in_size : Nat) (sign leading_zero : Bool) (D rest : List Nat)
    (hD : digits D) (hrest : stops_digits rest) :
    digits_part in_size sign leading_zero (D ++ rest) =
      if rest = [] then
        if D = [] then .error .read_past_end
        else parsing_done in_size sign [] (integer_digits D initial_state)
      else fraction_part in_size sign leading_zero rest (integer_digits D initial_state) := by
  unfold digits_part
  have h := integer_loop_eq D rest initial_state hD hrest initial_state_wf
  unfold initial_state at h ⊢
  rw [h]
  by_cases hr : rest = []
  · by_cases hd : D = []
    · simp [hr, hd]
    · simp [hr, hd]
  · simp [hr]

/-- After the sign, a first character that is none of `n`, `N`, `i`, `I`, `0` starts the
integer part. -/
theorem after_sign_decimal (in_size : Nat) (sign : Bool) (c : Nat) (t : List Nat)
    (hn : ¬ (c = ascii_widen 'n' ∨ c = ascii_widen 'N'))
    (hi : ¬ (c = ascii_widen 'i' ∨ c = ascii_widen 'I')) (h0 : c ≠ ascii_widen '0') :
    after_sign in_size sign (c :: t) = digits_part in_size sign false (c :: t) := by
  unfold after_sign
  dsimp only
  rw [if_neg hn, if_neg hi, if_neg h0]

/-- After the sign, a `0` followed by a character other than `x` and `X` is a leading zero,
and the integer part starts after it. -/
theorem after_sign_zero (in_size : Nat) (sign : Bool) (x : Nat) (t : List Nat)
    (hx : ¬ (x = ascii_widen 'x' ∨ x = ascii_widen 'X')) :
    after_sign in_size sign (ascii_widen '0' :: x :: t) =
      digits_part in_size sign true (x :: t) := by
  unfold after_sign
  dsimp only
  rw [if_neg (by decide), if_neg (by decide), if_pos rfl, if_neg hx]

theorem is_digit_not_letter {c : Nat} (h : is_digit c) :
    ¬ (c = ascii_widen 'n' ∨ c = ascii_widen 'N') ∧
    ¬ (c = ascii_widen 'i' ∨ c = ascii_widen 'I') ∧
    ¬ (c = ascii_widen 'x' ∨ c = ascii_widen 'X') ∧
    ¬ (c = ascii_widen 'e' ∨ c = ascii_widen 'E') ∧
    c ≠ ascii_widen '.' := by
  unfold is_digit at h
  simp only [ascii_widen_0, ascii_widen_9, ascii_widen_n, ascii_widen_N, ascii_widen_i,
    ascii_widen_I, ascii_widen_x, ascii_widen_X, ascii_widen_e, ascii_widen_E,
    ascii_widen_dot] at h ⊢
  omega

/-- After the sign, a non-empty run of digits `D` followed by `rest`, which is empty or
begins with a character that is not a digit: the scan goes on at `rest` with the state of
the digits, which has a stored digit unless a leading zero was seen. -/
theorem after_sign_digits (D : List Nat) (hD : digits D) (hne : D ≠ []) :
    ∃ lz st, st.wf ∧ st.exponent = 0 ∧ (lz = true ∨ st.significant_digits ≠ 0) ∧
      ∀ (in_size : Nat) (sign : Bool) (rest : List Nat), stops_digits rest →
        ¬ hex_start (D ++ rest) → D ++ rest ≠ [ascii_widen '0'] →
        after_sign in_size sign (D ++ rest) =
          if rest = [] then parsing_done in_size sign [] st
          else fraction_part in_size sign lz rest st := by
  obtain ⟨d, ds, rfl⟩ := List.exists_cons_of_ne_nil hne
  have hd := (digits_cons.1 hD).1
  have hds := (digits_cons.1 hD).2
  obtain ⟨hdn, hdi, _, _, _⟩ := is_digit_not_letter hd
  by_cases h0 : d = ascii_widen '0'
  · subst h0
    have hp := integer_digits_props ds initial_state initial_state_wf
    refine ⟨true, integer_digits ds initial_state,
      integer_digits_wf ds _ initial_state_wf, hp.1, Or.inl rfl, ?_⟩
    intro in_size sign rest hstop hhex hbare
    have hne2 : ds ++ rest ≠ [] := fun h => hbare (by rw [List.cons_append, h])
    obtain ⟨x, t, hxt⟩ := List.exists_cons_of_ne_nil hne2
    have hx : ¬ (x = ascii_widen 'x' ∨ x = ascii_widen 'X') := by
      intro hx
      exact hhex ⟨x, t, by rw [List.cons_append, hxt], hx⟩
    rw [List.cons_append, hxt, after_sign_zero in_size sign x t hx, ← hxt,
      digits_part_eq in_size sign true ds rest hds hstop]
    by_cases hr : rest = []
    · have hdsne : ds ≠ [] := fun h => hne2 (by rw [h, hr]; rfl)
      rw [if_pos hr, if_pos hr, if_neg hdsne]
    · rw [if_neg hr, if_neg hr]
  · have hp := integer_digits_props (d :: ds) initial_state initial_state_wf
    have hsig : (integer_digits (d :: ds) initial_state).significant_digits ≠ 0 := by
      have := hp.2.2 (List.cons_ne_nil _ _) (by decide)
      have h2 : initial_state.significant_digits = 0 := rfl
      omega
    refine ⟨false, integer_digits (d :: ds) initial_state,
      integer_digits_wf _ _ initial_state_wf, hp.1, Or.inr hsig, ?_⟩
    intro in_size sign rest hstop _ _
    rw [List.cons_append, after_sign_decimal in_size sign d _ hdn hdi h0,
      ← List.cons_append, digits_part_eq in_size sign false (d :: ds) rest hD hstop,
      if_neg (List.cons_ne_nil d ds)]

/-- A run of digits splits into its leading zeros and the digits from the first nonzero
digit on. -/
theorem split_zeros (F : List Nat) (hF : digits F) :
    ∃ Z G, F = Z ++ G ∧ (∀ c ∈ Z, c = ascii_widen '0') ∧ digits G ∧
      (∀ c, G.head? = some c → c ≠ ascii_widen '0') := by
  induction F with
  | nil => exact ⟨[], [], rfl, by simp, digits_nil, by simp⟩
  | cons f fs ih =>
    obtain ⟨Z, G, h1, h2, h3, h4⟩ := ih (digits_cons.1 hF).2
    by_cases hf : f = ascii_widen '0'
    · refine ⟨f :: Z, G, by rw [h1]; rfl, ?_, h3, h4⟩
      intro c hc
      rcases List.mem_cons.1 hc with h | h
      · rw [h, hf]
      · exact h2 c h
    · refine ⟨[], f :: fs, rfl, by simp, hF, ?_⟩
      intro c hc
      simp only [List.head?_cons, Option.some.injEq] at hc
      rw [← hc]
      exact hf

/-- Every list splits into its leading run of digits and a rest that is empty or begins with
a character that is not a digit. -/
theorem split_digits (l : List Nat) :
    ∃ D rest, l = D ++ rest ∧ digits D ∧ stops_digits rest := by
  induction l with
  | nil => exact ⟨[], [], rfl, digits_nil, stops_digits_nil⟩
  | cons c cs ih =>
    obtain ⟨D, rest, h1, h2, h3⟩ := ih
    by_cases hc : is_digit c
    · exact ⟨c :: D, rest, by rw [h1]; rfl, digits_cons.2 ⟨hc, h2⟩, h3⟩
    · exact ⟨[], c :: cs, rfl, digits_nil, stops_digits_cons.2 hc⟩

theorem parsing_done_accepts (in_size : Nat) (sign : Bool) (it : List Nat) (st : digit_state)
    (h : st.wf) :
    ∃ r, parsing_done in_size sign it st = .ok r ∧ r.accepts (in_size - it.length) :=
  ⟨_, parsing_done_eq in_size sign it st h, Or.inl ⟨_, _, _, rfl⟩⟩

theorem wf_significant_nonneg (st : digit_state) (h : st.wf) : 0 ≤ st.significant_digits := by
  have := h.1
  omega

/-- The fraction part on a decimal point and a run of digits `F`, from a state with exponent
0, when a leading zero was seen, a digit is stored or `F` is not empty: at the end of the
input the scan accepts all of it, and before a rest `q` it goes on to the exponent part with
a state that passes the validity check. -/
theorem fraction_part_dot (F : List Nat) (hF : digits F) (lz : Bool) (st : digit_state)
    (hwf : st.wf) (hexp : st.exponent = 0)
    (hv : lz = true ∨ st.significant_digits ≠ 0 ∨ F ≠ []) :
    ∃ st2, st2.wf ∧ passes_validity lz st2 ∧
      (∀ (in_size : Nat) (sign : Bool), ∃ r,
        fraction_part in_size sign lz (ascii_widen '.' :: F) st = .ok r ∧
          r.accepts in_size) ∧
      (∀ (in_size : Nat) (sign : Bool) (q : List Nat), q ≠ [] → stops_digits q →
        fraction_part in_size sign lz (ascii_widen '.' :: (F ++ q)) st =
          exponent_part in_size sign lz q st2) := by
  have hnonneg := wf_significant_nonneg st hwf
  by_cases hsig : st.significant_digits = 0
  · obtain ⟨Z, G, hZG, hZ, hG, hG0⟩ := split_zeros F hF
    have hwf1 : ({ st with exponent := st.exponent - Z.length } : digit_state).wf := hwf
    have hp := fraction_digits_props G _ hwf1
    refine ⟨fraction_digits G { st with exponent := st.exponent - Z.length },
      fraction_digits_wf G _ hwf1, ?_, ?_, ?_⟩
    · rcases hv with h | h | h
      · exact Or.inl h
      · exact absurd hsig h
      · by_cases hZne : Z = []
        · have hGne : G ≠ [] := by
            intro hG2
            apply h
            rw [hZG, hZne, hG2]
            rfl
          right; right
          have h3 := hp.2.2 hGne (by
            show st.significant_digits < max_significant_digits
            rw [hsig]; decide)
          have h4 : ({ st with exponent := st.exponent - Z.length } :
            digit_state).significant_digits = 0 := hsig
          omega
        · right; left
          have h3 := hp.1
          have h4 : ({ st with exponent := st.exponent - Z.length } :
            digit_state).exponent = st.exponent - Z.length := rfl
          have h5 : 0 < Z.length := List.length_pos.2 hZne
          omega
    · intro in_size sign
      have h := fraction_part_dot_zero in_size sign lz Z G [] st hZ hG hG0 stops_digits_nil
        hwf hsig
      rw [List.append_nil, ← hZG] at h
      rw [h, if_pos rfl]
      by_cases hGne : G = []
      · rw [if_pos hGne]
        by_cases hZne : Z = []
        · have hlz : lz = true := by
            rcases hv with h1 | h1 | h1
            · exact h1
            · exact absurd hsig h1
            · exact absurd (by rw [hZG, hZne, hGne]; rfl) h1
          rw [if_pos hZne, if_pos hlz]
          have := parsing_done_accepts in_size sign [] st hwf
          simpa using this
        · rw [if_neg hZne]
          exact ⟨_, rfl, Or.inr ⟨_, rfl⟩⟩
      · rw [if_neg hGne]
        have := parsing_done_accepts in_size sign [] _ (fraction_digits_wf G _ hwf1)
        simpa using this
    · intro in_size sign q hq hstop
      have h := fraction_part_dot_zero in_size sign lz Z G q st hZ hG hG0 hstop hwf hsig
      rw [← List.append_assoc, ← hZG] at h
      rw [h, if_neg hq]
  · have hp := fraction_digits_props F st hwf
    refine ⟨fraction_digits F st, fraction_digits_wf F st hwf, ?_, ?_, ?_⟩
    · right; right
      have := hp.2.1
      omega
    · intro in_size sign
      have h := fraction_part_dot_pos in_size sign lz F [] st hF stops_digits_nil hwf hsig
      rw [List.append_nil] at h
      rw [h, if_pos rfl]
      have := parsing_done_accepts in_size sign [] _ (fraction_digits_wf F st hwf)
      simpa using this
    · intro in_size sign q hq hstop
      rw [fraction_part_dot_pos in_size sign lz F q st hF hstop hwf hsig, if_neg hq]

/-- After the sign, a mantissa `M`: at the end of the input the scan accepts all of it
(the input "0" apart), and before a rest `q` that cannot extend the mantissa it goes on to
the exponent part with a state that depends on `M` only and passes the validity check. -/
theorem after_sign_mantissa (M : List Nat) (hM : mantissa M) :
    ∃ lz st, st.wf ∧ passes_validity lz st ∧
      (∀ (in_size : Nat) (sign : Bool), M ≠ [ascii_widen '0'] → ∃ r,
        after_sign in_size sign M = .ok r ∧ r.accepts in_size) ∧
      (∀ (in_size : Nat) (sign : Bool) (q : List Nat), q ≠ [] → stops_digits q →
        (digits M → ∀ c, q.head? = some c → c ≠ ascii_widen '.') →
        ¬ hex_start (M ++ q) →
        after_sign in_size sign (M ++ q) = exponent_part in_size sign lz q st) := by
  rcases hM with ⟨hne, hD⟩ | ⟨D, F, rfl, hne, hD, hF⟩ | ⟨F, rfl, hne, hF⟩
  · obtain ⟨lz, st, hwf, hexp, hv, hrun⟩ := after_sign_digits M hD hne
    refine ⟨lz, st, hwf, ?_, ?_, ?_⟩
    · rcases hv with h | h
      · exact Or.inl h
      · exact Or.inr (Or.inr h)
    · intro in_size sign hbare
      have h := hrun in_size sign [] stops_digits_nil
        (by
          rintro ⟨x, t, h1, h2⟩
          rw [List.append_nil] at h1
          have hx : is_digit x := hD x (by rw [h1]; simp)
          exact (is_digit_not_letter hx).2.2.1 h2)
        (by rwa [List.append_nil])
      rw [List.append_nil, if_pos rfl] at h
      rw [h]
      have := parsing_done_accepts in_size sign [] st hwf
      simpa using this
    · intro in_size sign q hq hstop hdot hhex
      obtain ⟨c, t, rfl⟩ := List.exists_cons_of_ne_nil hq
      have hbare : M ++ c :: t ≠ [ascii_widen '0'] := by
        intro h
        have := congrArg List.length h
        simp only [List.length_append, List.length_cons, List.length_nil] at this
        have := List.length_pos.2 hne
        omega
      rw [hrun in_size sign (c :: t) hstop hhex hbare, if_neg hq,
        fraction_part_nodot in_size sign lz c t st (hdot hD c rfl)]
  · obtain ⟨lz, st, hwf, hexp, hv, hrun⟩ := after_sign_digits D hD hne
    obtain ⟨st2, hwf2, hv2, hend, hgo⟩ := fraction_part_dot F hF lz st hwf hexp
      (by rcases hv with h | h
          · exact Or.inl h
          · exact Or.inr (Or.inl h))
    have hstopdot : ∀ t, stops_digits (ascii_widen '.' :: t) := fun t =>
      stops_digits_cons.2 (by decide)
    have hnohex : ∀ t, ¬ hex_start (D ++ ascii_widen '.' :: t) := by
      rintro t ⟨x, u, h1, h2⟩
      obtain ⟨d, ds, rfl⟩ := List.exists_cons_of_ne_nil hne
      cases ds with
      | nil =>
        simp only [List.cons_append, List.nil_append, List.cons.injEq] at h1
        rw [← h1.2.1] at h2
        revert h2
        decide
      | cons e es =>
        simp only [List.cons_append, List.cons.injEq] at h1
        have he : is_digit e := (digits_cons.1 (digits_cons.1 hD).2).1
        rw [h1.2.1] at he
        exact (is_digit_not_letter he).2.2.1 h2
    have hnobare : ∀ t, D ++ ascii_widen '.' :: t ≠ [ascii_widen '0'] := by
      intro t h
      have := congrArg List.length h
      simp only [List.length_append, List.length_cons, List.length_nil] at this
      have := List.length_pos.2 hne
      omega
    refine ⟨lz, st2, hwf2, hv2, ?_, ?_⟩
    · intro in_size sign _
      rw [hrun in_size sign _ (hstopdot F) (hnohex F) (hnobare F),
        if_neg (List.cons_ne_nil _ _)]
      exact hend in_size sign
    · intro in_size sign q hq hstop _ _
      rw [List.append_assoc, List.cons_append,
        hrun in_size sign _ (hstopdot (F ++ q)) (hnohex (F ++ q)) (hnobare (F ++ q)),
        if_neg (List.cons_ne_nil _ _)]
      exact hgo in_size sign q hq hstop
  · obtain ⟨st2, hwf2, hv2, hend, hgo⟩ := fraction_part_dot F hF false initial_state
      initial_state_wf rfl (Or.inr (Or.inr hne))
    have hstart : ∀ (in_size : Nat) (sign : Bool) (t : List Nat),
        after_sign in_size sign (ascii_widen '.' :: t) =
          fraction_part in_size sign false (ascii_widen '.' :: t) initial_state := by
      intro in_size sign t
      rw [after_sign_decimal in_size sign _ t (by decide) (by decide) (by decide)]
      have h := digits_part_eq in_size sign false [] (ascii_widen '.' :: t) digits_nil
        (stops_digits_cons.2 (by decide))
      rw [List.nil_append, if_neg (List.cons_ne_nil _ _)] at h
      rw [h]
      rfl
    refine ⟨false, st2, hwf2, hv2, ?_, ?_⟩
    · intro in_size sign _
      rw [hstart]
      exact hend in_size sign
    · intro in_size sign q hq hstop _ _
      rw [List.cons_append, hstart]
      exact hgo in_size sign q hq hstop

/-! ## From the scanning part to `string_to_ieee` -/

/-- When the scanning part accepts, `string_to_ieee` returns a value and the same count. -/
theorem string_to_ieee_of_accepts (input : List Nat) (r : scanned) (n : Nat)
    (h : string_to_ieee_scan input = .ok r) (hr : r.accepts n) :
    ∃ v, string_to_ieee input = .ok ⟨.value v, n⟩ := by
  unfold string_to_ieee
  rw [h]
  rcases hr with ⟨sign, buffer, exponent, rfl⟩ | ⟨v, rfl⟩
  · exact ⟨_, rfl⟩
  · exact ⟨_, rfl⟩

/-- The scanner on an optional sign followed by a mantissa and a rest. -/
theorem string_to_ieee_scan_mantissa (sg M q : List Nat) (hsg : optional_sign sg)
    (hM : mantissa M) :
    string_to_ieee_scan (sg ++ M ++ q) =
      after_sign (sg.length + M.length + q.length) (sign_flag sg) (M ++ q) := by
  have hne : M ≠ [] := by
    rcases hM with ⟨h, _⟩ | ⟨D, F, rfl, _, _, _⟩ | ⟨F, rfl, _, _⟩ <;> simp_all
  obtain ⟨c, t, rfl⟩ := List.exists_cons_of_ne_nil hne
  have hc : ¬ (c = ascii_widen '+' ∨ c = ascii_widen '-') := by
    rcases hM with ⟨_, hD⟩ | ⟨D, F, h1, hne1, hD, _⟩ | ⟨F, h1, _, _⟩
    · exact is_digit_not_sign (digits_cons.1 hD).1
    · obtain ⟨d, ds, rfl⟩ := List.exists_cons_of_ne_nil hne1
      simp only [List.cons_append, List.cons.injEq] at h1
      rw [h1.1]
      exact is_digit_not_sign (digits_cons.1 hD).1
    · simp only [List.cons.injEq] at h1
      rw [h1.1]
      decide
  have h := string_to_ieee_scan_sign sg c (t ++ q) hsg (fun _ => hc)
  rw [List.append_assoc, List.cons_append, h]
  unfold sign_flag
  congr 1
  simp only [List.length_cons, List.length_append]
  omega

/-- An exponent marker that no exponent follows ends the scan before the marker. -/
theorem exponent_part_dangling (in_size : Nat) (sign leading_zero : Bool) (m : Nat)
    (r : List Nat) (st : digit_state) (h : passes_validity leading_zero st)
    (hm : m = ascii_widen 'e' ∨ m = ascii_widen 'E') (hr : dangling r) :
    exponent_part in_size sign leading_zero (m :: r) st =
      parsing_done in_size sign (m :: r) st := by
  have key : ∀ sg rest, optional_sign sg → stops_digits rest →
      (sg = [] → ∀ c, rest.head? = some c → ¬ (c = ascii_widen '+' ∨ c = ascii_widen '-')) →
      r = sg ++ rest →
      exponent_part in_size sign leading_zero (m :: r) st =
        parsing_done in_size sign (m :: r) st := by
    intro sg rest hsg hstop hns hreq
    have := exponent_part_eq in_size sign leading_zero m sg [] rest st h hm hsg digits_nil
      hstop (fun h1 _ => hns h1)
    rw [List.nil_append, if_pos rfl, ← hreq] at this
    exact this
  rcases hr with rfl | ⟨s, hs, rfl⟩ | ⟨s, c, t, hs, hc, rfl⟩ | ⟨c, t, hc1, hc2, rfl⟩
  · exact key [] [] (Or.inl rfl) stops_digits_nil (fun _ c hc => by simp at hc) rfl
  · refine key [s] [] ?_ stops_digits_nil (fun h1 => by simp at h1) rfl
    rcases hs with rfl | rfl
    · exact Or.inr (Or.inl rfl)
    · exact Or.inr (Or.inr rfl)
  · refine key [s] (c :: t) ?_ (stops_digits_cons.2 hc) (fun h1 => by simp at h1) rfl
    rcases hs with rfl | rfl
    · exact Or.inr (Or.inl rfl)
    · exact Or.inr (Or.inr rfl)
  · refine key [] (c :: t) (Or.inl rfl) (stops_digits_cons.2 hc2) ?_ rfl
    intro _ x hx
    simp only [List.head?_cons, Option.some.injEq] at hx
    rw [← hx]
    exact hc1

/-! ## The decimal path on an arbitrary input -/

/-- Every non-empty input is its optional sign followed by the rest. -/
theorem sign_split (input : List Nat) (hne : input ≠ []) :
    ∃ sg, optional_sign sg ∧ input = sg ++ after_optional_sign input ∧
      (sg = [] → ∀ c, (after_optional_sign input).head? = some c →
        ¬ (c = ascii_widen '+' ∨ c = ascii_widen '-')) := by
  obtain ⟨c, t, rfl⟩ := List.exists_cons_of_ne_nil hne
  by_cases hc : c = ascii_widen '+' ∨ c = ascii_widen '-'
  · refine ⟨[c], ?_, by simp only [after_optional_sign, if_pos hc]; rfl,
      fun h => by simp at h⟩
    rcases hc with rfl | rfl
    · exact Or.inr (Or.inl rfl)
    · exact Or.inr (Or.inr rfl)
  · refine ⟨[], Or.inl rfl, by simp only [after_optional_sign, if_neg hc]; rfl, ?_⟩
    intro _ x hx
    simp only [after_optional_sign, if_neg hc, List.head?_cons, Option.some.injEq] at hx
    rw [← hx]
    exact hc

theorem not_digits_dot (A B : List Nat) : ¬ digits (A ++ ascii_widen '.' :: B) := by
  intro h
  exact absurd ((digits_cons.1 (digits_append.1 h).2).1) (by decide)

/-- An input that begins like a number splits into a mantissa and a rest that cannot extend
it. -/
theorem mantissa_split (body : List Nat) (h : starts_number body) :
    ∃ M q, body = M ++ q ∧ mantissa M ∧ stops_digits q ∧
      (digits M → ∀ c, q.head? = some c → c ≠ ascii_widen '.') := by
  rcases h with ⟨d, t, rfl, hd⟩ | ⟨d, t, rfl, hd⟩
  · obtain ⟨D, r1, h1, hD, hr1⟩ := split_digits t
    have hD2 : digits (d :: D) := digits_cons.2 ⟨hd, hD⟩
    by_cases hdot : ∃ r2, r1 = ascii_widen '.' :: r2
    · obtain ⟨r2, rfl⟩ := hdot
      obtain ⟨F, r3, h2, hF, hr3⟩ := split_digits r2
      refine ⟨d :: D ++ ascii_widen '.' :: F, r3, ?_, ?_, hr3, ?_⟩
      · rw [h1, h2]; simp
      · exact Or.inr (Or.inl ⟨d :: D, F, rfl, List.cons_ne_nil _ _, hD2, hF⟩)
      · intro hdig
        exact absurd hdig (not_digits_dot _ _)
    · refine ⟨d :: D, r1, by rw [h1]; rfl, Or.inl ⟨List.cons_ne_nil _ _, hD2⟩, hr1, ?_⟩
      intro _ c hc hcd
      cases r1 with
      | nil => simp at hc
      | cons x xs =>
        simp only [List.head?_cons, Option.some.injEq] at hc
        exact hdot ⟨xs, by rw [hc, hcd]⟩
  · obtain ⟨F, r3, h2, hF, hr3⟩ := split_digits t
    refine ⟨ascii_widen '.' :: d :: F, r3, by rw [h2]; rfl, ?_, hr3, ?_⟩
    · exact Or.inr (Or.inr ⟨d :: F, rfl, List.cons_ne_nil _ _, digits_cons.2 ⟨hd, hF⟩⟩)
    · intro hdig
      exact absurd (digits_cons.1 hdig).1 (by decide)

/-- What follows an exponent marker splits into an optional sign, a run of digits and a rest
that cannot extend it. -/
theorem split_exponent (r : List Nat) :
    ∃ sg X rest, r = sg ++ (X ++ rest) ∧ optional_sign sg ∧ digits X ∧ stops_digits rest ∧
      (sg = [] → X = [] →
        ∀ c, rest.head? = some c → ¬ (c = ascii_widen '+' ∨ c = ascii_widen '-')) := by
  cases r with
  | nil =>
    exact ⟨[], [], [], rfl, Or.inl rfl, digits_nil, stops_digits_nil,
      fun _ _ c hc => by simp at hc⟩
  | cons s t =>
    by_cases hs : s = ascii_widen '+' ∨ s = ascii_widen '-'
    · obtain ⟨X, rest, h1, hX, hrest⟩ := split_digits t
      refine ⟨[s], X, rest, by rw [h1]; rfl, ?_, hX, hrest, fun h => by simp at h⟩
      rcases hs with rfl | rfl
      · exact Or.inr (Or.inl rfl)
      · exact Or.inr (Or.inr rfl)
    · obtain ⟨X, rest, h1, hX, hrest⟩ := split_digits (s :: t)
      refine ⟨[], X, rest, by rw [h1]; rfl, Or.inl rfl, hX, hrest, ?_⟩
      intro _ hXnil c hc
      rw [hXnil, List.nil_append] at h1
      rw [← h1] at hc
      simp only [List.head?_cons, Option.some.injEq] at hc
      rw [← hc]
      exact hs

/-- The decimal path: an input that, after its optional sign, begins like a number (and is
neither "0" alone nor a hexadecimal mark) splits into a mantissa `M`, an optional exponent
`E` and a rest `R`, each taken as long as possible, and the scanning part either fails the
exponent range check or accepts with the sign, `M` and `E` consumed. -/
theorem decimal_scan (sg body : List Nat) (hsg : optional_sign sg)
    (hstart : starts_number body) (hhex : ¬ hex_start body)
    (hbare : body ≠ [ascii_widen '0']) :
    ∃ M E R, body = M ++ (E ++ R) ∧ mantissa M ∧ exponent_opt E ∧ stops_digits (E ++ R) ∧
      (digits M → ∀ c, (E ++ R).head? = some c → c ≠ ascii_widen '.') ∧
      (E = [] → ¬ starts_exponent R) ∧ (E ≠ [] → stops_digits R) ∧
      (string_to_ieee_scan (sg ++ body) = .error .expect_exponent_range ∨
        ∃ r, string_to_ieee_scan (sg ++ body) = .ok r ∧
          r.accepts (sg.length + M.length + E.length)) := by
  obtain ⟨M, q, rfl, hM, hq, hdot⟩ := mantissa_split body hstart
  obtain ⟨lz, st, hwf, hv, hend, hgo⟩ := after_sign_mantissa M hM
  have hscan := string_to_ieee_scan_mantissa sg M q hsg hM
  rw [List.append_assoc] at hscan
  cases q with
  | nil =>
    refine ⟨M, [], [], rfl, hM, Or.inl rfl, stops_digits_nil, fun _ c hc => by simp at hc,
      ?_, fun h => absurd rfl h, Or.inr ?_⟩
    · rintro _ ⟨m, sg2, x, t, h, _⟩
      simp at h
    · rw [List.append_nil] at hbare hscan ⊢
      obtain ⟨r, hr, hacc⟩ := hend (sg.length + M.length + ([] : List Nat).length)
        (sign_flag sg) hbare
      exact ⟨r, hscan.trans hr, hacc⟩
  | cons c r4 =>
    have hafter := hgo (sg.length + M.length + (c :: r4).length) (sign_flag sg) (c :: r4)
      (List.cons_ne_nil _ _) hq hdot hhex
    by_cases hc : c = ascii_widen 'e' ∨ c = ascii_widen 'E'
    · obtain ⟨sg2, X, rest, hsplit, hsg2, hX, hrest, hns⟩ := split_exponent r4
      have hpart := exponent_part_eq (sg.length + M.length + (c :: r4).length) (sign_flag sg)
        lz c sg2 X rest st hv hc hsg2 hX hrest hns
      rw [← hsplit] at hpart
      have hcd : ¬ is_digit c := by rcases hc with rfl | rfl <;> decide
      have hcdot : c ≠ ascii_widen '.' := by rcases hc with rfl | rfl <;> decide
      by_cases hXnil : X = []
      · subst hXnil
        rw [if_pos rfl] at hpart
        obtain ⟨r, hr, hacc⟩ := parsing_done_accepts
          (sg.length + M.length + (c :: r4).length) (sign_flag sg) (c :: r4) st hwf
        rw [Nat.add_sub_cancel] at hacc
        refine ⟨M, [], c :: r4, rfl, hM, Or.inl rfl, hq, hdot, ?_, fun h => absurd rfl h,
          Or.inr ⟨r, ?_, hacc⟩⟩
        · rintro _ ⟨m, sg3, x, t, h, _, hsg3, hx⟩
          simp only [List.cons.injEq] at h
          have h2 : sg2 ++ rest = sg3 ++ x :: t := by
            rw [← h.2, hsplit]; rfl
          have hxs := is_digit_not_sign hx
          rcases hsg2 with rfl | rfl | rfl <;> rcases hsg3 with rfl | rfl | rfl <;>
            simp only [List.nil_append, List.singleton_append, List.cons.injEq] at h2
          · rw [h2] at hrest
            exact stops_digits_cons.1 hrest hx
          · exact hns rfl rfl _ (by rw [h2]; rfl) (Or.inl rfl)
          · exact hns rfl rfl _ (by rw [h2]; rfl) (Or.inr rfl)
          · exact hxs (Or.inl h2.1.symm)
          · rw [h2.2] at hrest
            exact stops_digits_cons.1 hrest hx
          · exact absurd h2.1 (by decide)
          · exact hxs (Or.inr h2.1.symm)
          · exact absurd h2.1 (by decide)
          · rw [h2.2] at hrest
            exact stops_digits_cons.1 hrest hx
        · rw [hscan, hafter, hpart, hr]
      · rw [if_neg hXnil] at hpart
        have hlen : sg.length + M.length + (c :: r4).length - rest.length =
            sg.length + M.length + (c :: (sg2 ++ X)).length := by
          rw [hsplit]
          simp only [List.length_cons, List.length_append]
          omega
        refine ⟨M, c :: (sg2 ++ X), rest, by rw [hsplit]; simp, hM,
          Or.inr ⟨c, sg2, X, rfl, hc, hsg2, hXnil, hX⟩, stops_digits_cons.2 hcd, ?_,
          fun h => absurd h (List.cons_ne_nil _ _), fun _ => hrest, ?_⟩
        · intro _ x hx
          simp only [List.cons_append, List.head?_cons, Option.some.injEq] at hx
          rw [← hx]
          exact hcdot
        · by_cases hrange : -(max_exponent / 2) ≤ st.exponent ∧
              st.exponent ≤ max_exponent / 2
          · rw [if_pos hrange] at hpart
            obtain ⟨r, hr, hacc⟩ := parsing_done_accepts
              (sg.length + M.length + (c :: r4).length) (sign_flag sg) rest _
              (wf_with_exponent st (st.exponent +
                (if sg2 = [ascii_widen '-'] then -exponent_digits X 0
                  else exponent_digits X 0)) hwf)
            rw [hlen] at hacc
            exact Or.inr ⟨r, by rw [hscan, hafter, hpart, hr], hacc⟩
          · rw [if_neg hrange] at hpart
            exact Or.inl (by rw [hscan, hafter, hpart])
    · obtain ⟨r, hr, hacc⟩ := parsing_done_accepts
        (sg.length + M.length + (c :: r4).length) (sign_flag sg) (c :: r4) st hwf
      rw [Nat.add_sub_cancel] at hacc
      refine ⟨M, [], c :: r4, rfl, hM, Or.inl rfl, hq, hdot, ?_, fun h => absurd rfl h,
        Or.inr ⟨r, ?_, hacc⟩⟩
      · rintro _ ⟨m, sg3, x, t, h, hm, _⟩
        simp only [List.cons.injEq] at h
        rw [← h.1] at hm
        exact hc hm
      · rw [hscan, hafter, exponent_part_other _ _ lz c r4 st hv hc, hr]

/-- After the sign, a first character other than `n`, `N`, `i`, `I` that does not begin a
number is rejected. -/
theorem after_sign_rejects (in_size : Nat) (sign : Bool) (c : Nat) (t : List Nat)
    (hn : ¬ (c = ascii_widen 'n' ∨ c = ascii_widen 'N'))
    (hi : ¬ (c = ascii_widen 'i' ∨ c = ascii_widen 'I'))
    (hnot : ¬ starts_number (c :: t)) :
    after_sign in_size sign (c :: t) =
      .ok (.returned (.unexpected .invalid_scanned_value) 0) := by
  have hcd : ¬ is_digit c := fun h => hnot (Or.inl ⟨c, t, rfl, h⟩)
  have hc0 : c ≠ ascii_widen '0' := fun h => hcd (by rw [h]; decide)
  have hinv : ¬ passes_validity false initial_state := by
    unfold passes_validity initial_state
    simp
  have hpart := digits_part_eq in_size sign false [] (c :: t) digits_nil
    (stops_digits_cons.2 hcd)
  rw [List.nil_append, if_neg (List.cons_ne_nil _ _)] at hpart
  have hst : integer_digits [] initial_state = initial_state := rfl
  rw [after_sign_decimal in_size sign c t hn hi hc0, hpart, hst]
  by_cases hdot : c = ascii_widen '.'
  · subst hdot
    cases t with
    | nil => rfl
    | cons d t2 =>
      have hd : ¬ is_digit d := fun h => hnot (Or.inr ⟨d, t2, rfl, h⟩)
      have h := fraction_part_dot_zero in_size sign false [] [] (d :: t2) initial_state
        (by simp) digits_nil (by simp) (stops_digits_cons.2 hd) initial_state_wf rfl
      rw [List.nil_append, List.nil_append, if_neg (List.cons_ne_nil _ _)] at h
      rw [h]
      exact exponent_part_invalid _ _ _ _ _ (by
        unfold passes_validity fraction_digits initial_state
        simp)
  · rw [fraction_part_nodot in_size sign false c t initial_state hdot]
    exact exponent_part_invalid _ _ _ _ _ hinv

/-! ## The decimal grammar -/

/-- Two optional signs in front of unsigned rests of the same list are the same sign. -/
theorem sign_unique (a b x y : List Nat) (ha : optional_sign a) (hb : optional_sign b)
    (h : a ++ x = b ++ y) (hx : starts_unsigned x) (hy : starts_unsigned y) :
    a = b ∧ x = y := by
  obtain ⟨c, t, rfl, hc⟩ := hx
  obtain ⟨d, u, rfl, hd⟩ := hy
  rcases ha with rfl | rfl | rfl <;> rcases hb with rfl | rfl | rfl <;>
    simp only [List.nil_append, List.singleton_append, List.cons.injEq] at h
  · exact ⟨rfl, by rw [h.1, h.2]⟩
  · exact absurd (Or.inl h.1) hc
  · exact absurd (Or.inr h.1) hc
  · exact absurd (Or.inl h.1.symm) hd
  · exact ⟨rfl, by rw [h.2.1, h.2.2]⟩
  · exact absurd h.1 (by decide)
  · exact absurd (Or.inr h.1.symm) hd
  · exact absurd h.1 (by decide)
  · exact ⟨rfl, by rw [h.2.1, h.2.2]⟩

/-- A run of digits at the head of a list is an initial part of the longest one. -/
theorem digits_run_initial (a b x y : List Nat) (ha : digits a) (hb : digits b)
    (h : a ++ x = b ++ y) (hx : stops_digits x) : ∃ u, a = b ++ u ∧ y = u ++ x := by
  induction a generalizing b with
  | nil =>
    cases b with
    | nil => exact ⟨[], rfl, by simpa using h.symm⟩
    | cons d b2 =>
      rw [List.nil_append] at h
      rw [h] at hx
      exact absurd (digits_cons.1 hb).1 (stops_digits_cons.1 hx)
  | cons c a2 ih =>
    cases b with
    | nil => exact ⟨c :: a2, rfl, by simpa using h.symm⟩
    | cons d b2 =>
      simp only [List.cons_append, List.cons.injEq] at h
      obtain ⟨u, h1, h2⟩ := ih b2 (digits_cons.1 ha).2 (digits_cons.1 hb).2 h.2
      exact ⟨u, by rw [h.1, h1]; rfl, h2⟩

/-- A mantissa begins with a digit or a decimal point. -/
theorem mantissa_starts_unsigned (M : List Nat) (hM : mantissa M) : starts_unsigned M := by
  rcases hM with ⟨hne, hD⟩ | ⟨D, F, rfl, hne, hD, _⟩ | ⟨F, rfl, _, _⟩
  · obtain ⟨d, ds, rfl⟩ := List.exists_cons_of_ne_nil hne
    exact ⟨d, ds, rfl, is_digit_not_sign (digits_cons.1 hD).1⟩
  · obtain ⟨d, ds, rfl⟩ := List.exists_cons_of_ne_nil hne
    exact ⟨d, _, rfl, is_digit_not_sign (digits_cons.1 hD).1⟩
  · exact ⟨_, F, rfl, by decide⟩

/-- Every character of a mantissa is a digit or the decimal point. -/
theorem mantissa_chars (M : List Nat) (hM : mantissa M) :
    ∀ c ∈ M, is_digit c ∨ c = ascii_widen '.' := by
  intro c hc
  rcases hM with ⟨_, hD⟩ | ⟨D, F, rfl, _, hD, hF⟩ | ⟨F, rfl, _, hF⟩
  · exact Or.inl (hD c hc)
  · rcases List.mem_append.1 hc with h | h
    · exact Or.inl (hD c h)
    · rcases List.mem_cons.1 h with h | h
      · exact Or.inr h
      · exact Or.inl (hF c h)
  · rcases List.mem_cons.1 hc with h | h
    · exact Or.inr h
    · exact Or.inl (hF c h)

/-- In a mantissa, what stands before a decimal point is a run of digits. -/
theorem mantissa_before_dot (A B : List Nat) (hM : mantissa (A ++ ascii_widen '.' :: B)) :
    digits A := by
  have hdot : ¬ is_digit (ascii_widen '.') := by decide
  rcases hM with ⟨_, hD⟩ | ⟨D, F, h, _, hD, hF⟩ | ⟨F, h, _, hF⟩
  · exact absurd hD (not_digits_dot A B)
  · rcases List.append_eq_append_iff.1 h with ⟨a2, h1, h2⟩ | ⟨c2, h1, h2⟩
    · cases a2 with
      | nil => rw [h1, List.append_nil] at hD; exact hD
      | cons v a3 =>
        rw [h1] at hD
        exact (digits_append.1 hD).1
    · cases c2 with
      | nil => rw [h1, List.append_nil]; exact hD
      | cons v c3 =>
        simp only [List.cons_append, List.cons.injEq] at h2
        rw [h2.2] at hF
        exact absurd hF (not_digits_dot c3 B)
  · cases A with
    | nil => exact digits_nil
    | cons a A2 =>
      simp only [List.cons_append, List.cons.injEq] at h
      rw [← h.2] at hF
      exact absurd hF (not_digits_dot A2 B)

/-- A mantissa at the head of a list is an initial part of the longest one. -/
theorem mantissa_initial (M M2 T T2 : List Nat) (hM2 : mantissa M2)
    (h : M ++ T = M2 ++ T2) (hT : stops_digits T)
    (hdot : digits M → ∀ c, T.head? = some c → c ≠ ascii_widen '.') :
    ∃ U, M = M2 ++ U ∧ T2 = U ++ T := by
  rcases List.append_eq_append_iff.1 h with ⟨a2, h1, h2⟩ | ⟨c2, h1, h2⟩
  · cases a2 with
    | nil =>
      refine ⟨[], by rw [h1]; simp, ?_⟩
      rw [h2]; rfl
    | cons v a3 =>
      exfalso
      have hv : ¬ is_digit v := by
        rw [h2] at hT
        exact stops_digits_cons.1 hT
      have hvM : v ∈ M2 := by rw [h1]; simp
      rcases mantissa_chars M2 hM2 v hvM with h3 | h3
      · exact hv h3
      · subst h3
        rw [h1] at hM2
        exact hdot (mantissa_before_dot M a3 hM2) _ (by rw [h2]; rfl) rfl
  · exact ⟨c2, h1, h2⟩

theorem starts_unsigned_append (x y : List Nat) (h : starts_unsigned x) :
    starts_unsigned (x ++ y) := by
  obtain ⟨c, t, rfl, hc⟩ := h
  exact ⟨c, t ++ y, rfl, hc⟩

theorem digits_starts_unsigned (X : List Nat) (hne : X ≠ []) (hX : digits X) :
    starts_unsigned X := by
  obtain ⟨x, t, rfl⟩ := List.exists_cons_of_ne_nil hne
  exact ⟨x, t, rfl, is_digit_not_sign (digits_cons.1 hX).1⟩

/-- The longest decimal literal at the head of an input: when the sign, the mantissa `M` and
the exponent `E` are each taken as long as possible, they form a decimal literal, and no
longer initial part of the input is one. -/
theorem longest_decimal_literal (sg M E R : List Nat) (hsg : optional_sign sg)
    (hM : mantissa M) (hE : exponent_opt E) (h1 : stops_digits (E ++ R))
    (h2 : digits M → ∀ c, (E ++ R).head? = some c → c ≠ ascii_widen '.')
    (h3 : E = [] → ¬ starts_exponent R) (h4 : E ≠ [] → stops_digits R) :
    decimal_literal (sg ++ (M ++ E)) ∧
    ∀ P T, sg ++ (M ++ (E ++ R)) = P ++ T → decimal_literal P →
      P.length ≤ sg.length + M.length + E.length := by
  refine ⟨⟨sg, M, E, rfl, hsg, hM, hE⟩, ?_⟩
  rintro P T h ⟨sg2, M2, E2, rfl, hsg2, hM2, hE2⟩
  rw [List.append_assoc, List.append_assoc] at h
  obtain ⟨hs, hrest⟩ := sign_unique sg sg2 _ _ hsg hsg2 h
    (starts_unsigned_append _ _ (mantissa_starts_unsigned M hM))
    (starts_unsigned_append _ _ (mantissa_starts_unsigned M2 hM2))
  subst hs
  obtain ⟨U, hU1, hU2⟩ := mantissa_initial M M2 (E ++ R) (E2 ++ T) hM2 hrest h1 h2
  rcases hE2 with rfl | ⟨m2, sg3, X2, rfl, hm2, hsg3, hX2ne, hX2⟩
  · rw [hU1]
    simp only [List.length_append, List.append_nil]
    omega
  · have hm2c : ¬ (is_digit m2 ∨ m2 = ascii_widen '.') := by
      rcases hm2 with rfl | rfl <;> decide
    cases U with
    | cons u U2 =>
      exfalso
      simp only [List.cons_append, List.cons.injEq] at hU2
      have hu : u ∈ M := by rw [hU1]; simp
      have := mantissa_chars M hM u hu
      rw [← hU2.1] at this
      exact hm2c this
    | nil =>
      rw [List.append_nil] at hU1
      rw [List.nil_append] at hU2
      subst hU1
      rcases hE with rfl | ⟨m, sg4, X, rfl, hm, hsg4, hXne, hX⟩
      · exfalso
        obtain ⟨x, X3, rfl⟩ := List.exists_cons_of_ne_nil hX2ne
        apply h3 rfl
        refine ⟨m2, sg3, x, X3 ++ T, ?_, hm2, hsg3, (digits_cons.1 hX2).1⟩
        rw [List.nil_append] at hU2
        rw [← hU2]
        simp
      · simp only [List.cons_append, List.cons.injEq, List.append_assoc] at hU2
        obtain ⟨hs2, hrest2⟩ := sign_unique sg3 sg4 _ _ hsg3 hsg4 hU2.2
          (starts_unsigned_append _ _ (digits_starts_unsigned X2 hX2ne hX2))
          (starts_unsigned_append _ _ (digits_starts_unsigned X hXne hX))
        obtain ⟨u, hu1, _⟩ := digits_run_initial X X2 R T hX hX2 hrest2.symm
          (h4 (List.cons_ne_nil _ _))
        rw [hs2, hu1]
        simp only [List.length_append, List.length_cons]
        omega

/-- A finite result comes from the decimal path: when `string_to_ieee` returns a finite value
on an input that, after the sign, is neither "0" alone nor begins with a hexadecimal mark,
the input is a sign, a mantissa `M`, an exponent `E` and a rest `R`, each part taken as long
as possible, and `chars` counts the sign, `M` and `E`. -/
theorem finite_result_decomposition (input : List Nat) (s : Bool) (mag : ℚ) (n : Nat)
    (hres : string_to_ieee input = .ok ⟨.value (.finite s mag), n⟩)
    (hhex : ¬ hex_start (after_optional_sign input))
    (hbare : after_optional_sign input ≠ [ascii_widen '0']) :
    ∃ sg M E R, input = sg ++ (M ++ (E ++ R)) ∧ optional_sign sg ∧ mantissa M ∧
      exponent_opt E ∧ stops_digits (E ++ R) ∧
      (digits M → ∀ c, (E ++ R).head? = some c → c ≠ ascii_widen '.') ∧
      (E = [] → ¬ starts_exponent R) ∧ (E ≠ [] → stops_digits R) ∧
      n = sg.length + M.length + E.length := by
  have hne : input ≠ [] := by
    rintro rfl
    exact absurd hres (by simp [string_to_ieee, string_to_ieee_scan])
  obtain ⟨sg, hsg, hsplit, hns⟩ := sign_split input hne
  generalize after_optional_sign input = body at hhex hbare hsplit hns
  subst hsplit
  have hstart : starts_number body := by
    by_contra hnot
    cases body with
    | nil =>
      rw [List.append_nil] at hne hres
      rcases hsg with rfl | rfl | rfl
      · exact hne rfl
      · rw [show string_to_ieee [ascii_widen '+'] =
          .ok ⟨.unexpected .invalid_scanned_value, 0⟩ from rfl] at hres
        simp at hres
      · rw [show string_to_ieee [ascii_widen '-'] =
          .ok ⟨.unexpected .invalid_scanned_value, 0⟩ from rfl] at hres
        simp at hres
    | cons c t =>
      have hscan := string_to_ieee_scan_sign sg c t hsg (fun h1 => hns h1 c rfl)
      unfold string_to_ieee at hres
      rw [hscan] at hres
      by_cases hn : c = ascii_widen 'n' ∨ c = ascii_widen 'N'
      · have h := after_sign_nan (sg.length + (c :: t).length)
          (decide (sg = [ascii_widen '+'])) c t hn
        by_cases hv : case_variant "nan" (c :: t)
        · rw [h.1 hv] at hres
          simp at hres
        · rw [h.2 hv] at hres
          simp at hres
      · by_cases hi : c = ascii_widen 'i' ∨ c = ascii_widen 'I'
        · have h := after_sign_inf (sg.length + (c :: t).length)
            (decide (sg = [ascii_widen '+'])) c t hi
          by_cases hv : case_variant "inf" (c :: t) ∨ case_variant "infinity" (c :: t)
          · rw [h.1 hv] at hres
            simp at hres
          · rw [h.2 hv] at hres
            simp at hres
        · rw [after_sign_rejects _ _ c t hn hi hnot] at hres
          simp at hres
  obtain ⟨M, E, R, hbody, hM, hE, h1, h2, h3, h4, hscan⟩ :=
    decimal_scan sg body hsg hstart hhex hbare
  refine ⟨sg, M, E, R, by rw [hbody], hsg, hM, hE, h1, h2, h3, h4, ?_⟩
  rcases hscan with hscan | ⟨r, hscan, hacc⟩
  · unfold string_to_ieee at hres
    rw [hscan] at hres
    simp at hres
  · obtain ⟨v, hv⟩ := string_to_ieee_of_accepts _ r _ hscan hacc
    rw [hv] at hres
    simp only [Except.ok.injEq, scan_result.mk.injEq] at hres
    exact hres.2.symm

theorem max_exponent_eq : max_exponent = 1073741823 := by decide

theorem decimal_value_from_cons (v c : Nat) (ds : List Nat) :
    decimal_value_from v (c :: ds) = decimal_value_from (10 * v + digit_value c) ds := rfl

theorem decimal_value_from_append (v : Nat) (a b : List Nat) :
    decimal_value_from v (a ++ b) = decimal_value_from (decimal_value_from v a) b := by
  unfold decimal_value_from
  rw [List.foldl_append]

theorem digit_value_le {c : Nat} (h : is_digit c) : digit_value c ≤ 9 := by
  unfold is_digit at h
  unfold digit_value
  simp only [ascii_widen_0, ascii_widen_9] at h ⊢
  omega

theorem digit_value_cast {c : Nat} (h : is_digit c) :
    ((digit_value c : Nat) : Int) = (c : Int) - (ascii_widen '0' : Int) := by
  unfold is_digit at h
  unfold digit_value
  simp only [ascii_widen_0, ascii_widen_9] at h ⊢
  omega

/-- One step of the exponent loop keeps `num` equal to the value read so far, capped at
`max_exponent`. -/
theorem exponent_digit_min (c v : Nat) (hc : is_digit c) :
    exponent_digit c (min (v : Int) max_exponent) =
      min ((10 * v + digit_value c : Nat) : Int) max_exponent := by
  have hd := digit_value_le hc
  have hcast := digit_value_cast hc
  unfold exponent_digit
  rw [max_exponent_eq]
  simp only [ascii_widen_0] at hcast ⊢
  have h10 : (1073741823 : Int) / 10 = 107374182 := by decide
  have hm : (1073741823 : Int) % 10 = 3 := by decide
  rw [h10, hm]
  push_cast
  split_ifs with h <;> omega

theorem exponent_digits_min (X : List Nat) (v : Nat) (hX : digits X) :
    exponent_digits X (min (v : Int) max_exponent) =
      min ((decimal_value_from v X : Nat) : Int) max_exponent := by
  induction X generalizing v with
  | nil => rfl
  | cons c cs ih =>
    have h := ih (10 * v + digit_value c) (digits_cons.1 hX).2
    unfold exponent_digits at h ⊢
    rw [List.foldl_cons, exponent_digit_min c v (digits_cons.1 hX).1, h]
    rfl

theorem digits_take {l : List Nat} (h : digits l) (k : Nat) : digits (l.take k) :=
  fun c hc => h c (List.mem_of_mem_take hc)

theorem digits_drop {l : List Nat} (h : digits l) (k : Nat) : digits (l.drop k) :=
  fun c hc => h c (List.mem_of_mem_drop hc)

theorem exponent_digits_zero (X : List Nat) (hX : digits X) :
    exponent_digits X 0 = min ((decimal_value X : Nat) : Int) max_exponent := by
  have h := exponent_digits_min X 0 hX
  have h0 : min ((0 : Nat) : Int) max_exponent = 0 := by rw [max_exponent_eq]; decide
  rw [h0] at h
  exact h


theorem integer_step_closed (c : Nat) (st : digit_state) (h : st.wf) :
    digits_step integer_digit st c =
      if st.buffer.length < 772 then
        { st with buffer := st.buffer ++ [c], significant_digits := st.significant_digits + 1 }
      else
        { st with
          insignificant_digits := st.insignificant_digits + 1
          nonzero_digit_dropped := st.nonzero_digit_dropped || decide (c ≠ ascii_widen '0') } := by
  obtain ⟨h1, h2⟩ := h
  unfold digits_step integer_digit buffer_write
  unfold max_significant_digits at h2 ⊢
  by_cases hs : st.significant_digits < 772
  · have hl : st.buffer.length < buffer_size := by unfold buffer_size; omega
    have hl2 : st.buffer.length < 772 := by omega
    simp only [if_pos hs, if_pos hl, if_pos hl2]
  · have hl2 : ¬ st.buffer.length < 772 := by omega
    simp only [if_neg hs, if_neg hl2]

theorem fraction_step_closed (c : Nat) (st : digit_state) (h : st.wf) :
    digits_step fraction_digit st c =
      if st.buffer.length < 772 then
        { st with
          buffer := st.buffer ++ [c]
          significant_digits := st.significant_digits + 1
          exponent := st.exponent - 1 }
      else
        { st with
          nonzero_digit_dropped := st.nonzero_digit_dropped || decide (c ≠ ascii_widen '0') } := by
  obtain ⟨h1, h2⟩ := h
  unfold digits_step fraction_digit buffer_write
  unfold max_significant_digits at h2 ⊢
  by_cases hs : st.significant_digits < 772
  · have hl : st.buffer.length < buffer_size := by unfold buffer_size; omega
    have hl2 : st.buffer.length < 772 := by omega
    simp only [if_pos hs, if_pos hl, if_pos hl2]
  · have hl2 : ¬ st.buffer.length < 772 := by omega
    simp only [if_neg hs, if_neg hl2]

/-- The state after the integer digit loop has read the digits `D`: the digits that fit are
stored, each of the others raises `insignificant_digits`, and the flag records a dropped
digit other than `0`. -/
theorem integer_digits_closed (D : List Nat) (st : digit_state) (h : st.wf) :
    integer_digits D st =
      { buffer := st.buffer ++ D.take (772 - st.buffer.length)
        significant_digits := st.significant_digits + min D.length (772 - st.buffer.length)
        insignificant_digits := st.insignificant_digits + (D.length - (772 - st.buffer.length) : Nat)
        exponent := st.exponent
        nonzero_digit_dropped :=
          st.nonzero_digit_dropped || has_nonzero (D.drop (772 - st.buffer.length)) } := by
  induction D generalizing st with
  | nil => cases st; simp [integer_digits, has_nonzero]
  | cons c cs ih =>
    have hstep := integer_step_closed c st h
    have hwf1 := (integer_digit_ok c st h).2
    rw [integer_digits_cons, ih _ hwf1, hstep]
    by_cases hl : st.buffer.length < 772
    · obtain ⟨r, hr⟩ : ∃ r, 772 - st.buffer.length = r + 1 := ⟨771 - st.buffer.length, by omega⟩
      have hr2 : 772 - (st.buffer ++ [c]).length = r := by
        simp only [List.length_append, List.length_singleton]; omega
      simp only [if_pos hl, hr2, hr, List.take_succ_cons, List.drop_succ_cons,
        List.append_assoc, List.singleton_append, List.length_cons]
      congr 1
      · push_cast
        omega
      · push_cast
        omega
    · have hr : 772 - st.buffer.length = 0 := by omega
      simp only [if_neg hl, hr, List.take_zero, List.drop_zero, List.append_nil,
        List.length_cons, has_nonzero, List.any_cons, Bool.or_assoc]
      congr 1
      · push_cast
        omega
      · push_cast
        omega

/-- The state after the fraction digit loop has read the digits `F`: the digits that fit are
stored, each lowering the exponent by one, the others leave the exponent alone, and the flag
records a dropped digit other than `0`. -/
theorem fraction_digits_closed (F : List Nat) (st : digit_state) (h : st.wf) :
    fraction_digits F st =
      { buffer := st.buffer ++ F.take (772 - st.buffer.length)
        significant_digits := st.significant_digits + min F.length (772 - st.buffer.length)
        insignificant_digits := st.insignificant_digits
        exponent := st.exponent - min F.length (772 - st.buffer.length)
        nonzero_digit_dropped :=
          st.nonzero_digit_dropped || has_nonzero (F.drop (772 - st.buffer.length)) } := by
  induction F generalizing st with
  | nil => cases st; simp [fraction_digits, has_nonzero]
  | cons c cs ih =>
    have hstep := fraction_step_closed c st h
    have hwf1 := (fraction_digit_ok c st h).2
    rw [fraction_digits_cons, ih _ hwf1, hstep]
    by_cases hl : st.buffer.length < 772
    · obtain ⟨r, hr⟩ : ∃ r, 772 - st.buffer.length = r + 1 := ⟨771 - st.buffer.length, by omega⟩
      have hr2 : 772 - (st.buffer ++ [c]).length = r := by
        simp only [List.length_append, List.length_singleton]; omega
      simp only [if_pos hl, hr2, hr, List.take_succ_cons, List.drop_succ_cons,
        List.append_assoc, List.singleton_append, List.length_cons]
      congr 1
      · push_cast
        omega
      · push_cast
        omega
    · have hr : 772 - st.buffer.length = 0 := by omega
      simp only [if_neg hl, hr, List.take_zero, List.drop_zero, List.append_nil,
        List.length_cons, has_nonzero, List.any_cons, Bool.or_assoc]
      congr 1
      · push_cast
        omega
      · push_cast
        omega

theorem wf_buffer_length (st : digit_state) (h : st.wf) : st.buffer.length ≤ 772 := by
  have h1 := h.1
  have h2 := h.2
  unfold max_significant_digits at h2
  omega

theorem parsing_done_outcome (in_size : Nat) (sign : Bool) (it : List Nat) (st : digit_state)
    (h : st.wf) : outcome_ok (parsing_done in_size sign it st) := by
  rw [parsing_done_eq in_size sign it st h]
  refine Or.inr (Or.inl ⟨sign, st.buffer, final_exponent st, in_size - it.length,
    wf_buffer_length st h, ?_⟩)
  unfold final_buffer
  by_cases hd : st.nonzero_digit_dropped = true
  · right; rw [if_pos hd]
  · left; rw [if_neg hd]

theorem exponent_part_outcome (in_size : Nat) (sign leading_zero : Bool) (it : List Nat)
    (st : digit_state) (hwf : st.wf) (hit : it ≠ []) :
    outcome_ok (exponent_part in_size sign leading_zero it st) := by
  by_cases hv : passes_validity leading_zero st
  · obtain ⟨c, t, rfl⟩ := List.exists_cons_of_ne_nil hit
    by_cases hc : c = ascii_widen 'e' ∨ c = ascii_widen 'E'
    · obtain ⟨sg, X, rest, hsplit, hsg, hX, hrest, hns⟩ := split_exponent t
      rw [hsplit, exponent_part_eq in_size sign leading_zero c sg X rest st hv hc hsg hX hrest
        hns]
      by_cases hXnil : X = []
      · rw [if_pos hXnil]
        exact parsing_done_outcome _ _ _ _ hwf
      · rw [if_neg hXnil]
        by_cases hr : -(max_exponent / 2) ≤ st.exponent ∧ st.exponent ≤ max_exponent / 2
        · rw [if_pos hr]
          exact parsing_done_outcome _ _ _ _ (wf_with_exponent st _ hwf)
        · rw [if_neg hr]
          exact Or.inl rfl
    · rw [exponent_part_other in_size sign leading_zero c t st hv hc]
      exact parsing_done_outcome _ _ _ _ hwf
  · rw [exponent_part_invalid in_size sign leading_zero it st hv]
    exact Or.inr (Or.inr (Or.inr ⟨0, rfl⟩))

theorem fraction_part_outcome (in_size : Nat) (sign leading_zero : Bool) (it : List Nat)
    (st : digit_state) (hwf : st.wf) (hit : it ≠ []) :
    outcome_ok (fraction_part in_size sign leading_zero it st) := by
  obtain ⟨c, t, rfl⟩ := List.exists_cons_of_ne_nil hit
  by_cases hdot : c = ascii_widen '.'
  · subst hdot
    obtain ⟨F, q, hsplit, hF, hq⟩ := split_digits t
    subst hsplit
    by_cases hsig : st.significant_digits = 0
    · obtain ⟨Z, G, hZG, hZ, hG, hG0⟩ := split_zeros F hF
      subst hZG
      rw [List.append_assoc,
        fraction_part_dot_zero in_size sign leading_zero Z G q st hZ hG hG0 hq hwf hsig]
      have hwf1 : ({ st with exponent := st.exponent - Z.length } : digit_state).wf := hwf
      by_cases hqn : q = []
      · rw [if_pos hqn]
        by_cases hGn : G = []
        · rw [if_pos hGn]
          by_cases hZn : Z = []
          · rw [if_pos hZn]
            by_cases hlz : leading_zero = true
            · rw [if_pos hlz]
              exact parsing_done_outcome _ _ _ _ hwf
            · rw [if_neg hlz]
              exact Or.inr (Or.inr (Or.inr ⟨0, rfl⟩))
          · rw [if_neg hZn]
            exact Or.inr (Or.inr (Or.inl ⟨_, _, rfl⟩))
        · rw [if_neg hGn]
          exact parsing_done_outcome _ _ _ _ (fraction_digits_wf G _ hwf1)
      · rw [if_neg hqn]
        exact exponent_part_outcome _ _ _ _ _ (fraction_digits_wf G _ hwf1) hqn
    · rw [fraction_part_dot_pos in_size sign leading_zero F q st hF hq hwf hsig]
      by_cases hqn : q = []
      · rw [if_pos hqn]
        exact parsing_done_outcome _ _ _ _ (fraction_digits_wf F st hwf)
      · rw [if_neg hqn]
        exact exponent_part_outcome _ _ _ _ _ (fraction_digits_wf F st hwf) hqn
  · rw [fraction_part_nodot in_size sign leading_zero c t st hdot]
    exact exponent_part_outcome _ _ _ _ _ hwf (List.cons_ne_nil _ _)

theorem digits_part_outcome (in_size : Nat) (sign leading_zero : Bool) (it : List Nat)
    (hit : it ≠ []) : outcome_ok (digits_part in_size sign leading_zero it) := by
  obtain ⟨D, rest, hsplit, hD, hrest⟩ := split_digits it
  subst hsplit
  rw [digits_part_eq in_size sign leading_zero D rest hD hrest]
  have hwf := integer_digits_wf D initial_state initial_state_wf
  by_cases hr : rest = []
  · have hDn : D ≠ [] := fun h => hit (by rw [h, hr]; rfl)
    rw [if_pos hr, if_neg hDn]
    exact parsing_done_outcome _ _ _ _ hwf
  · rw [if_neg hr]
    exact fraction_part_outcome _ _ _ _ _ hwf hr

/-- After the sign, a `0` and a hexadecimal mark: the integer part starts after the mark, or
the input ends there and is rejected. -/
theorem after_sign_hex (in_size : Nat) (sign : Bool) (x : Nat) (t : List Nat)
    (hx : x = ascii_widen 'x' ∨ x = ascii_widen 'X') :
    after_sign in_size sign (ascii_widen '0' :: x :: t) =
      if t = [] then .ok (.returned (.unexpected .invalid_scanned_value) 0)
      else digits_part in_size sign true t := by
  unfold after_sign
  dsimp only
  rw [if_neg (by decide), if_neg (by decide), if_pos rfl, if_pos hx]

theorem after_sign_outcome (in_size : Nat) (sign : Bool) (it : List Nat) (hit : it ≠ []) :
    outcome_ok (after_sign in_size sign it) := by
  obtain ⟨c, t, rfl⟩ := List.exists_cons_of_ne_nil hit
  by_cases hn : c = ascii_widen 'n' ∨ c = ascii_widen 'N'
  · have h := after_sign_nan in_size sign c t hn
    by_cases hv : case_variant "nan" (c :: t)
    · rw [h.1 hv]
      exact Or.inr (Or.inr (Or.inl ⟨_, _, rfl⟩))
    · rw [h.2 hv]
      exact Or.inr (Or.inr (Or.inr ⟨0, rfl⟩))
  · by_cases hi : c = ascii_widen 'i' ∨ c = ascii_widen 'I'
    · have h := after_sign_inf in_size sign c t hi
      by_cases hv : case_variant "inf" (c :: t) ∨ case_variant "infinity" (c :: t)
      · rw [h.1 hv]
        exact Or.inr (Or.inr (Or.inl ⟨_, _, rfl⟩))
      · rw [h.2 hv]
        exact Or.inr (Or.inr (Or.inr ⟨0, rfl⟩))
    · by_cases h0 : c = ascii_widen '0'
      · subst h0
        cases t with
        | nil => exact Or.inr (Or.inr (Or.inl ⟨_, 0, rfl⟩))
        | cons x t2 =>
          by_cases hx : x = ascii_widen 'x' ∨ x = ascii_widen 'X'
          · rw [after_sign_hex in_size sign x t2 hx]
            by_cases ht : t2 = []
            · rw [if_pos ht]
              exact Or.inr (Or.inr (Or.inr ⟨0, rfl⟩))
            · rw [if_neg ht]
              exact digits_part_outcome _ _ _ _ ht
          · rw [after_sign_zero in_size sign x t2 hx]
            exact digits_part_outcome _ _ _ _ (List.cons_ne_nil _ _)
      · rw [after_sign_decimal in_size sign c t hn hi h0]
        exact digits_part_outcome _ _ _ _ (List.cons_ne_nil _ _)

/-- Every run of the scanning part on a non-empty input ends well: the only check that can
fail is the range check on the exponent. -/
theorem string_to_ieee_scan_outcome (input : List Nat) (hne : input ≠ []) :
    outcome_ok (string_to_ieee_scan input) := by
  obtain ⟨c, t, rfl⟩ := List.exists_cons_of_ne_nil hne
  unfold string_to_ieee_scan
  dsimp only
  by_cases hc : c = ascii_widen '+' ∨ c = ascii_widen '-'
  · rw [if_pos hc]
    by_cases ht : t = []
    · rw [if_pos ht]
      exact Or.inr (Or.inr (Or.inr ⟨0, rfl⟩))
    · rw [if_neg ht]
      exact after_sign_outcome _ _ _ ht
  · rw [if_neg hc]
    exact after_sign_outcome _ _ _ (List.cons_ne_nil _ _)

theorem string_to_ieee_fault (input : List Nat) (f : fault)
    (h : string_to_ieee input = .error f) : string_to_ieee_scan input = .error f := by
  unfold string_to_ieee at h
  split at h
  · next f2 h2 => rw [h2]; simpa using h
  · simp at h
  · simp at h

theorem outcome_ok_fault (res : Except fault scanned) (h : outcome_ok res) (f : fault)
    (hf : res = .error f) : f = .expect_exponent_range := by
  subst hf
  rcases h with h | ⟨_, _, _, _, _, h | h⟩ | ⟨_, _, h⟩ | ⟨_, h⟩
  · simpa using h
  · simp at h
  · simp at h
  · simp at h
  · simp at h

theorem outcome_ok_error (res : Except fault scanned) (h : outcome_ok res) (e : error)
    (n : Nat) (he : res = .ok (.returned (.unexpected e) n)) :
    e = .invalid_scanned_value := by
  subst he
  rcases h with h | ⟨_, _, _, _, _, h | h⟩ | ⟨_, _, h⟩ | ⟨_, h⟩
  · simp at h
  · simp at h
  · simp at h
  · simp at h
  · simp only [Except.ok.injEq, scanned.returned.injEq, expected.unexpected.injEq] at h
    exact h.1

theorem outcome_ok_convert (res : Except fault scanned) (h : outcome_ok res) (sign : Bool)
    (buffer : List Nat) (exponent : Int) (chars : Nat)
    (hc : res = .ok (.convert sign buffer exponent chars)) :
    ∃ stored, stored.length ≤ 772 ∧
      (buffer = stored ∨ buffer = stored ++ [ascii_widen '1']) := by
  subst hc
  rcases h with h | ⟨_, stored, _, _, hlen, h | h⟩ | ⟨_, _, h⟩ | ⟨_, h⟩
  · simp at h
  · simp only [Except.ok.injEq, scanned.convert.injEq] at h
    exact ⟨stored, hlen, Or.inl h.2.1⟩
  · simp only [Except.ok.injEq, scanned.convert.injEq] at h
    exact ⟨stored, hlen, Or.inr h.2.1⟩
  · simp at h
  · simp at h

theorem string_to_ieee_returned_error (input : List Nat) (e : error) (n : Nat)
    (h : string_to_ieee input = .ok ⟨.unexpected e, n⟩) :
    string_to_ieee_scan input = .ok (.returned (.unexpected e) n) := by
  unfold string_to_ieee at h
  split at h
  · simp at h
  · next r chars h2 =>
    simp only [Except.ok.injEq, scan_result.mk.injEq] at h
    rw [h2, h.1, h.2]
  · simp at h

/-- The state after the integer digit loop has read at most 772 digits from the start: they
are all stored. -/
theorem integer_digits_short (D : List Nat) (hlen : D.length ≤ 772) :
    integer_digits D initial_state = ⟨D, D.length, 0, 0, false⟩ := by
  rw [integer_digits_closed D initial_state initial_state_wf]
  have h1 : 772 - initial_state.buffer.length = 772 := rfl
  rw [h1, List.take_of_length_le hlen, List.drop_of_length_le hlen]
  simp only [initial_state, List.nil_append, has_nonzero, List.any_nil, Bool.or_false,
    zero_add, digit_state.mk.injEq, true_and, and_true]
  constructor
  · rw [Nat.min_eq_left hlen]
  · rw [Nat.sub_eq_zero_of_le hlen]; rfl


theorem has_nonzero_append (a b : List Nat) :
    has_nonzero (a ++ b) = (has_nonzero a || has_nonzero b) := by
  unfold has_nonzero
  rw [List.any_append]

/-- The state after the integer loop on `I` and then, with the exponent lowered by `z`, the
fraction loop on `F`. -/
theorem mantissa_state_eq (I : List Nat) (z : Nat) (F : List Nat) :
    fraction_digits F { integer_digits I initial_state with exponent := -(z : Int) } =
      mantissa_state I z F := by
  have hwf := integer_digits_wf I initial_state initial_state_wf
  have hc := integer_digits_closed I initial_state initial_state_wf
  have h1 : 772 - initial_state.buffer.length = 772 := rfl
  rw [h1] at hc
  rw [fraction_digits_closed F _ (wf_with_exponent _ _ hwf), hc]
  simp only [initial_state, List.nil_append, Bool.false_or, zero_add]
  unfold mantissa_state
  have hlen : (List.take 772 I).length = min 772 I.length := List.length_take 772 I
  have hsub : 772 - (List.take 772 I).length = 772 - I.length := by rw [hlen]; omega
  rw [hsub, List.take_append_eq_append_take, List.drop_append_eq_append_drop,
    has_nonzero_append]
  simp only [List.length_append, digit_state.mk.injEq, true_and, and_true]
  push_cast
  omega

theorem mantissa_state_integer (I : List Nat) :
    integer_digits I initial_state = mantissa_state I 0 [] := by
  have h := mantissa_state_eq I 0 []
  have h2 : ({ integer_digits I initial_state with exponent := -((0 : Nat) : Int) } :
      digit_state) = integer_digits I initial_state := by
    have := (integer_digits_props I initial_state initial_state_wf).1
    cases hst : integer_digits I initial_state
    rw [hst] at this
    simp only [initial_state] at this
    simp [this]
  rw [h2] at h
  exact h

theorem mantissa_state_wf (I : List Nat) (z : Nat) (F : List Nat) :
    (mantissa_state I z F).wf := by
  rw [← mantissa_state_eq]
  exact fraction_digits_wf _ _
    (wf_with_exponent _ _ (integer_digits_wf I initial_state initial_state_wf))

theorem final_buffer_mantissa (I : List Nat) (z : Nat) (F : List Nat) (x : Int) :
    final_buffer { mantissa_state I z F with exponent := (mantissa_state I z F).exponent + x } =
      converter_buffer I F := by
  unfold final_buffer converter_buffer mantissa_state
  dsimp only
  split_ifs <;> simp

/-- A value of the type `int` is its own two's complement result. -/
theorem int_wrap_of_range (v : Int) (h : int_range v) : int_wrap v = v := by
  unfold int_range at h
  unfold int_wrap
  omega

theorem int_wrap_range (v : Int) : int_range (int_wrap v) := by
  unfold int_range int_wrap
  omega

theorem int_wrap_sub_one (v : Int) : int_wrap (int_wrap v - 1) = int_wrap (v - 1) := by
  unfold int_wrap
  omega

theorem final_exponent_mantissa (I : List Nat) (z : Nat) (F : List Nat) (x : Int) :
    final_exponent
        { mantissa_state I z F with exponent := (mantissa_state I z F).exponent + x } =
      converter_exponent I z F x := by
  unfold final_exponent converter_exponent mantissa_state
  dsimp only
  split_ifs
  · rw [int_wrap_sub_one]
    congr 1
    omega
  · congr 1
    omega

/-- On an input of at most 1073741823 characters the sums of the exponent stay in the range
of `int`: the exponent handed to the converter is the mathematical sum. -/
theorem converter_exponent_bounded (I : List Nat) (z : Nat) (F : List Nat) (x : Int)
    (hx : -max_exponent ≤ x ∧ x ≤ max_exponent) (hI : I.length ≤ 1073741823)
    (hF : z + F.length ≤ 1073741823) :
    converter_exponent I z F x =
      x - (z : Int) - (min F.length (772 - I.length) : Nat) + (I.length - 772 : Nat) -
        (if has_nonzero ((I ++ F).drop 772) then 1 else 0) := by
  unfold converter_exponent
  apply int_wrap_of_range
  rw [max_exponent_eq] at hx
  unfold int_range
  split_ifs <;> omega

theorem with_exponent_add_zero (st : digit_state) :
    ({ st with exponent := st.exponent + 0 } : digit_state) = st := by
  cases st
  simp

/-- From the label `parsing_done` on, with the state of the mantissa digits and the
contribution `x` of the exponent part. -/
theorem parsing_done_mantissa (in_size : Nat) (sign : Bool) (R I : List Nat) (z : Nat)
    (F : List Nat) (x : Int) :
    parsing_done in_size sign R
        { mantissa_state I z F with exponent := (mantissa_state I z F).exponent + x } =
      .ok (.convert sign (converter_buffer I F) (converter_exponent I z F x)
        (in_size - R.length)) := by
  rw [parsing_done_eq _ _ _ _ (wf_with_exponent _ _ (mantissa_state_wf I z F)),
    final_buffer_mantissa, final_exponent_mantissa]

theorem parsing_done_mantissa_zero (in_size : Nat) (sign : Bool) (R I : List Nat) (z : Nat)
    (F : List Nat) :
    parsing_done in_size sign R (mantissa_state I z F) =
      .ok (.convert sign (converter_buffer I F) (converter_exponent I z F 0)
        (in_size - R.length)) := by
  have h := parsing_done_mantissa in_size sign R I z F 0
  rw [with_exponent_add_zero] at h
  exact h

theorem mantissa_state_significant (I : List Nat) (z : Nat) (F : List Nat) :
    (mantissa_state I z F).significant_digits = 0 ↔ I = [] ∧ F = [] := by
  unfold mantissa_state
  simp only [List.length_append]
  constructor
  · intro h
    have h1 : I.length = 0 := by omega
    have h2 : F.length = 0 := by omega
    exact ⟨List.length_eq_zero.1 h1, List.length_eq_zero.1 h2⟩
  · rintro ⟨rfl, rfl⟩
    rfl

/-- The fraction part after the integer digits `I`, on a decimal point, a run of digits `F`
and a rest `q` that is empty or begins with a character that is not a digit: `F` splits into
the zeros `Z` that are skipped (none when `I` is not empty) and the digits `G` that the
fraction loop reads. -/
theorem fraction_part_mantissa (in_size : Nat) (sign lz : Bool) (I F q : List Nat)
    (hF : digits F) (hq : stops_digits q) :
    ∃ Z G, F = Z ++ G ∧ (∀ c ∈ Z, c = ascii_widen '0') ∧ digits G ∧ (I ≠ [] → Z = []) ∧
      (I = [] → ∀ c, G.head? = some c → c ≠ ascii_widen '0') ∧
      fraction_part in_size sign lz (ascii_widen '.' :: (F ++ q))
          (integer_digits I initial_state) =
        if q = [] then
          if F = [] then
            if I = [] ∧ lz = false then .ok (.returned (.unexpected .invalid_scanned_value) 0)
            else parsing_done in_size sign [] (mantissa_state I 0 [])
          else if I = [] ∧ G = [] then
            .ok (.returned (.value (if sign then .finite true 0 else .finite false 0)) in_size)
          else parsing_done in_size sign [] (mantissa_state I Z.length G)
        else exponent_part in_size sign lz q (mantissa_state I Z.length G) := by
  have hwf := integer_digits_wf I initial_state initial_state_wf
  have hst := mantissa_state_integer I
  by_cases hI : I = []
  · subst hI
    obtain ⟨Z, G, hZG, hZ, hG, hG0⟩ := split_zeros F hF
    refine ⟨Z, G, hZG, hZ, hG, fun h => absurd rfl h, fun _ => hG0, ?_⟩
    have hsig : (integer_digits [] initial_state).significant_digits = 0 := rfl
    have hstate : fraction_digits G { integer_digits [] initial_state with
        exponent := (integer_digits [] initial_state).exponent - Z.length } =
        mantissa_state [] Z.length G := by
      rw [← mantissa_state_eq [] Z.length G]
      congr 1
      show ({ integer_digits [] initial_state with exponent := (0 : Int) - Z.length } :
        digit_state) = _
      simp
    have h := fraction_part_dot_zero in_size sign lz Z G q (integer_digits [] initial_state)
      hZ hG hG0 hq hwf hsig
    rw [hstate, ← List.append_assoc, ← hZG] at h
    rw [h]
    by_cases hqn : q = []
    · rw [if_pos hqn, if_pos hqn]
      by_cases hGn : G = []
      · rw [if_pos hGn]
        by_cases hZn : Z = []
        · have hFn : F = [] := by rw [hZG, hZn, hGn]; rfl
          rw [if_pos hZn, if_pos hFn]
          by_cases hlz : lz = true
          · have hc : ¬ (([] : List Nat) = [] ∧ lz = false) := by simp [hlz]
            rw [if_pos hlz, if_neg hc, ← hst]
          · have hc : ([] : List Nat) = [] ∧ lz = false := ⟨rfl, by simpa using hlz⟩
            rw [if_neg hlz, if_pos hc]
        · have hFn : F ≠ [] := by
            rw [hZG, hGn, List.append_nil]; exact hZn
          have hc : ([] : List Nat) = [] ∧ G = [] := ⟨rfl, hGn⟩
          rw [if_neg hZn, if_neg hFn, if_pos hc]
      · have hFn : F ≠ [] := by
          intro h2
          rw [hZG] at h2
          exact hGn (List.append_eq_nil.1 h2).2
        have hc : ¬ (([] : List Nat) = [] ∧ G = []) := fun h2 => hGn h2.2
        rw [if_neg hGn, if_neg hFn, if_neg hc]
    · rw [if_neg hqn, if_neg hqn]
  · refine ⟨[], F, rfl, by simp, hF, fun _ => rfl, fun h => absurd h hI, ?_⟩
    have hsig : (integer_digits I initial_state).significant_digits ≠ 0 := by
      rw [hst]
      intro h
      exact hI ((mantissa_state_significant I 0 []).1 h).1
    have hstate : fraction_digits F (integer_digits I initial_state) =
        mantissa_state I 0 F := by
      rw [← mantissa_state_eq I 0 F]
      congr 1
      have := (integer_digits_props I initial_state initial_state_wf).1
      cases hst2 : integer_digits I initial_state
      rw [hst2] at this
      simp only [initial_state] at this
      simp [this]
    rw [fraction_part_dot_pos in_size sign lz F q _ hF hq hwf hsig, hstate]
    by_cases hqn : q = []
    · rw [if_pos hqn, if_pos hqn]
      by_cases hFn : F = []
      · have hc : ¬ (I = [] ∧ lz = false) := fun h2 => hI h2.1
        rw [if_pos hFn, if_neg hc, hFn]
      · have hc : ¬ (I = [] ∧ F = []) := fun h2 => hI h2.1
        rw [if_neg hFn, if_neg hc]
        rfl
    · rw [if_neg hqn, if_neg hqn]
      rfl

/-- The exponent part on a non-empty rest: the input is rejected, the range check fails, or
the rest splits into an exponent part `E`, which adds `x` to the exponent, and what is left
at the label `parsing_done`. -/
theorem exponent_part_form (in_size : Nat) (sign lz : Bool) (q : List Nat)
    (st : digit_state) (hq : q ≠ []) :
    exponent_part in_size sign lz q st =
      .ok (.returned (.unexpected .invalid_scanned_value) 0) ∨
    exponent_part in_size sign lz q st = .error .expect_exponent_range ∨
    ∃ E R x, q = E ++ R ∧ exponent_contribution E x ∧
      exponent_part in_size sign lz q st =
        parsing_done in_size sign R { st with exponent := st.exponent + x } := by
  by_cases hv : passes_validity lz st
  · obtain ⟨c, t, rfl⟩ := List.exists_cons_of_ne_nil hq
    have hnone : parsing_done in_size sign (c :: t) st =
        parsing_done in_size sign (c :: t) { st with exponent := st.exponent + 0 } := by
      rw [with_exponent_add_zero]
    by_cases hc : c = ascii_widen 'e' ∨ c = ascii_widen 'E'
    · obtain ⟨sg, X, rest, hsplit, hsg, hX, hrest, hns⟩ := split_exponent t
      have h := exponent_part_eq in_size sign lz c sg X rest st hv hc hsg hX hrest hns
      rw [← hsplit] at h
      by_cases hXnil : X = []
      · rw [if_pos hXnil] at h
        exact Or.inr (Or.inr ⟨[], c :: t, 0, rfl, Or.inl ⟨rfl, rfl⟩, h.trans hnone⟩)
      · rw [if_neg hXnil] at h
        by_cases hr : -(max_exponent / 2) ≤ st.exponent ∧ st.exponent ≤ max_exponent / 2
        · rw [if_pos hr] at h
          refine Or.inr (Or.inr ⟨c :: (sg ++ X), rest, _, ?_,
            Or.inr ⟨c, sg, X, rfl, hc, hsg, hXnil, hX, rfl⟩, h⟩)
          rw [hsplit]
          simp
        · rw [if_neg hr] at h
          exact Or.inr (Or.inl h)
    · exact Or.inr (Or.inr ⟨[], c :: t, 0, rfl, Or.inl ⟨rfl, rfl⟩,
        (exponent_part_other in_size sign lz c t st hv hc).trans hnone⟩)
  · exact Or.inl (exponent_part_invalid in_size sign lz q st hv)

/-- The integer part on a non-empty rest of the input: the input is rejected, a zero is
returned with every character consumed, the range check fails, or the characters split as
the loops read them and the converter is called with the buffer and the exponent that the
split gives. -/
theorem digits_part_form (in_size : Nat) (sign lz : Bool) (it : List Nat) (hit : it ≠ []) :
    digits_part in_size sign lz it =
      .ok (.returned (.unexpected .invalid_scanned_value) 0) ∨
    digits_part in_size sign lz it =
      .ok (.returned (.value (if sign then .finite true 0 else .finite false 0)) in_size) ∨
    digits_part in_size sign lz it = .error .expect_exponent_range ∨
    ∃ I dot Z F E R x, digits_form it I dot Z F E R x ∧
      digits_part in_size sign lz it =
        .ok (.convert sign (converter_buffer I F) (converter_exponent I Z.length F x)
          (in_size - R.length)) := by
  obtain ⟨I, r1, hsplit, hI, hr1⟩ := split_digits it
  subst hsplit
  have hpart := digits_part_eq in_size sign lz I r1 hI hr1
  have hexp : ∀ (q : List Nat) (dot : Bool) (Z F : List Nat), q ≠ [] →
      (∀ c ∈ Z, c = ascii_widen '0') → digits F → (dot = false → Z = [] ∧ F = []) →
      (I ≠ [] → Z = []) → (I = [] → ∀ c, F.head? = some c → c ≠ ascii_widen '0') →
      ∀ res, res = exponent_part in_size sign lz q (mantissa_state I Z.length F) →
      res = .ok (.returned (.unexpected .invalid_scanned_value) 0) ∨
      res = .error .expect_exponent_range ∨
      ∃ E R x, digits_form (I ++ ((if dot then ascii_widen '.' :: (Z ++ F) else []) ++ q))
          I dot Z F E R x ∧
        res = .ok (.convert sign (converter_buffer I F)
          (converter_exponent I Z.length F x) (in_size - R.length)) := by
    intro q dot Z F hq hZ hF hdot hIZ hIF res hres
    rcases exponent_part_form in_size sign lz q (mantissa_state I Z.length F) hq with
      h | h | ⟨E, R, x, hqER, hcontr, h⟩
    · exact Or.inl (hres.trans h)
    · exact Or.inr (Or.inl (hres.trans h))
    · refine Or.inr (Or.inr ⟨E, R, x, ⟨by rw [hqER], hI, hZ, hF, hdot, hIZ, hIF, hcontr⟩, ?_⟩)
      rw [hres, h, parsing_done_mantissa]
  by_cases hr : r1 = []
  · subst hr
    have hIn : I ≠ [] := fun h => hit (by rw [h]; rfl)
    rw [if_pos rfl, if_neg hIn, mantissa_state_integer, parsing_done_mantissa_zero] at hpart
    refine Or.inr (Or.inr (Or.inr ⟨I, false, [], [], [], [], 0,
      ⟨by simp, hI, by simp, digits_nil, fun _ => ⟨rfl, rfl⟩, fun _ => rfl,
        fun _ c hc => by simp at hc, Or.inl ⟨rfl, rfl⟩⟩, hpart⟩))
  · rw [if_neg hr] at hpart
    obtain ⟨c, r2, rfl⟩ := List.exists_cons_of_ne_nil hr
    by_cases hdot : c = ascii_widen '.'
    · subst hdot
      obtain ⟨F0, q, hsplit2, hF0, hq⟩ := split_digits r2
      subst hsplit2
      obtain ⟨Z, G, hZG, hZ, hG, hIZ, hIG, hfrac⟩ :=
        fraction_part_mantissa in_size sign lz I F0 q hF0 hq
      rw [hfrac] at hpart
      subst hZG
      by_cases hqn : q = []
      · subst hqn
        rw [if_pos rfl] at hpart
        by_cases hFn : Z ++ G = []
        · obtain ⟨hZn, hGn⟩ := List.append_eq_nil.1 hFn
          rw [if_pos hFn] at hpart
          by_cases hc : I = [] ∧ lz = false
          · rw [if_pos hc] at hpart
            exact Or.inl hpart
          · rw [if_neg hc, parsing_done_mantissa_zero] at hpart
            refine Or.inr (Or.inr (Or.inr ⟨I, true, [], [], [], [], 0,
              ⟨by simp [hZn, hGn], hI, by simp, digits_nil, fun h => by simp at h,
                fun _ => rfl, fun _ c hc => by simp at hc, Or.inl ⟨rfl, rfl⟩⟩, hpart⟩))
        · rw [if_neg hFn] at hpart
          by_cases hc : I = [] ∧ G = []
          · rw [if_pos hc] at hpart
            exact Or.inr (Or.inl hpart)
          · rw [if_neg hc, parsing_done_mantissa_zero] at hpart
            refine Or.inr (Or.inr (Or.inr ⟨I, true, Z, G, [], [], 0,
              ⟨by simp, hI, hZ, hG, fun h => by simp at h, hIZ, hIG, Or.inl ⟨rfl, rfl⟩⟩,
              hpart⟩))
      · rw [if_neg hqn] at hpart
        rcases hexp q true Z G hqn hZ hG (fun h => by simp at h) hIZ hIG _ hpart with
          h | h | h
        · exact Or.inl h
        · exact Or.inr (Or.inr (Or.inl h))
        · obtain ⟨E, R, x, hform, hres⟩ := h
          refine Or.inr (Or.inr (Or.inr ⟨I, true, Z, G, E, R, x, ?_, hres⟩))
          have e : I ++ ((if true = true then ascii_widen '.' :: (Z ++ G) else []) ++ q) =
              I ++ ascii_widen '.' :: (Z ++ G ++ q) := by simp
          rw [e] at hform
          exact hform
    · rw [fraction_part_nodot in_size sign lz c r2 _ hdot, mantissa_state_integer] at hpart
      rcases hexp (c :: r2) false [] [] (List.cons_ne_nil _ _) (by simp) digits_nil
        (fun _ => ⟨rfl, rfl⟩) (fun _ => rfl) (fun _ c hc => by simp at hc) _ hpart with
        h | h | h
      · exact Or.inl h
      · exact Or.inr (Or.inr (Or.inl h))
      · obtain ⟨E, R, x, hform, hres⟩ := h
        refine Or.inr (Or.inr (Or.inr ⟨I, false, [], [], E, R, x, ?_, hres⟩))
        have e : I ++ ((if false = true then ascii_widen '.' :: ([] ++ []) else []) ++
            (c :: r2)) = I ++ c :: r2 := by simp
        rw [e] at hform
        exact hform

theorem after_sign_convert_form (in_size : Nat) (sign : Bool) (body : List Nat) (s : Bool)
    (buffer : List Nat) (exponent : Int) (chars : Nat)
    (h : after_sign in_size sign body = .ok (.convert s buffer exponent chars)) :
    ∃ lead it I dot Z F E R x, body = lead ++ it ∧ leading_mark lead it ∧
      digits_form it I dot Z F E R x ∧ s = sign ∧ buffer = converter_buffer I F ∧
      exponent = converter_exponent I Z.length F x ∧ chars = in_size - R.length := by
  have key : ∀ (lead it : List Nat) (lz : Bool), it ≠ [] → body = lead ++ it →
      leading_mark lead it →
      after_sign in_size sign body = digits_part in_size sign lz it →
      ∃ lead it I dot Z F E R x, body = lead ++ it ∧ leading_mark lead it ∧
        digits_form it I dot Z F E R x ∧ s = sign ∧ buffer = converter_buffer I F ∧
        exponent = converter_exponent I Z.length F x ∧ chars = in_size - R.length := by
    intro lead it lz hit hbody hmark hpart
    rw [hpart] at h
    rcases digits_part_form in_size sign lz it hit with h2 | h2 | h2 |
      ⟨I, dot, Z, F, E, R, x, hform, h2⟩
    · rw [h2] at h; simp at h
    · rw [h2] at h; simp at h
    · rw [h2] at h; simp at h
    · rw [h2] at h
      simp only [Except.ok.injEq, scanned.convert.injEq] at h
      exact ⟨lead, it, I, dot, Z, F, E, R, x, hbody, hmark, hform, h.1.symm, h.2.1.symm,
        h.2.2.1.symm, h.2.2.2.symm⟩
  cases body with
  | nil => simp [after_sign] at h
  | cons c t =>
    by_cases hn : c = ascii_widen 'n' ∨ c = ascii_widen 'N'
    · have h2 := after_sign_nan in_size sign c t hn
      by_cases hv : case_variant "nan" (c :: t)
      · rw [h2.1 hv] at h; simp at h
      · rw [h2.2 hv] at h; simp at h
    · by_cases hi : c = ascii_widen 'i' ∨ c = ascii_widen 'I'
      · have h2 := after_sign_inf in_size sign c t hi
        by_cases hv : case_variant "inf" (c :: t) ∨ case_variant "infinity" (c :: t)
        · rw [h2.1 hv] at h; simp at h
        · rw [h2.2 hv] at h; simp at h
      · by_cases h0 : c = ascii_widen '0'
        · subst h0
          cases t with
          | nil => simp [after_sign] at h
          | cons x t2 =>
            by_cases hx : x = ascii_widen 'x' ∨ x = ascii_widen 'X'
            · have h2 := after_sign_hex in_size sign x t2 hx
              by_cases ht : t2 = []
              · rw [h2, if_pos ht] at h; simp at h
              · rw [if_neg ht] at h2
                exact key [ascii_widen '0', x] t2 true ht rfl (Or.inr (Or.inr ⟨x, hx, rfl⟩)) h2
            · refine key [ascii_widen '0'] (x :: t2) true (List.cons_ne_nil _ _) rfl
                (Or.inr (Or.inl ⟨rfl, ?_⟩)) (after_sign_zero in_size sign x t2 hx)
              intro y hy
              simp only [List.head?_cons, Option.some.injEq] at hy
              rw [← hy]
              exact hx
        · refine key [] (c :: t) false (List.cons_ne_nil _ _) rfl (Or.inl ⟨rfl, ?_⟩)
            (after_sign_decimal in_size sign c t hn hi h0)
          intro y hy
          simp only [List.head?_cons, Option.some.injEq] at hy
          rw [← hy]
          exact h0

/-- Every run that reaches the converter: the input is an optional sign, a leading mark and
the characters from the integer digit loop on, which split as the loops read them, and the
sign, the buffer, the exponent and the count of consumed characters are what the split
gives. -/
theorem string_to_ieee_scan_form (input : List Nat) (s : Bool) (buffer : List Nat)
    (exponent : Int) (chars : Nat)
    (h : string_to_ieee_scan input = .ok (.convert s buffer exponent chars)) :
    ∃ sg lead it I dot Z F E R x, input = sg ++ (lead ++ it) ∧ optional_sign sg ∧
      leading_mark lead it ∧ digits_form it I dot Z F E R x ∧ s = sign_flag sg ∧
      buffer = converter_buffer I F ∧ exponent = converter_exponent I Z.length F x ∧
      chars = input.length - R.length := by
  have hne : input ≠ [] := by
    rintro rfl
    simp [string_to_ieee_scan] at h
  obtain ⟨sg, hsg, hsplit, hns⟩ := sign_split input hne
  generalize after_optional_sign input = body at hsplit hns
  subst hsplit
  cases body with
  | nil =>
    rw [List.append_nil] at h hne
    rcases hsg with rfl | rfl | rfl
    · exact absurd rfl hne
    · exact absurd h (by simp [string_to_ieee_scan])
    · exact absurd h (by simp [string_to_ieee_scan])
  | cons c t =>
    rw [string_to_ieee_scan_sign sg c t hsg (fun h1 => hns h1 c rfl)] at h
    obtain ⟨lead, it, I, dot, Z, F, E, R, x, hbody, hmark, hform, hs, hb, he, hc⟩ :=
      after_sign_convert_form _ _ _ s buffer exponent chars h
    refine ⟨sg, lead, it, I, dot, Z, F, E, R, x, by rw [hbody], hsg, hmark, hform, ?_, hb,
      he, ?_⟩
    · rw [hs]; rfl
    · rw [hc, List.length_append]

theorem has_nonzero_iff (l : List Nat) :
    has_nonzero l = true ↔ ∃ c ∈ l, c ≠ ascii_widen '0' := by
  unfold has_nonzero
  simp [List.any_eq_true]

theorem converter_buffer_eq (I F : List Nat) :
    converter_buffer I F =
      I.take 772 ++ F.take (772 - I.length) ++
        (if has_nonzero (I.drop 772 ++ F.drop (772 - I.length)) then [ascii_widen '1']
          else []) := by
  unfold converter_buffer
  rw [List.take_append_eq_append_take, List.drop_append_eq_append_drop]

theorem converter_exponent_eq (I : List Nat) (z : Nat) (F : List Nat) (x : Int)
    (hx : -max_exponent ≤ x ∧ x ≤ max_exponent) (hI : I.length ≤ 1073741823)
    (hF : z + F.length ≤ 1073741823) :
    converter_exponent I z F x =
      x - z - (F.take (772 - I.length)).length + (I.drop 772).length -
        (if has_nonzero (I.drop 772 ++ F.drop (772 - I.length)) then 1 else 0) := by
  rw [converter_exponent_bounded I z F x hx hI hF]
  rw [List.drop_append_eq_append_drop, List.length_take, List.length_drop]
  have : min (772 - I.length) F.length = min F.length (772 - I.length) := Nat.min_comm _ _
  rw [this]


theorem decimal_value_from_eq (v : Nat) (ds : List Nat) :
    decimal_value_from v ds = v * 10 ^ ds.length + decimal_value ds := by
  induction ds generalizing v with
  | nil => simp [decimal_value_from, decimal_value]
  | cons c cs ih =>
    unfold decimal_value
    rw [decimal_value_from_cons, decimal_value_from_cons, ih, ih (10 * 0 + digit_value c)]
    simp only [List.length_cons]
    ring

theorem decimal_value_append (a b : List Nat) :
    decimal_value (a ++ b) = decimal_value a * 10 ^ b.length + decimal_value b := by
  unfold decimal_value
  rw [decimal_value_from_append, decimal_value_from_eq]
  rfl

theorem decimal_value_zeros (Z : List Nat) (h : ∀ c ∈ Z, c = ascii_widen '0') :
    decimal_value Z = 0 := by
  induction Z with
  | nil => rfl
  | cons c cs ih =>
    have hc := h c (List.mem_cons_self _ _)
    have := ih (fun d hd => h d (List.mem_cons_of_mem _ hd))
    unfold decimal_value at this ⊢
    rw [decimal_value_from_cons, hc]
    simpa [digit_value] using this

theorem has_nonzero_false_iff (l : List Nat) :
    has_nonzero l = false ↔ ∀ c ∈ l, c = ascii_widen '0' := by
  unfold has_nonzero
  simp [List.any_eq_false]

/-- Exponent parts are read in one way: the contribution that the scanner adds is the power
of ten that the exponent part denotes when its magnitude is at most `max_exponent`. -/
theorem exponent_contribution_exact (E : List Nat) (x y : Int)
    (hx : exponent_contribution E x) (hy : exact_exponent E y) : x = y := by
  rcases hx with ⟨rfl, rfl⟩ | ⟨m, sg, X, hE, _, hsg, hXn, hX, rfl⟩
  · rcases hy with ⟨_, rfl⟩ | ⟨m, sg, X, hE, _⟩
    · rfl
    · cases hE
  · rcases hy with ⟨rfl, _⟩ | ⟨m2, sg2, X2, hE2, _, hsg2, hXn2, hX2, hle, rfl⟩
    · cases hE
    · rw [hE] at hE2
      have h2 : sg ++ X = sg2 ++ X2 := (List.cons.inj hE2).2
      obtain ⟨d, ds, rfl⟩ := List.exists_cons_of_ne_nil hXn
      obtain ⟨d2, ds2, rfl⟩ := List.exists_cons_of_ne_nil hXn2
      have hd := is_digit_not_sign (digits_cons.1 hX).1
      have hd2 := is_digit_not_sign (digits_cons.1 hX2).1
      have hs : sg = sg2 ∧ d :: ds = d2 :: ds2 := by
        rcases hsg with rfl | rfl | rfl <;> rcases hsg2 with rfl | rfl | rfl <;>
          simp_all
      obtain ⟨rfl, hXX⟩ := hs
      rw [← hXX] at hle ⊢
      rw [exponent_digits_zero _ hX, min_eq_left hle]

/-- The leading zero and the zeros skipped after the decimal point do not change the number
that the digits of the mantissa denote. -/
theorem decimal_value_mantissa (lead I Z F : List Nat)
    (hlead : lead = [] ∨ lead = [ascii_widen '0'])
    (hZ : ∀ c ∈ Z, c = ascii_widen '0') (hIZ : I ≠ [] → Z = []) :
    decimal_value ((lead ++ I) ++ (Z ++ F)) = decimal_value (I ++ F) := by
  have hl : decimal_value lead = 0 := by
    rcases hlead with rfl | rfl
    · rfl
    · rfl
  rw [List.append_assoc, decimal_value_append, hl, Nat.zero_mul, Nat.zero_add]
  by_cases hI : I = []
  · subst hI
    rw [List.nil_append, List.nil_append, decimal_value_append, decimal_value_zeros Z hZ,
      Nat.zero_mul, Nat.zero_add]
  · rw [hIZ hI, List.nil_append]

/-- When every digit that is not stored is `0`, the buffer and the exponent handed to the
converter denote the literal exactly. -/
theorem converter_exact (lead I Z F : List Nat) (x : Int)
    (hlead : lead = [] ∨ lead = [ascii_widen '0'])
    (hZ : ∀ c ∈ Z, c = ascii_widen '0') (hIZ : I ≠ [] → Z = [])
    (hdrop : ∀ c ∈ (I ++ F).drop 772, c = ascii_widen '0')
    (hx : -max_exponent ≤ x ∧ x ≤ max_exponent) (hI : I.length ≤ 1073741823)
    (hF : Z.length + F.length ≤ 1073741823) :
    (decimal_value (converter_buffer I F) : ℚ) * 10 ^ converter_exponent I Z.length F x =
      literal_value (lead ++ I) (Z ++ F) x := by
  have hd : has_nonzero ((I ++ F).drop 772) = false := (has_nonzero_false_iff _).2 hdrop
  have hT : decimal_value (I ++ F) =
      decimal_value ((I ++ F).take 772) * 10 ^ ((I ++ F).drop 772).length := by
    conv_lhs => rw [← List.take_append_drop 772 (I ++ F)]
    rw [decimal_value_append, decimal_value_zeros _ hdrop, Nat.add_zero]
  rw [converter_exponent_bounded I Z.length F x hx hI hF]
  unfold literal_value converter_buffer
  rw [decimal_value_mantissa lead I Z F hlead hZ hIZ, hT, hd]
  simp only [Bool.false_eq_true, if_false, List.append_nil, sub_zero]
  push_cast
  rw [div_eq_mul_inv, ← zpow_natCast (10 : ℚ), ← zpow_natCast (10 : ℚ), ← zpow_neg,
    mul_assoc, mul_assoc, ← zpow_add₀ (by norm_num : (10 : ℚ) ≠ 0),
    ← zpow_add₀ (by norm_num : (10 : ℚ) ≠ 0)]
  congr 2
  simp only [List.length_drop, List.length_append]
  push_cast
  omega

/-- The scan of an unsigned run of digits `I` that does not begin with `0`: every character
is consumed and the converter gets the digits of `I`. -/
theorem integer_literal_scan (I : List Nat) (hI : digits I) (hne : I ≠ [])
    (h0 : ∀ c, I.head? = some c → c ≠ ascii_widen '0') :
    string_to_ieee_scan I =
      .ok (.convert false (converter_buffer I []) (converter_exponent I 0 [] 0)
        I.length) := by
  obtain ⟨d, ds, rfl⟩ := List.exists_cons_of_ne_nil hne
  have hd := (digits_cons.1 hI).1
  have h := string_to_ieee_scan_sign [] d ds (Or.inl rfl) (fun _ => is_digit_not_sign hd)
  rw [List.nil_append] at h
  rw [h, after_sign_decimal _ _ d ds (is_digit_not_letter hd).1 (is_digit_not_letter hd).2.1
    (h0 d rfl)]
  have h2 := digits_part_eq (([] : List Nat).length + (d :: ds).length)
    (decide (([] : List Nat) = [ascii_widen '+'])) false (d :: ds) [] hI stops_digits_nil
  rw [List.append_nil, if_pos rfl, if_neg hne, mantissa_state_integer,
    parsing_done_mantissa_zero] at h2
  rw [h2]
  simp

/-- The scan of an unsigned run of digits `I` that does not begin with `0`, followed by an
exponent marker and a non-empty run of digits `X`. -/
theorem integer_exponent_scan (I X : List Nat) (m : Nat) (hI : digits I) (hne : I ≠ [])
    (h0 : ∀ c, I.head? = some c → c ≠ ascii_widen '0')
    (hm : m = ascii_widen 'e' ∨ m = ascii_widen 'E') (hX : digits X) (hXn : X ≠ []) :
    string_to_ieee_scan (I ++ m :: X) =
      .ok (.convert false (converter_buffer I [])
        (converter_exponent I 0 [] (exponent_digits X 0)) (I.length + 1 + X.length)) := by
  obtain ⟨d, ds, rfl⟩ := List.exists_cons_of_ne_nil hne
  have hd := (digits_cons.1 hI).1
  have hmd : ¬ is_digit m := by
    unfold is_digit
    rcases hm with rfl | rfl <;> decide
  have hmdot : m ≠ ascii_widen '.' := by
    rcases hm with rfl | rfl <;> decide
  have h := string_to_ieee_scan_sign [] d (ds ++ m :: X) (Or.inl rfl)
    (fun _ => is_digit_not_sign hd)
  rw [List.nil_append] at h
  rw [List.cons_append, h, after_sign_decimal _ _ d _ (is_digit_not_letter hd).1
    (is_digit_not_letter hd).2.1 (h0 d rfl)]
  have h2 := digits_part_eq (([] : List Nat).length + (d :: (ds ++ m :: X)).length)
    (decide (([] : List Nat) = [ascii_widen '+'])) false (d :: ds) (m :: X) hI
    (stops_digits_cons.2 hmd)
  rw [if_neg (List.cons_ne_nil _ _), mantissa_state_integer,
    fraction_part_nodot _ _ _ _ _ _ hmdot] at h2
  have hv : passes_validity false (mantissa_state (d :: ds) 0 []) := by
    refine Or.inr (Or.inr ?_)
    rw [Ne, mantissa_state_significant]
    exact fun h => hne h.1
  have h3 := exponent_part_eq (([] : List Nat).length + (d :: (ds ++ m :: X)).length)
    (decide (([] : List Nat) = [ascii_widen '+'])) false m [] X []
    (mantissa_state (d :: ds) 0 []) hv hm (Or.inl rfl) hX stops_digits_nil
    (fun _ hXe => absurd hXe hXn)
  rw [List.nil_append, List.append_nil, if_neg hXn] at h3
  have he : (mantissa_state (d :: ds) 0 []).exponent = 0 := by
    simp [mantissa_state]
  have hr : -(max_exponent / 2) ≤ (mantissa_state (d :: ds) 0 []).exponent ∧
      (mantissa_state (d :: ds) 0 []).exponent ≤ max_exponent / 2 := by
    rw [he, max_exponent_eq]; decide
  rw [if_pos hr, if_neg (by decide), parsing_done_mantissa] at h3
  rw [List.cons_append] at h2
  rw [h2, h3]
  simp
  omega

/-- A finite binary64 number rounds to itself only. -/
theorem rounds_to_nearest_exact (q r : ℚ) (hq : binary64_finite q)
    (h : rounds_to_nearest q r) : r = q := by
  have h1 := h.2 q hq
  rw [sub_self, abs_zero] at h1
  have h2 : |q - r| = 0 := le_antisymm h1 (abs_nonneg _)
  have h3 := abs_eq_zero.1 h2
  linarith

theorem binary64_finite_natCast (n : Nat) (h : n < 2 ^ 53) : binary64_finite (n : ℚ) := by
  refine ⟨(n : Int), 0, ?_, by norm_num, by norm_num, by simp⟩
  rw [abs_of_nonneg (Int.natCast_nonneg n)]
  exact_mod_cast h

/-- The scan of a leading zero, 772 further zeros `Z` and one more digit `d` that is not
`0`: the 772 zeros fill the buffer and `d` is replaced by the injected `1`. -/
theorem leading_zeros_scan (Z : List Nat) (d : Nat) (hZ : ∀ c ∈ Z, c = ascii_widen '0')
    (hlen : Z.length = 772) (hd : is_digit d) (hd0 : d ≠ ascii_widen '0') :
    string_to_ieee_scan (ascii_widen '0' :: (Z ++ [d])) =
      .ok (.convert false (Z ++ [ascii_widen '1']) 0 774) := by
  have hD : digits (Z ++ [d]) :=
    digits_append.2 ⟨fun c hc => by rw [hZ c hc]; decide, digits_cons.2 ⟨hd, digits_nil⟩⟩
  have hne : Z ++ [d] ≠ [] := by simp
  have h := string_to_ieee_scan_sign [] (ascii_widen '0') (Z ++ [d]) (Or.inl rfl)
    (fun _ => by decide)
  rw [List.nil_append] at h
  have h1 : after_sign (([] : List Nat).length + (ascii_widen '0' :: (Z ++ [d])).length)
      (decide (([] : List Nat) = [ascii_widen '+'])) (ascii_widen '0' :: (Z ++ [d])) =
      digits_part (([] : List Nat).length + (ascii_widen '0' :: (Z ++ [d])).length)
        (decide (([] : List Nat) = [ascii_widen '+'])) true (Z ++ [d]) := by
    obtain ⟨z, zs, rfl⟩ : ∃ z zs, Z = z :: zs := by
      cases Z with
      | nil => cases hlen
      | cons z zs => exact ⟨z, zs, rfl⟩
    have hz : z = ascii_widen '0' := hZ z (List.mem_cons_self _ _)
    rw [List.cons_append, after_sign_zero _ _ z _ (by rw [hz]; decide)]
  have h2 := digits_part_eq
    (([] : List Nat).length + (ascii_widen '0' :: (Z ++ [d])).length)
    (decide (([] : List Nat) = [ascii_widen '+'])) true (Z ++ [d]) [] hD stops_digits_nil
  rw [List.append_nil, if_pos rfl, if_neg hne, mantissa_state_integer,
    parsing_done_mantissa_zero] at h2
  rw [h, h1, h2]
  have ht : (Z ++ [d]).take 772 = Z := by rw [← hlen, List.take_left]
  have hdr : (Z ++ [d]).drop 772 = [d] := by rw [← hlen, List.drop_left]
  have hn : has_nonzero [d] = true := by
    rw [has_nonzero_iff]
    exact ⟨d, List.mem_singleton_self d, hd0⟩
  unfold converter_buffer converter_exponent
  rw [List.append_nil, ht, hdr, hn]
  simp [hlen, int_wrap]

theorem takeWhile_terminated_length (l : List Nat) :
    ((l ++ [0]).takeWhile (fun c => decide (c ≠ 0))).length ≤ l.length := by
  induction l with
  | nil => simp
  | cons c cs ih =>
    rw [List.cons_append, List.takeWhile_cons]
    split
    · simp only [List.length_cons]
      omega
    · simp

/-- The comparison `end == str` holds exactly when `end` is the start of the data and the
string holds no NUL. -/
theorem c_string_at_eq_iff (str : List Nat) (n : Nat) (hn : n ≤ str.length) :
    c_string_at str n = str ↔ n = 0 ∧ (0 : Nat) ∉ str := by
  unfold c_string_at
  constructor
  · intro h
    have h1 : n = 0 := by
      have hl := takeWhile_terminated_length (str.drop n)
      rw [← List.drop_append_of_le_length hn, h, List.length_drop] at hl
      omega
    subst h1
    refine ⟨rfl, fun hmem => ?_⟩
    rw [List.drop_zero] at h
    rw [← h] at hmem
    have := List.mem_takeWhile_imp hmem
    simp at this
  · rintro ⟨rfl, h0⟩
    rw [List.drop_zero, List.takeWhile_append_of_pos]
    · simp
    · intro a ha
      have : a ≠ 0 := fun h => h0 (h ▸ ha)
      simpa using this

/-- The integer part on a non-empty rest of the input, with the call of the exponent part:
as `digits_part_form`, and when the split has an exponent part `E`, the run is the run of the
exponent part on `E ++ R` in the state of the digit loops after the mantissa; a failed
range check is the one of the exponent part in such a state. -/
theorem digits_part_reach (in_size : Nat) (sign lz : Bool) (it : List Nat) (hit : it ≠ []) :
    digits_part in_size sign lz it =
      .ok (.returned (.unexpected .invalid_scanned_value) 0) ∨
    digits_part in_size sign lz it =
      .ok (.returned (.value (if sign then .finite true 0 else .finite false 0)) in_size) ∨
    (∃ I Z F q : List Nat, Z.length + F.length + q.length ≤ it.length ∧
      exponent_part in_size sign lz q (mantissa_state I Z.length F) =
        .error .expect_exponent_range) ∨
    ∃ I dot Z F E R x, digits_form it I dot Z F E R x ∧
      digits_part in_size sign lz it =
        .ok (.convert sign (converter_buffer I F) (converter_exponent I Z.length F x)
          (in_size - R.length)) ∧
      (E ≠ [] → digits_part in_size sign lz it =
        exponent_part in_size sign lz (E ++ R) (mantissa_state I Z.length F)) := by
  obtain ⟨I, r1, hsplit, hI, hr1⟩ := split_digits it
  subst hsplit
  have hpart := digits_part_eq in_size sign lz I r1 hI hr1
  have hexp : ∀ (q : List Nat) (dot : Bool) (Z F : List Nat), q ≠ [] →
      (∀ c ∈ Z, c = ascii_widen '0') → digits F → (dot = false → Z = [] ∧ F = []) →
      (I ≠ [] → Z = []) → (I = [] → ∀ c, F.head? = some c → c ≠ ascii_widen '0') →
      ∀ res, res = exponent_part in_size sign lz q (mantissa_state I Z.length F) →
      res = .ok (.returned (.unexpected .invalid_scanned_value) 0) ∨
      res = .error .expect_exponent_range ∨
      ∃ E R x, digits_form (I ++ ((if dot then ascii_widen '.' :: (Z ++ F) else []) ++ q))
          I dot Z F E R x ∧
        res = .ok (.convert sign (converter_buffer I F)
          (converter_exponent I Z.length F x) (in_size - R.length)) ∧
        res = exponent_part in_size sign lz (E ++ R) (mantissa_state I Z.length F) := by
    intro q dot Z F hq hZ hF hdot hIZ hIF res hres
    rcases exponent_part_form in_size sign lz q (mantissa_state I Z.length F) hq with
      h | h | ⟨E, R, x, hqER, hcontr, h⟩
    · exact Or.inl (hres.trans h)
    · exact Or.inr (Or.inl (hres.trans h))
    · refine Or.inr (Or.inr ⟨E, R, x, ⟨by rw [hqER], hI, hZ, hF, hdot, hIZ, hIF, hcontr⟩,
        ?_, ?_⟩)
      · rw [hres, h, parsing_done_mantissa]
      · rw [hres, hqER]
  by_cases hr : r1 = []
  · subst hr
    have hIn : I ≠ [] := fun h => hit (by rw [h]; rfl)
    rw [if_pos rfl, if_neg hIn, mantissa_state_integer, parsing_done_mantissa_zero] at hpart
    refine Or.inr (Or.inr (Or.inr ⟨I, false, [], [], [], [], 0,
      ⟨by simp, hI, by simp, digits_nil, fun _ => ⟨rfl, rfl⟩, fun _ => rfl,
        fun _ c hc => by simp at hc, Or.inl ⟨rfl, rfl⟩⟩, hpart, fun h => absurd rfl h⟩))
  · rw [if_neg hr] at hpart
    obtain ⟨c, r2, rfl⟩ := List.exists_cons_of_ne_nil hr
    by_cases hdot : c = ascii_widen '.'
    · subst hdot
      obtain ⟨F0, q, hsplit2, hF0, hq⟩ := split_digits r2
      subst hsplit2
      obtain ⟨Z, G, hZG, hZ, hG, hIZ, hIG, hfrac⟩ :=
        fraction_part_mantissa in_size sign lz I F0 q hF0 hq
      rw [hfrac] at hpart
      subst hZG
      by_cases hqn : q = []
      · subst hqn
        rw [if_pos rfl] at hpart
        by_cases hFn : Z ++ G = []
        · obtain ⟨hZn, hGn⟩ := List.append_eq_nil.1 hFn
          rw [if_pos hFn] at hpart
          by_cases hc : I = [] ∧ lz = false
          · rw [if_pos hc] at hpart
            exact Or.inl hpart
          · rw [if_neg hc, parsing_done_mantissa_zero] at hpart
            refine Or.inr (Or.inr (Or.inr ⟨I, true, [], [], [], [], 0,
              ⟨by simp [hZn, hGn], hI, by simp, digits_nil, fun h => by simp at h,
                fun _ => rfl, fun _ c hc => by simp at hc, Or.inl ⟨rfl, rfl⟩⟩, hpart,
              fun h => absurd rfl h⟩))
        · rw [if_neg hFn] at hpart
          by_cases hc : I = [] ∧ G = []
          · rw [if_pos hc] at hpart
            exact Or.inr (Or.inl hpart)
          · rw [if_neg hc, parsing_done_mantissa_zero] at hpart
            refine Or.inr (Or.inr (Or.inr ⟨I, true, Z, G, [], [], 0,
              ⟨by simp, hI, hZ, hG, fun h => by simp at h, hIZ, hIG, Or.inl ⟨rfl, rfl⟩⟩,
              hpart, fun h => absurd rfl h⟩))
      · rw [if_neg hqn] at hpart
        rcases hexp q true Z G hqn hZ hG (fun h => by simp at h) hIZ hIG _ hpart with
          h | h | h
        · exact Or.inl h
        · exact Or.inr (Or.inr (Or.inl ⟨I, Z, G, q, by simp; omega, hpart.symm.trans h⟩))
        · obtain ⟨E, R, x, hform, hres, hlink⟩ := h
          refine Or.inr (Or.inr (Or.inr ⟨I, true, Z, G, E, R, x, ?_, hres, fun _ => hlink⟩))
          have e : I ++ ((if true = true then ascii_widen '.' :: (Z ++ G) else []) ++ q) =
              I ++ ascii_widen '.' :: (Z ++ G ++ q) := by simp
          rw [e] at hform
          exact hform
    · rw [fraction_part_nodot in_size sign lz c r2 _ hdot, mantissa_state_integer] at hpart
      rcases hexp (c :: r2) false [] [] (List.cons_ne_nil _ _) (by simp) digits_nil
        (fun _ => ⟨rfl, rfl⟩) (fun _ => rfl) (fun _ c hc => by simp at hc) _ hpart with
        h | h | h
      · exact Or.inl h
      · exact Or.inr (Or.inr (Or.inl ⟨I, [], [], c :: r2, by simp,
          hpart.symm.trans h⟩))
      · obtain ⟨E, R, x, hform, hres, hlink⟩ := h
        refine Or.inr (Or.inr (Or.inr ⟨I, false, [], [], E, R, x, ?_, hres, fun _ => hlink⟩))
        have e : I ++ ((if false = true then ascii_widen '.' :: ([] ++ []) else []) ++
            (c :: r2)) = I ++ c :: r2 := by simp
        rw [e] at hform
        exact hform

theorem mantissa_state_exponent_bounds (I : List Nat) (z : Nat) (F : List Nat) :
    -((z + F.length : Nat) : Int) ≤ (mantissa_state I z F).exponent ∧
      (mantissa_state I z F).exponent ≤ 0 := by
  unfold mantissa_state
  dsimp only
  push_cast
  omega

theorem mantissa_state_insignificant (I : List Nat) (z : Nat) (F : List Nat) :
    (mantissa_state I z F).insignificant_digits = ((I.length - 772 : Nat) : Int) := rfl

/-- The exponent part in a state whose exponent passes the range check does not fail it. -/
theorem exponent_part_in_range (in_size : Nat) (sign lz : Bool) (q : List Nat)
    (st : digit_state) (hwf : st.wf) (hq : q ≠ [])
    (hr : -(max_exponent / 2) ≤ st.exponent ∧ st.exponent ≤ max_exponent / 2) :
    ∃ r, exponent_part in_size sign lz q st = .ok r := by
  by_cases hv : passes_validity lz st
  · obtain ⟨c, t, rfl⟩ := List.exists_cons_of_ne_nil hq
    by_cases hc : c = ascii_widen 'e' ∨ c = ascii_widen 'E'
    · obtain ⟨sg, X, rest, hsplit, hsg, hX, hrest, hns⟩ := split_exponent t
      rw [hsplit, exponent_part_eq in_size sign lz c sg X rest st hv hc hsg hX hrest hns]
      by_cases hXnil : X = []
      · rw [if_pos hXnil, parsing_done_eq _ _ _ _ hwf]
        exact ⟨_, rfl⟩
      · rw [if_neg hXnil, if_pos hr, parsing_done_eq _ _ _ _ (wf_with_exponent st _ hwf)]
        exact ⟨_, rfl⟩
    · rw [exponent_part_other in_size sign lz c t st hv hc, parsing_done_eq _ _ _ _ hwf]
      exact ⟨_, rfl⟩
  · rw [exponent_part_invalid in_size sign lz q st hv]
    exact ⟨_, rfl⟩

/-- Every run from the character after the sign: a value or an error is returned before the
converter, or the range check of the exponent part fails in a state of the digit loops, or
the converter is called; then the characters split as the scanner reads them, and when the
split has an exponent part `E`, the run is the run of the exponent part on `E ++ R` in the
state of the digit loops after the mantissa. -/
theorem after_sign_reach (in_size : Nat) (sign : Bool) (body : List Nat) (hne : body ≠ []) :
    (∃ r n, after_sign in_size sign body = .ok (.returned r n)) ∨
    (∃ (lz : Bool) (I Z F q : List Nat), Z.length + F.length + q.length ≤ body.length ∧
      exponent_part in_size sign lz q (mantissa_state I Z.length F) =
        .error .expect_exponent_range) ∨
    ∃ lead it I dot Z F E R x, body = lead ++ it ∧ leading_mark lead it ∧
      digits_form it I dot Z F E R x ∧
      after_sign in_size sign body =
        .ok (.convert sign (converter_buffer I F) (converter_exponent I Z.length F x)
          (in_size - R.length)) ∧
      (E ≠ [] → after_sign in_size sign body =
        exponent_part in_size sign (decide (lead ≠ [])) (E ++ R)
          (mantissa_state I Z.length F)) := by
  have key : ∀ (lead it : List Nat) (lz : Bool), it ≠ [] → body = lead ++ it →
      leading_mark lead it → lz = decide (lead ≠ []) →
      after_sign in_size sign body = digits_part in_size sign lz it →
      (∃ r n, after_sign in_size sign body = .ok (.returned r n)) ∨
      (∃ (lz : Bool) (I Z F q : List Nat), Z.length + F.length + q.length ≤ body.length ∧
        exponent_part in_size sign lz q (mantissa_state I Z.length F) =
          .error .expect_exponent_range) ∨
      ∃ lead it I dot Z F E R x, body = lead ++ it ∧ leading_mark lead it ∧
        digits_form it I dot Z F E R x ∧
        after_sign in_size sign body =
          .ok (.convert sign (converter_buffer I F) (converter_exponent I Z.length F x)
            (in_size - R.length)) ∧
        (E ≠ [] → after_sign in_size sign body =
          exponent_part in_size sign (decide (lead ≠ [])) (E ++ R)
            (mantissa_state I Z.length F)) := by
    intro lead it lz hit hbody hmark hlz hpart
    rcases digits_part_reach in_size sign lz it hit with h2 | h2 | ⟨I, Z, F, q, hl, h2⟩ |
      ⟨I, dot, Z, F, E, R, x, hform, h2, hlink⟩
    · exact Or.inl ⟨_, _, hpart.trans h2⟩
    · exact Or.inl ⟨_, _, hpart.trans h2⟩
    · refine Or.inr (Or.inl ⟨lz, I, Z, F, q, ?_, h2⟩)
      rw [hbody, List.length_append]
      omega
    · refine Or.inr (Or.inr ⟨lead, it, I, dot, Z, F, E, R, x, hbody, hmark, hform,
        hpart.trans h2, fun hE => ?_⟩)
      rw [← hlz, hpart]
      exact hlink hE
  obtain ⟨c, t, rfl⟩ := List.exists_cons_of_ne_nil hne
  by_cases hn : c = ascii_widen 'n' ∨ c = ascii_widen 'N'
  · have h2 := after_sign_nan in_size sign c t hn
    by_cases hv : case_variant "nan" (c :: t)
    · exact Or.inl ⟨_, _, h2.1 hv⟩
    · exact Or.inl ⟨_, _, h2.2 hv⟩
  · by_cases hi : c = ascii_widen 'i' ∨ c = ascii_widen 'I'
    · have h2 := after_sign_inf in_size sign c t hi
      by_cases hv : case_variant "inf" (c :: t) ∨ case_variant "infinity" (c :: t)
      · exact Or.inl ⟨_, _, h2.1 hv⟩
      · exact Or.inl ⟨_, _, h2.2 hv⟩
    · by_cases h0 : c = ascii_widen '0'
      · subst h0
        cases t with
        | nil => exact Or.inl ⟨_, _, rfl⟩
        | cons x t2 =>
          by_cases hx : x = ascii_widen 'x' ∨ x = ascii_widen 'X'
          · have h2 := after_sign_hex in_size sign x t2 hx
            by_cases ht : t2 = []
            · rw [if_pos ht] at h2
              exact Or.inl ⟨_, _, h2⟩
            · rw [if_neg ht] at h2
              exact key [ascii_widen '0', x] t2 true ht rfl (Or.inr (Or.inr ⟨x, hx, rfl⟩))
                (by simp) h2
          · refine key [ascii_widen '0'] (x :: t2) true (List.cons_ne_nil _ _) rfl
              (Or.inr (Or.inl ⟨rfl, ?_⟩)) (by simp) (after_sign_zero in_size sign x t2 hx)
            intro y hy
            simp only [List.head?_cons, Option.some.injEq] at hy
            rw [← hy]
            exact hx
      · refine key [] (c :: t) false (List.cons_ne_nil _ _) rfl (Or.inl ⟨rfl, ?_⟩)
          (by simp) (after_sign_decimal in_size sign c t hn hi h0)
        intro y hy
        simp only [List.head?_cons, Option.some.injEq] at hy
        rw [← hy]
        exact h0

/-- Every run on a non-empty input: a value or an error is returned before the converter, or
the range check of the exponent part fails in a state of the digit loops, or the converter
is called; then the input splits as the scanner reads it, and when the split has an exponent
part `E`, the run is the run of the exponent part on `E ++ R` in the state of the digit
loops after the mantissa. -/
theorem string_to_ieee_scan_reach (input : List Nat) (hne : input ≠ []) :
    (∃ r n, string_to_ieee_scan input = .ok (.returned r n)) ∨
    (∃ (sign lz : Bool) (I Z F q : List Nat), Z.length + F.length + q.length ≤ input.length ∧
      exponent_part input.length sign lz q (mantissa_state I Z.length F) =
        .error .expect_exponent_range) ∨
    ∃ sg lead it I dot Z F E R x, input = sg ++ (lead ++ it) ∧ optional_sign sg ∧
      leading_mark lead it ∧ digits_form it I dot Z F E R x ∧
      string_to_ieee_scan input =
        .ok (.convert (sign_flag sg) (converter_buffer I F)
          (converter_exponent I Z.length F x) (input.length - R.length)) ∧
      (E ≠ [] → string_to_ieee_scan input =
        exponent_part input.length (sign_flag sg) (decide (lead ≠ [])) (E ++ R)
          (mantissa_state I Z.length F)) := by
  obtain ⟨sg, hsg, hsplit, hns⟩ := sign_split input hne
  generalize after_optional_sign input = body at hsplit hns
  subst hsplit
  cases body with
  | nil =>
    rw [List.append_nil] at hne ⊢
    rcases hsg with rfl | rfl | rfl
    · exact absurd rfl hne
    · exact Or.inl ⟨_, _, rfl⟩
    · exact Or.inl ⟨_, _, rfl⟩
  | cons c t =>
    have hscan := string_to_ieee_scan_sign sg c t hsg (fun h1 => hns h1 c rfl)
    have hlen : (sg ++ c :: t).length = sg.length + (c :: t).length := List.length_append _ _
    have hflag : decide (sg = [ascii_widen '+']) = sign_flag sg := rfl
    rw [← hlen, hflag] at hscan
    rcases after_sign_reach (sg ++ c :: t).length (sign_flag sg) (c :: t)
        (List.cons_ne_nil _ _) with ⟨r, n, h⟩ | ⟨lz, I, Z, F, q, hl, h⟩ |
        ⟨lead, it, I, dot, Z, F, E, R, x, hbody, hmark, hform, h, hlink⟩
    · exact Or.inl ⟨r, n, hscan.trans h⟩
    · refine Or.inr (Or.inl ⟨sign_flag sg, lz, I, Z, F, q, ?_, h⟩)
      rw [hlen]
      omega
    · refine Or.inr (Or.inr ⟨sg, lead, it, I, dot, Z, F, E, R, x, by rw [hbody], hsg, hmark,
        hform, hscan.trans h, fun hE => hscan.trans (hlink hE)⟩)

/-- What the exponent part adds to the exponent is `num` or `-num`, of magnitude at most
`max_exponent`. -/
theorem exponent_contribution_bounds (E : List Nat) (x : Int)
    (h : exponent_contribution E x) : -max_exponent ≤ x ∧ x ≤ max_exponent := by
  rcases h with ⟨_, rfl⟩ | ⟨m, sg, X, _, _, _, _, hX, rfl⟩
  · rw [max_exponent_eq]; decide
  · have h1 := exponent_digits_zero X hX
    have h2 : (0 : Int) ≤ exponent_digits X 0 := by
      rw [h1, max_exponent_eq]
      exact le_min (Int.natCast_nonneg _) (by decide)
    have h3 : exponent_digits X 0 ≤ max_exponent := by
      rw [h1]
      exact min_le_right _ _
    split_ifs <;> omega

/-- The exponent part in a state whose exponent passes the range check does not fail the
check, on any rest of the input. -/
theorem exponent_part_range_ok (in_size : Nat) (sign lz : Bool) (q : List Nat)
    (st : digit_state) (hwf : st.wf)
    (hr : -(max_exponent / 2) ≤ st.exponent ∧ st.exponent ≤ max_exponent / 2) :
    exponent_part in_size sign lz q st ≠ .error .expect_exponent_range := by
  by_cases hq : q = []
  · subst hq
    unfold exponent_part
    split_ifs <;> simp
  · obtain ⟨r, h⟩ := exponent_part_in_range in_size sign lz q st hwf hq hr
    rw [h]
    simp

theorem converter_exponent_state (I : List Nat) (z : Nat) (F : List Nat) (x : Int)
    (hx : -max_exponent ≤ x ∧ x ≤ max_exponent) (hI : I.length ≤ 1073741823)
    (hF : z + F.length ≤ 1073741823) :
    converter_exponent I z F x =
      (mantissa_state I z F).exponent + x + (mantissa_state I z F).insignificant_digits -
        (if (mantissa_state I z F).nonzero_digit_dropped then 1 else 0) := by
  rw [converter_exponent_bounded I z F x hx hI hF]
  unfold mantissa_state
  dsimp only
  split_ifs <;> omega

/-- The lengths of the parts of a split are bounded by the length of the characters. -/
theorem digits_form_lengths {it I : List Nat} {dot : Bool} {Z F E R : List Nat} {x : Int}
    (h : digits_form it I dot Z F E R x) :
    I.length + (E ++ R).length ≤ it.length ∧
      Z.length + F.length + (E ++ R).length ≤ it.length := by
  obtain ⟨hit, _, _, _, hdot, _⟩ := h
  rw [hit]
  cases dot with
  | false =>
    obtain ⟨hZ, hF⟩ := hdot rfl
    subst hZ hF
    simp only [List.length_append, List.length_nil]
    omega
  | true =>
    simp only [List.length_append, List.length_cons, if_true]
    omega

theorem decimal_value_ne_zero (c : Nat) (t : List Nat) (hc : digit_value c ≠ 0) :
    decimal_value (c :: t) ≠ 0 := by
  unfold decimal_value
  rw [decimal_value_from_cons, decimal_value_from_eq]
  have hpos : 0 < (10 * 0 + digit_value c) * 10 ^ t.length :=
    Nat.mul_pos (by omega) (Nat.pos_pow_of_pos _ (by decide))
  omega

/-- The scan of 772 digits `P` that do not begin with `0`, zeros `Zs`, an exponent marker
and a non-empty run of digits `X`: the zeros are counted, not stored, and the sum of `num`
and their count is handed to the converter as a value of the type `int`. -/
theorem zeros_exponent_scan (P Zs X : List Nat) (m : Nat) (hP : digits P)
    (hlen : P.length = 772) (hhead : ∀ c, P.head? = some c → c ≠ ascii_widen '0')
    (hZs : ∀ c ∈ Zs, c = ascii_widen '0')
    (hm : m = ascii_widen 'e' ∨ m = ascii_widen 'E') (hX : digits X) (hXn : X ≠ []) :
    string_to_ieee_scan ((P ++ Zs) ++ m :: X) =
      .ok (.convert false P (int_wrap (exponent_digits X 0 + (Zs.length : Int)))
        (772 + Zs.length + 1 + X.length)) := by
  have hPn : P ≠ [] := by
    intro hn
    rw [hn] at hlen
    cases hlen
  have hD : digits (P ++ Zs) :=
    digits_append.2 ⟨hP, fun c hc => by rw [hZs c hc]; decide⟩
  have hh : ∀ c, (P ++ Zs).head? = some c → c ≠ ascii_widen '0' := by
    obtain ⟨d, ds, rfl⟩ := List.exists_cons_of_ne_nil hPn
    exact hhead
  have hne : P ++ Zs ≠ [] := fun h => hPn (List.append_eq_nil.1 h).1
  rw [integer_exponent_scan (P ++ Zs) X m hD hne hh hm hX hXn]
  have htake : (P ++ Zs).take 772 = P := by rw [← hlen, List.take_left]
  have hdrop : (P ++ Zs).drop 772 = Zs := by rw [← hlen, List.drop_left]
  have hnz : has_nonzero Zs = false := (has_nonzero_false_iff _).2 hZs
  have hb : converter_buffer (P ++ Zs) [] = P := by
    unfold converter_buffer
    rw [List.append_nil, htake, hdrop, hnz]
    simp
  have he : converter_exponent (P ++ Zs) 0 [] (exponent_digits X 0) =
      int_wrap (exponent_digits X 0 + (Zs.length : Int)) := by
    unfold converter_exponent
    rw [List.append_nil, hdrop, hnz]
    congr 1
    simp only [List.length_append, hlen, List.length_nil]
    push_cast
    simp
  rw [hb, he, List.length_append, hlen]

/-- The digits `P` followed by zeros `Zs`, with the power of ten `x`, denote the number of
`P` times ten to `x` plus the count of the zeros, and to no other power when `P` is not 0. -/
theorem literal_value_zeros_ne (P Zs : List Nat) (e x : Int) (hP : decimal_value P ≠ 0)
    (hZs : ∀ c ∈ Zs, c = ascii_widen '0') (he : e ≠ x + (Zs.length : Int)) :
    (decimal_value P : ℚ) * 10 ^ e ≠ literal_value (P ++ Zs) [] x := by
  unfold literal_value
  rw [List.append_nil, decimal_value_append, decimal_value_zeros Zs hZs, Nat.add_zero]
  intro h
  have hP2 : (decimal_value P : ℚ) ≠ 0 := by exact_mod_cast hP
  have h10 : (10 : ℚ) ≠ 0 := by norm_num
  rw [List.length_nil, pow_zero, div_one] at h
  push_cast at h
  rw [← zpow_natCast (10 : ℚ), mul_assoc, ← zpow_add₀ h10] at h
  have h2 := mul_left_cancel₀ hP2 h
  have h3 := zpow_right_injective₀ (by norm_num : (0 : ℚ) < 10) (by norm_num : (10 : ℚ) ≠ 1) h2
  omega

/-- What the native path returns, for a native outcome whose `end` lies in the string and a
nonzero `ERANGE`: `chars` is the offset of `end` on every return; a range error returns
`value_out_of_range`; without one, `invalid_scanned_value` is returned exactly when nothing
was consumed, the value compares equal to zero and the input holds no NUL, and the native
value is returned otherwise; and `errno` is not `ERANGE` after the call. -/
theorem native_path_outcome (ERANGE : Nat) (native : List Nat → native_outcome) (s : List Nat)
    (hE : ERANGE ≠ 0) (hend : (native s).end_offset ≤ s.length) :
    (read_float_impl_long_double.get ERANGE native s).chars = (native s).end_offset ∧
    ((native s).errno = ERANGE →
      (read_float_impl_long_double.get ERANGE native s).result =
        .unexpected .value_out_of_range) ∧
    ((native s).errno ≠ ERANGE →
      ((native s).end_offset = 0 ∧ (native s).ld.eq_zero = true ∧ (0 : Nat) ∉ s) →
      (read_float_impl_long_double.get ERANGE native s).result =
        .unexpected .invalid_scanned_value) ∧
    ((native s).errno ≠ ERANGE →
      ¬ ((native s).end_offset = 0 ∧ (native s).ld.eq_zero = true ∧ (0 : Nat) ∉ s) →
      (read_float_impl_long_double.get ERANGE native s).result = .value (native s).ld) ∧
    (read_float_impl_long_double.get ERANGE native s).errno ≠ ERANGE := by
  have hc := c_string_at_eq_iff s (native s).end_offset hend
  unfold read_float_impl_long_double.get
  dsimp only
  by_cases hr : (native s).errno = ERANGE
  · rw [if_pos hr]
    exact ⟨rfl, fun _ => rfl, fun h => absurd hr h, fun h => absurd hr h, fun h => hE h.symm⟩
  · rw [if_neg hr]
    by_cases hz : ((native s).ld.eq_zero &&
        decide (c_string_at s (native s).end_offset = s)) = true
    · rw [if_pos hz]
      rw [Bool.and_eq_true, decide_eq_true_eq, hc] at hz
      exact ⟨rfl, fun h => absurd h hr, fun _ _ => rfl,
        fun _ h => absurd ⟨hz.2.1, hz.1, hz.2.2⟩ h, hr⟩
    · rw [if_neg hz]
      rw [Bool.and_eq_true, decide_eq_true_eq, hc] at hz
      exact ⟨rfl, fun h => absurd h hr, fun _ h => absurd ⟨h.2.1, h.1, h.2.2⟩ hz,
        fun _ _ => rfl, hr⟩

/-! ## The claims -/

/-- C1, as stated, fails on "0x1": the call succeeds with a finite value and `chars = 3`,
but the first three characters are not a decimal literal (the longest initial part of the
input that is one is "0"). -/
theorem hex_mark_is_consumed :
    string_to_ieee (span_of "0x1") = .ok ⟨.value (.finite false 0), 3⟩ ∧
    ¬ decimal_literal ((span_of "0x1").take 3) := by
  refine ⟨rfl, ?_⟩
  intro h
  have hlong := (longest_decimal_literal [] [48] [] [120, 49] (Or.inl rfl)
    (Or.inl ⟨by decide, by decide⟩) (Or.inl rfl) (stops_digits_cons.2 (by decide))
    (fun _ c hc => by
      simp only [List.nil_append, List.head?_cons, Option.some.injEq] at hc
      subst hc; decide)
    (fun _ => by
      rintro ⟨m, sg, x, t, h1, h2, _⟩
      simp only [List.cons.injEq] at h1
      rw [← h1.1] at h2
      revert h2
      decide)
    (fun h => absurd rfl h)).2 [48, 120, 49] [] rfl h
  revert hlong
  decide

/-- C1, amended: when `string_to_ieee` returns a finite value on an input that, after the
optional sign, is neither "0" alone nor begins with `0x` or `0X`, the first `chars`
characters of the input are a decimal literal and no longer initial part of the input is
one: `chars` is the length of the longest initial part that matches the decimal grammar. -/
theorem chars_is_longest_decimal_literal (input : List Nat) (s : Bool) (mag : ℚ) (n : Nat)
    (hres : string_to_ieee input = .ok ⟨.value (.finite s mag), n⟩)
    (hhex : ¬ hex_start (after_optional_sign input))
    (hbare : after_optional_sign input ≠ [ascii_widen '0']) :
    n ≤ input.length ∧ decimal_literal (input.take n) ∧
    ∀ k, k ≤ input.length → decimal_literal (input.take k) → k ≤ n := by
  obtain ⟨sg, M, E, R, rfl, hsg, hM, hE, h1, h2, h3, h4, rfl⟩ :=
    finite_result_decomposition input s mag n hres hhex hbare
  obtain ⟨hlit, hmax⟩ := longest_decimal_literal sg M E R hsg hM hE h1 h2 h3 h4
  have htake : (sg ++ (M ++ (E ++ R))).take (sg.length + M.length + E.length) =
      sg ++ (M ++ E) := by
    have : sg ++ (M ++ (E ++ R)) = (sg ++ (M ++ E)) ++ R := by simp
    rw [this]
    exact List.take_left' (by simp only [List.length_append]; omega)
  refine ⟨by simp only [List.length_append]; omega, by rw [htake]; exact hlit, ?_⟩
  intro k hk hlitk
  have := hmax _ _ (List.take_append_drop k _).symm hlitk
  rw [List.length_take, Nat.min_eq_left hk] at this
  exact this

/-- Witness of C1 at the input "1.5e10x": `chars` is 6. -/
theorem chars_is_longest_decimal_literal_witness :
    string_to_ieee (span_of "1.5e10x") = .ok ⟨.value (.finite false 0), 6⟩ ∧
    6 ≤ (span_of "1.5e10x").length ∧ decimal_literal ((span_of "1.5e10x").take 6) ∧
    ∀ k, k ≤ (span_of "1.5e10x").length → decimal_literal ((span_of "1.5e10x").take k) →
      k ≤ 6 :=
  ⟨rfl, chars_is_longest_decimal_literal (span_of "1.5e10x") false 0 6 rfl
    (by
      rintro ⟨x, t, h1, _⟩
      rw [show after_optional_sign (span_of "1.5e10x") = [49, 46, 53, 101, 49, 48, 120]
        from rfl] at h1
      simp at h1)
    (by decide)⟩

/-- C2: the converter `do_float_conversion` returns `T{0.0}` for every buffer and exponent, so
scanning "1.5e10" returns the value 0 (with `chars = 6`) and not 15000000000, and scanning
"100.200" returns 0 and not a value near 100.2. -/
theorem converted_value_is_zero :
    string_to_ieee (span_of "1.5e10") = .ok ⟨.value (.finite false 0), 6⟩ ∧
    string_to_ieee (span_of "100.200") = .ok ⟨.value (.finite false 0), 7⟩ ∧
    ieee_value.finite false 0 ≠ ieee_value.finite false 15000000000 :=
  ⟨rfl, rfl, by simp⟩

/-- C3: the flag `sign` is set for a leading `+` (line 94) and the result is negated when it is
set: "-inf", "-nan" and "-1" come back with the sign bit clear, "+inf", "+nan" and "+1" with
the sign bit set. -/
theorem sign_flag_is_set_by_plus :
    string_to_ieee (span_of "-inf") = .ok ⟨.value (.infinity false), 0⟩ ∧
    string_to_ieee (span_of "+inf") = .ok ⟨.value (.infinity true), 0⟩ ∧
    string_to_ieee (span_of "-nan") = .ok ⟨.value (.quiet_NaN false), 0⟩ ∧
    string_to_ieee (span_of "+nan") = .ok ⟨.value (.quiet_NaN true), 0⟩ ∧
    string_to_ieee (span_of "-1") = .ok ⟨.value (.finite false 0), 2⟩ ∧
    string_to_ieee (span_of "+1") = .ok ⟨.value (.finite true 0), 2⟩ :=
  ⟨rfl, rfl, rfl, rfl, rfl, rfl⟩

/-- C4: on "0" the function returns +0.0 and leaves `chars` at 0 (not 1); on "-0" it returns
+0.0 (not -0.0) and leaves `chars` at 0 (not 2). -/
theorem bare_zero_result :
    string_to_ieee (span_of "0") = .ok ⟨.value (.finite false 0), 0⟩ ∧
    string_to_ieee (span_of "-0") = .ok ⟨.value (.finite false 0), 0⟩ :=
  ⟨rfl, rfl⟩

/-- C5: after an optional sign, an input whose first character is `n` or `N` is accepted, as
a NaN, exactly when the rest of the input from that character on spells "nan" up to case, and
an input whose first character is `i` or `I` is accepted, as an infinity, exactly when it
spells "inf" or "infinity" up to case; every other such input returns
`invalid_scanned_value`. -/
theorem special_value_tokens (sg rest : List Nat) (c : Nat) (hsg : optional_sign sg) :
    ((c = ascii_widen 'n' ∨ c = ascii_widen 'N') →
      ((∃ v n, string_to_ieee (sg ++ c :: rest) = .ok ⟨.value v, n⟩) ↔
        case_variant "nan" (c :: rest)) ∧
      (case_variant "nan" (c :: rest) →
        ∃ s n, string_to_ieee (sg ++ c :: rest) = .ok ⟨.value (.quiet_NaN s), n⟩) ∧
      (¬ case_variant "nan" (c :: rest) →
        ∃ n, string_to_ieee (sg ++ c :: rest) =
          .ok ⟨.unexpected .invalid_scanned_value, n⟩)) ∧
    ((c = ascii_widen 'i' ∨ c = ascii_widen 'I') →
      ((∃ v n, string_to_ieee (sg ++ c :: rest) = .ok ⟨.value v, n⟩) ↔
        (case_variant "inf" (c :: rest) ∨ case_variant "infinity" (c :: rest))) ∧
      (case_variant "inf" (c :: rest) ∨ case_variant "infinity" (c :: rest) →
        ∃ s n, string_to_ieee (sg ++ c :: rest) = .ok ⟨.value (.infinity s), n⟩) ∧
      (¬ (case_variant "inf" (c :: rest) ∨ case_variant "infinity" (c :: rest)) →
        ∃ n, string_to_ieee (sg ++ c :: rest) =
          .ok ⟨.unexpected .invalid_scanned_value, n⟩)) := by
  constructor
  · intro hc
    have hs := string_to_ieee_scan_sign sg c rest hsg (fun _ => by
      simp only [ascii_widen_n, ascii_widen_N, ascii_widen_plus, ascii_widen_minus] at hc ⊢
      omega)
    have h := after_sign_nan (sg.length + (c :: rest).length)
      (decide (sg = [ascii_widen '+'])) c rest hc
    have hyes : case_variant "nan" (c :: rest) →
        ∃ s n, string_to_ieee (sg ++ c :: rest) = .ok ⟨.value (.quiet_NaN s), n⟩ := by
      intro hv
      exact ⟨decide (sg = [ascii_widen '+']), 0, by simp only [string_to_ieee, hs, h.1 hv]⟩
    have hno : ¬ case_variant "nan" (c :: rest) →
        ∃ n, string_to_ieee (sg ++ c :: rest) =
          .ok ⟨.unexpected .invalid_scanned_value, n⟩ := by
      intro hv
      exact ⟨0, by simp only [string_to_ieee, hs, h.2 hv]⟩
    refine ⟨⟨fun hv => ?_, fun hv => ?_⟩, hyes, hno⟩
    · by_contra hcv
      obtain ⟨v, n, h1⟩ := hv
      obtain ⟨m, h2⟩ := hno hcv
      rw [h1] at h2
      simp at h2
    · obtain ⟨s, n, h1⟩ := hyes hv
      exact ⟨_, n, h1⟩
  · intro hc
    have hs := string_to_ieee_scan_sign sg c rest hsg (fun _ => by
      simp only [ascii_widen_i, ascii_widen_I, ascii_widen_plus, ascii_widen_minus] at hc ⊢
      omega)
    have h := after_sign_inf (sg.length + (c :: rest).length)
      (decide (sg = [ascii_widen '+'])) c rest hc
    have hyes : case_variant "inf" (c :: rest) ∨ case_variant "infinity" (c :: rest) →
        ∃ s n, string_to_ieee (sg ++ c :: rest) = .ok ⟨.value (.infinity s), n⟩ := by
      intro hv
      exact ⟨decide (sg = [ascii_widen '+']), 0, by simp only [string_to_ieee, hs, h.1 hv]⟩
    have hno : ¬ (case_variant "inf" (c :: rest) ∨ case_variant "infinity" (c :: rest)) →
        ∃ n, string_to_ieee (sg ++ c :: rest) =
          .ok ⟨.unexpected .invalid_scanned_value, n⟩ := by
      intro hv
      exact ⟨0, by simp only [string_to_ieee, hs, h.2 hv]⟩
    refine ⟨⟨fun hv => ?_, fun hv => ?_⟩, hyes, hno⟩
    · by_contra hcv
      obtain ⟨v, n, h1⟩ := hv
      obtain ⟨m, h2⟩ := hno hcv
      rw [h1] at h2
      simp at h2
    · obtain ⟨s, n, h1⟩ := hyes hv
      exact ⟨_, n, h1⟩

/-- Witness of C5 at the input "-NaN": the sign is optional, the first character after it
is `N`, the rest spells "nan", and the input is accepted as a NaN. -/
theorem special_value_tokens_witness :
    optional_sign [45] ∧ (78 = ascii_widen 'n' ∨ 78 = ascii_widen 'N') ∧
    case_variant "nan" [78, 97, 78] ∧
    ∃ s n, string_to_ieee ([45] ++ 78 :: [97, 78]) = .ok ⟨.value (.quiet_NaN s), n⟩ :=
  have hsg : optional_sign [45] := Or.inr (Or.inr rfl)
  have hc : 78 = ascii_widen 'n' ∨ 78 = ascii_widen 'N' := Or.inr rfl
  have hv : case_variant "nan" [78, 97, 78] := by
    unfold case_variant
    exact .cons (Or.inr rfl) (.cons (Or.inl rfl) (.cons (Or.inr rfl) .nil))
  ⟨hsg, hc, hv, ((special_value_tokens [45] [97, 78] 78 hsg).1 hc).2.1 hv⟩

/-- C6: on a special value the function returns without assigning `chars`, which keeps the 0
of line 87: "nan" reports 0 (not 3), "-inf" reports 0 (not 4) and "+INFINITY" reports 0
(not 9). -/
theorem special_value_chars_is_zero :
    string_to_ieee (span_of "nan") = .ok ⟨.value (.quiet_NaN false), 0⟩ ∧
    string_to_ieee (span_of "-inf") = .ok ⟨.value (.infinity false), 0⟩ ∧
    string_to_ieee (span_of "+INFINITY") = .ok ⟨.value (.infinity true), 0⟩ :=
  ⟨rfl, rfl, rfl⟩

/-- C7: an optional sign, a non-empty run of digits `D` and then a character `c` that is not
a digit, `.`, `e` or `E`, followed by anything, where the input does not begin after the
sign with `0x` or `0X`: `string_to_ieee` succeeds and reports the length of the sign and of
`D` as `chars`. -/
theorem digits_then_garbage (sg D r : List Nat) (c : Nat) (hsg : optional_sign sg)
    (hD : digits D) (hne : D ≠ [])
    (hc : ¬ is_digit c ∧ c ≠ ascii_widen '.' ∧ c ≠ ascii_widen 'e' ∧ c ≠ ascii_widen 'E')
    (hhex : ¬ hex_start (D ++ c :: r)) :
    ∃ v, string_to_ieee (sg ++ D ++ c :: r) = .ok ⟨.value v, sg.length + D.length⟩ := by
  have hM : mantissa D := Or.inl ⟨hne, hD⟩
  obtain ⟨lz, st, hwf, hv, _, hgo⟩ := after_sign_mantissa D hM
  have hscan := string_to_ieee_scan_mantissa sg D (c :: r) hsg hM
  rw [hgo _ _ (c :: r) (List.cons_ne_nil _ _) (stops_digits_cons.2 hc.1)
      (fun _ x hx => by
        simp only [List.head?_cons, Option.some.injEq] at hx
        rw [← hx]; exact hc.2.1) hhex,
    exponent_part_other _ _ lz c r st hv (by
      intro h; rcases h with h | h
      · exact hc.2.2.1 h
      · exact hc.2.2.2 h)] at hscan
  obtain ⟨res, hres, hacc⟩ := parsing_done_accepts
    (sg.length + D.length + (c :: r).length) (sign_flag sg) (c :: r) st hwf
  rw [Nat.add_sub_cancel] at hacc
  exact string_to_ieee_of_accepts _ res _ (hscan.trans hres) hacc

/-- Witness of C7 at the input "123abc": `chars` is 3. -/
theorem digits_then_garbage_witness :
    optional_sign [] ∧ digits [49, 50, 51] ∧
    ∃ v, string_to_ieee ([] ++ [49, 50, 51] ++ 97 :: [98, 99]) = .ok ⟨.value v, 0 + 3⟩ :=
  have hsg : optional_sign [] := Or.inl rfl
  have hD : digits [49, 50, 51] := by decide
  ⟨hsg, hD, digits_then_garbage [] [49, 50, 51] [98, 99] 97 hsg hD (by decide)
    (by decide) (by
      rintro ⟨x, t, h1, _⟩
      simp at h1)⟩

/-- C8: an optional sign and a mantissa followed by `e` or `E` and then by nothing, by a
lone sign, by a sign and a character that is not a digit, or by a character that is neither
a sign nor a digit: `string_to_ieee` succeeds, reports the length of the sign and the
mantissa as `chars`, and the converter is called with the same buffer and exponent as when
the mantissa is followed by a character `c` that cannot continue a number (no digit, `.`,
`e`, `E`, `x` or `X`), where the scan has no exponent part. -/
theorem dangling_exponent_backtracked (sg M r : List Nat) (m : Nat) (hsg : optional_sign sg)
    (hM : mantissa M) (hm : m = ascii_widen 'e' ∨ m = ascii_widen 'E') (hr : dangling r) :
    ∃ buffer exponent,
      string_to_ieee_scan (sg ++ M ++ m :: r) =
        .ok (.convert (sign_flag sg) buffer exponent (sg.length + M.length)) ∧
      (∃ v, string_to_ieee (sg ++ M ++ m :: r) = .ok ⟨.value v, sg.length + M.length⟩) ∧
      ∀ c t, (¬ is_digit c ∧ c ≠ ascii_widen '.' ∧
          ¬ (c = ascii_widen 'e' ∨ c = ascii_widen 'E') ∧
          ¬ (c = ascii_widen 'x' ∨ c = ascii_widen 'X')) →
        string_to_ieee_scan (sg ++ M ++ c :: t) =
          .ok (.convert (sign_flag sg) buffer exponent (sg.length + M.length)) := by
  obtain ⟨lz, st, hwf, hv, _, hgo⟩ := after_sign_mantissa M hM
  have hnothex : ∀ c t, ¬ (c = ascii_widen 'x' ∨ c = ascii_widen 'X') →
      ¬ hex_start (M ++ c :: t) := by
    rintro c t hc ⟨x, u, h1, h2⟩
    rcases hM with ⟨hne, hD⟩ | ⟨D, F, rfl, hne, hD, _⟩ | ⟨F, rfl, _, _⟩
    · obtain ⟨d, ds, rfl⟩ := List.exists_cons_of_ne_nil hne
      cases ds with
      | nil =>
        simp only [List.cons_append, List.nil_append, List.cons.injEq] at h1
        rw [← h1.2.1] at h2
        exact hc h2
      | cons e es =>
        simp only [List.cons_append, List.cons.injEq] at h1
        have he : is_digit e := (digits_cons.1 (digits_cons.1 hD).2).1
        rw [h1.2.1] at he
        exact (is_digit_not_letter he).2.2.1 h2
    · obtain ⟨d, ds, rfl⟩ := List.exists_cons_of_ne_nil hne
      cases ds with
      | nil =>
        simp only [List.cons_append, List.nil_append, List.cons.injEq] at h1
        rw [← h1.2.1] at h2
        revert h2
        decide
      | cons e es =>
        simp only [List.cons_append, List.cons.injEq] at h1
        have he : is_digit e := (digits_cons.1 (digits_cons.1 hD).2).1
        rw [h1.2.1] at he
        exact (is_digit_not_letter he).2.2.1 h2
    · simp only [List.cons_append, List.cons.injEq] at h1
      exact absurd h1.1 (by decide)
  have hscan_m : string_to_ieee_scan (sg ++ M ++ m :: r) =
      .ok (.convert (sign_flag sg) (final_buffer st) (final_exponent st)
        (sg.length + M.length)) := by
    have hmd : ¬ is_digit m := by rcases hm with rfl | rfl <;> decide
    rw [string_to_ieee_scan_mantissa sg M (m :: r) hsg hM,
      hgo _ _ (m :: r) (List.cons_ne_nil _ _) (stops_digits_cons.2 hmd)
        (fun _ x hx => by
          simp only [List.head?_cons, Option.some.injEq] at hx
          rw [← hx]; rcases hm with rfl | rfl <;> decide)
        (hnothex m r (by rcases hm with rfl | rfl <;> decide)),
      exponent_part_dangling _ _ lz m r st hv hm hr, parsing_done_eq _ _ _ st hwf,
      Nat.add_sub_cancel]
  refine ⟨final_buffer st, final_exponent st, hscan_m, ?_, ?_⟩
  · exact string_to_ieee_of_accepts _ _ _ hscan_m (Or.inl ⟨_, _, _, rfl⟩)
  · intro c t hc
    rw [string_to_ieee_scan_mantissa sg M (c :: t) hsg hM,
      hgo _ _ (c :: t) (List.cons_ne_nil _ _) (stops_digits_cons.2 hc.1)
        (fun _ x hx => by
          simp only [List.head?_cons, Option.some.injEq] at hx
          rw [← hx]; exact hc.2.1)
        (hnothex c t hc.2.2.2),
      exponent_part_other _ _ lz c t st hv hc.2.2.1, parsing_done_eq _ _ _ st hwf,
      Nat.add_sub_cancel]

/-- Witness of C8 at the input "1e": `chars` is 1. -/
theorem dangling_exponent_backtracked_witness :
    optional_sign [] ∧ mantissa [49] ∧ dangling [] ∧
    ∃ v, string_to_ieee ([] ++ [49] ++ 101 :: []) = .ok ⟨.value v, 0 + 1⟩ :=
  have hsg : optional_sign [] := Or.inl rfl
  have hM : mantissa [49] := Or.inl ⟨by decide, by decide⟩
  have hr : dangling [] := Or.inl rfl
  ⟨hsg, hM, hr,
    (dangling_exponent_backtracked [] [49] [] 101 hsg hM (Or.inl rfl) hr).choose_spec.choose_spec.2.1⟩

/-- C9: for a non-empty input whose first character after the optional sign is none of `n`,
`N`, `i`, `I` and which does not begin, after the sign, with `0x` or `0X`: `string_to_ieee`
returns an error exactly when the part after the sign is empty or begins neither with a
digit nor with `.` immediately followed by a digit, and the error is
`invalid_scanned_value`. -/
theorem decimal_rejection (input : List Nat) (hne : input ≠ [])
    (hfirst : ∀ c, (after_optional_sign input).head? = some c →
      ¬ (c = ascii_widen 'n' ∨ c = ascii_widen 'N') ∧
      ¬ (c = ascii_widen 'i' ∨ c = ascii_widen 'I'))
    (hhex : ¬ hex_start (after_optional_sign input)) :
    ((∃ e n, string_to_ieee input = .ok ⟨.unexpected e, n⟩) ↔
      (after_optional_sign input = [] ∨ ¬ starts_number (after_optional_sign input))) ∧
    (∀ e n, string_to_ieee input = .ok ⟨.unexpected e, n⟩ →
      e = .invalid_scanned_value) := by
  obtain ⟨sg, hsg, hsplit, hns⟩ := sign_split input hne
  generalize after_optional_sign input = body at hfirst hhex hsplit hns ⊢
  subst hsplit
  have hA : (body = [] ∨ ¬ starts_number body) →
      string_to_ieee (sg ++ body) = .ok ⟨.unexpected .invalid_scanned_value, 0⟩ := by
    intro h
    cases body with
    | nil =>
      rw [List.append_nil] at hne ⊢
      rcases hsg with rfl | rfl | rfl
      · exact absurd rfl hne
      · rfl
      · rfl
    | cons c t =>
      have hnot : ¬ starts_number (c :: t) := by
        rcases h with h | h
        · exact absurd h (List.cons_ne_nil _ _)
        · exact h
      have hscan := string_to_ieee_scan_sign sg c t hsg (fun h1 => hns h1 c rfl)
      rw [after_sign_rejects _ _ c t (hfirst c rfl).1 (hfirst c rfl).2 hnot] at hscan
      unfold string_to_ieee
      rw [hscan]
  have hB : starts_number body →
      ∀ e n, string_to_ieee (sg ++ body) ≠ .ok ⟨.unexpected e, n⟩ := by
    intro hstart e n
    by_cases hbare : body = [ascii_widen '0']
    · subst hbare
      rcases hsg with rfl | rfl | rfl
      · rw [show string_to_ieee ([] ++ [ascii_widen '0']) =
          .ok ⟨.value (.finite false 0), 0⟩ from rfl]
        simp
      · rw [show string_to_ieee ([ascii_widen '+'] ++ [ascii_widen '0']) =
          .ok ⟨.value (.finite true 0), 0⟩ from rfl]
        simp
      · rw [show string_to_ieee ([ascii_widen '-'] ++ [ascii_widen '0']) =
          .ok ⟨.value (.finite false 0), 0⟩ from rfl]
        simp
    · obtain ⟨M, E, R, _, _, _, _, _, _, _, hres⟩ := decimal_scan sg body hsg hstart hhex hbare
      rcases hres with hres | ⟨r, hres, hacc⟩
      · unfold string_to_ieee
        rw [hres]
        simp
      · obtain ⟨v, hv⟩ := string_to_ieee_of_accepts _ r _ hres hacc
        rw [hv]
        simp
  refine ⟨⟨?_, fun h => ⟨_, _, hA h⟩⟩, ?_⟩
  · rintro ⟨e, n, h⟩
    by_contra hcon
    have hstart : starts_number body := by
      by_contra h2
      exact hcon (Or.inr h2)
    exact hB hstart e n h
  · intro e n h
    by_cases hstart : starts_number body
    · exact absurd h (hB hstart e n)
    · rw [hA (Or.inr hstart)] at h
      simp only [Except.ok.injEq, scan_result.mk.injEq, expected.unexpected.injEq] at h
      exact h.1.symm

/-- Witness of C9 at the input "+.x": the part after the sign begins with `.` followed by a
character that is not a digit, and the input is rejected with `invalid_scanned_value`. -/
theorem decimal_rejection_witness :
    [43, 46, 120] ≠ [] ∧ ¬ hex_start (after_optional_sign [43, 46, 120]) ∧
    ((∃ e n, string_to_ieee [43, 46, 120] = .ok ⟨.unexpected e, n⟩) ↔
      (after_optional_sign [43, 46, 120] = [] ∨
        ¬ starts_number (after_optional_sign [43, 46, 120]))) ∧
    (∀ e n, string_to_ieee [43, 46, 120] = .ok ⟨.unexpected e, n⟩ →
      e = .invalid_scanned_value) :=
  have hne : [43, 46, 120] ≠ [] := by decide
  have hhex : ¬ hex_start (after_optional_sign [43, 46, 120]) := by
    rintro ⟨x, t, h1, _⟩
    simp [after_optional_sign] at h1
  ⟨hne, hhex, decimal_rejection [43, 46, 120] hne
    (by
      intro c hc
      simp only [after_optional_sign, ascii_widen_plus, true_or, if_true, List.head?_cons,
        Option.some.injEq] at hc
      subst hc
      decide)
    hhex⟩

/-- C10, as stated, fails on the empty input: `SCN_EXPECT(in.size() != 0)` fails there and no
error value is returned. -/
theorem empty_input_returns_no_error :
    ¬ ∃ n, string_to_ieee (span_of "") = .ok ⟨.unexpected .invalid_scanned_value, n⟩ := by
  rintro ⟨n, h⟩
  exact absurd h (by simp [string_to_ieee, string_to_ieee_scan, span_of])

/-- C10, amended: each of the non-empty malformed inputs "+", "." and "nax" returns the
error `invalid_scanned_value`. -/
theorem malformed_inputs_invalid :
    string_to_ieee (span_of "+") = .ok ⟨.unexpected .invalid_scanned_value, 0⟩ ∧
    string_to_ieee (span_of ".") = .ok ⟨.unexpected .invalid_scanned_value, 0⟩ ∧
    string_to_ieee (span_of "nax") = .ok ⟨.unexpected .invalid_scanned_value, 0⟩ :=
  ⟨rfl, rfl, rfl⟩

/-- C11, as stated, fails on "1e99999": the internal path accepts it, with `chars = 7`, and
returns no `value_out_of_range`. -/
theorem large_exponent_is_accepted :
    read_float_impl.get (span_of "1e99999") = .ok ⟨.value (.finite false 0), 7⟩ ∧
    ¬ ∃ n, read_float_impl.get (span_of "1e99999") =
      .ok ⟨.unexpected .value_out_of_range, n⟩ := by
  have h : read_float_impl.get (span_of "1e99999") = .ok ⟨.value (.finite false 0), 7⟩ := rfl
  refine ⟨h, ?_⟩
  rintro ⟨n, h2⟩
  rw [h] at h2
  simp at h2

/-- C11, amended: on the internal path of the 32-bit and 64-bit targets no call returns
`value_out_of_range`: every error that `read_float_impl<CharT, T>::get` returns is
`invalid_scanned_value`, and "1e99999" reaches the converter with the buffer "1" and the
exponent 99999 and is accepted with `chars = 7`. -/
theorem internal_path_has_no_range_error :
    string_to_ieee_scan (span_of "1e99999") = .ok (.convert false [49] 99999 7) ∧
    (∃ v, read_float_impl.get (span_of "1e99999") = .ok ⟨.value v, 7⟩) ∧
    ∀ input e n, read_float_impl.get input = .ok ⟨.unexpected e, n⟩ →
      e = .invalid_scanned_value := by
  refine ⟨rfl, ⟨_, rfl⟩, ?_⟩
  intro input e n h
  have hne : input ≠ [] := by
    rintro rfl
    exact absurd h (by simp [read_float_impl.get, string_to_ieee, string_to_ieee_scan])
  exact outcome_ok_error _ (string_to_ieee_scan_outcome input hne) e n
    (string_to_ieee_returned_error input e n h)

/-- Witness of C11 at the input "+": the error it returns is `invalid_scanned_value`. -/
theorem internal_path_has_no_range_error_witness :
    read_float_impl.get (span_of "+") = .ok ⟨.unexpected .invalid_scanned_value, 0⟩ ∧
    error.invalid_scanned_value = error.invalid_scanned_value :=
  ⟨rfl, internal_path_has_no_range_error.2.2 (span_of "+") .invalid_scanned_value 0 rfl⟩

/-- C12 fails on a leading zero, 772 further zeros and the digit `5` (the literal 5): the
integer digit loop stores the 772 zeros as significant digits, the `5` is not stored and is
replaced by the injected `1`, and the converter is handed the buffer of 772 zeros and `1`
with the exponent 0, which denotes 1.  The literal denotes 5; both numbers are finite
binary64 numbers, so no binary64 number is nearest to both. -/
theorem sticky_digit_after_leading_zeros :
    string_to_ieee_scan
        (ascii_widen '0' :: (List.replicate 772 (ascii_widen '0') ++ [ascii_widen '5'])) =
      .ok (.convert false (List.replicate 772 (ascii_widen '0') ++ [ascii_widen '1']) 0
        774) ∧
    (decimal_value (List.replicate 772 (ascii_widen '0') ++ [ascii_widen '1']) : ℚ) *
      10 ^ (0 : Int) = 1 ∧
    literal_value
      (ascii_widen '0' :: (List.replicate 772 (ascii_widen '0') ++ [ascii_widen '5'])) []
      0 = 5 ∧
    ¬ ∃ r, rounds_to_nearest
        ((decimal_value (List.replicate 772 (ascii_widen '0') ++ [ascii_widen '1']) : ℚ) *
          10 ^ (0 : Int)) r ∧
      rounds_to_nearest
        (literal_value
          (ascii_widen '0' :: (List.replicate 772 (ascii_widen '0') ++ [ascii_widen '5']))
          [] 0) r := by
  have hz : ∀ k, ∀ c ∈ List.replicate k (ascii_widen '0'), c = ascii_widen '0' :=
    fun k c hc => List.eq_of_mem_replicate hc
  have hb : decimal_value (List.replicate 772 (ascii_widen '0') ++ [ascii_widen '1']) = 1 := by
    rw [decimal_value_append, decimal_value_zeros _ (hz 772)]
    rfl
  have hl : decimal_value
      (ascii_widen '0' :: (List.replicate 772 (ascii_widen '0') ++ [ascii_widen '5'])) = 5 := by
    rw [show ascii_widen '0' :: (List.replicate 772 (ascii_widen '0') ++ [ascii_widen '5']) =
      List.replicate 773 (ascii_widen '0') ++ [ascii_widen '5'] from rfl,
      decimal_value_append, decimal_value_zeros _ (hz 773)]
    rfl
  have h1 : (decimal_value (List.replicate 772 (ascii_widen '0') ++ [ascii_widen '1']) : ℚ) *
      10 ^ (0 : Int) = 1 := by
    rw [hb]; norm_num
  have h5 : literal_value
      (ascii_widen '0' :: (List.replicate 772 (ascii_widen '0') ++ [ascii_widen '5'])) []
      0 = 5 := by
    unfold literal_value
    rw [List.append_nil, hl]; norm_num
  refine ⟨leading_zeros_scan _ _ (hz 772) (List.length_replicate _ _) (by decide) (by decide),
    h1, h5, ?_⟩
  rintro ⟨r, hr1, hr5⟩
  rw [h1] at hr1
  rw [h5] at hr5
  have e1 := rounds_to_nearest_exact 1 r
    (by simpa using binary64_finite_natCast 1 (by norm_num)) hr1
  have e5 := rounds_to_nearest_exact 5 r
    (by simpa using binary64_finite_natCast 5 (by norm_num)) hr5
  rw [e1] at e5
  norm_num at e5

/-- C13 fails on an input that holds a NUL, the two characters `a` and NUL: the native
routine converts nothing (value 0, `end` at the start of the data, no range error) and the
call returns the value 0 with `chars` 0 instead of `invalid_scanned_value`, because
`end == str` compares the C string at `end`, which is "a", with the two characters of `str`.
On the input "a" the same outcome returns `invalid_scanned_value`. -/
theorem embedded_nul_is_not_rejected :
    c_string_at [97, 0] 0 = [97] ∧
    read_float_impl_long_double.get 34 (fun _ => ⟨.finite false 0, 0, 0⟩) [97, 0] =
      ⟨.value (.finite false 0), 0, 0⟩ ∧
    read_float_impl_long_double.get 34 (fun _ => ⟨.finite false 0, 0, 0⟩) [97] =
      ⟨.unexpected .invalid_scanned_value, 0, 0⟩ := by
  decide

/-- C14 as stated fails on the 772 digits `1`, 1073741825 zeros and "e1073741823": the
literal has no hexadecimal mark, an exponent part of magnitude `max_exponent` and only zeros
after its first 772 digits, and the sum `exponent += insignificant_digits` of 1073741823 and
1073741825 is not a value of the type `int`; the converter is handed the exponent
-2147483648, with which the buffer does not denote the literal. -/
theorem exactness_fails_past_int_range :
    string_to_ieee_scan
        ((List.replicate 772 (ascii_widen '1') ++
          List.replicate 1073741825 (ascii_widen '0')) ++
          ascii_widen 'e' :: span_of "1073741823") =
      .ok (.convert false (List.replicate 772 (ascii_widen '1')) (-2147483648)
        1073742608) ∧
    exact_exponent (ascii_widen 'e' :: span_of "1073741823") 1073741823 ∧
    ¬ int_range (1073741823 + 1073741825) ∧
    (decimal_value (List.replicate 772 (ascii_widen '1')) : ℚ) * 10 ^ (-2147483648 : Int) ≠
      literal_value
        (List.replicate 772 (ascii_widen '1') ++ List.replicate 1073741825 (ascii_widen '0'))
        [] 1073741823 := by
  have hP : digits (List.replicate 772 (ascii_widen '1')) := fun c hc => by
    rw [List.eq_of_mem_replicate hc]; decide
  have hhead : ∀ c, (List.replicate 772 (ascii_widen '1')).head? = some c →
      c ≠ ascii_widen '0' := by
    intro c hc
    rw [show (List.replicate 772 (ascii_widen '1')).head? = some (ascii_widen '1') from rfl]
      at hc
    cases hc
    decide
  have hZs : ∀ c ∈ List.replicate 1073741825 (ascii_widen '0'), c = ascii_widen '0' :=
    fun c hc => List.eq_of_mem_replicate hc
  have hX : digits (span_of "1073741823") := by decide
  have hXn : span_of "1073741823" ≠ [] := by decide
  have hnum : exponent_digits (span_of "1073741823") 0 = 1073741823 := by
    rw [exponent_digits_zero _ hX, max_exponent_eq]
    rfl
  have hscan := zeros_exponent_scan (List.replicate 772 (ascii_widen '1'))
    (List.replicate 1073741825 (ascii_widen '0')) (span_of "1073741823") (ascii_widen 'e') hP
    (List.length_replicate _ _) hhead hZs (Or.inl rfl) hX hXn
  rw [hnum, List.length_replicate] at hscan
  have hwrap : int_wrap (1073741823 + ((1073741825 : Nat) : Int)) = -2147483648 := by
    unfold int_wrap
    omega
  have hchars : 772 + 1073741825 + 1 + (span_of "1073741823").length = 1073742608 := rfl
  rw [hwrap, hchars] at hscan
  refine ⟨hscan, ?_, ?_, ?_⟩
  · refine Or.inr ⟨ascii_widen 'e', [], span_of "1073741823", rfl, Or.inl rfl, Or.inl rfl,
      hXn, hX, ?_, ?_⟩
    · rw [max_exponent_eq]
      decide
    · rw [if_neg (by decide)]
      rfl
  · unfold int_range
    omega
  · refine literal_value_zeros_ne _ _ _ _ ?_ hZs ?_
    · exact decimal_value_ne_zero _ _ (by decide)
    · rw [List.length_replicate]
      omega

/-- C14, amended with a bound on the length of the input: on every input of at most
1073741823 characters that reaches the converter, split as the scanner reads it (sign,
leading mark, integer digits `I`, skipped zeros `Z`, fraction digits `F`, exponent part `E`,
rest `R`), when the leading mark is not the hexadecimal one, every digit of `I` and `F` after
the first 772 is `0` and the exponent part denotes `y` with a magnitude of at most
`max_exponent`, the number of the buffer digits times ten to the exponent handed to the
converter is the rational value of the consumed literal.  In particular the 772 digits `P`,
not beginning with `0`, followed by `k` zeros give the buffer `P` and the exponent `k`, as do
the digits `P` followed by `e` and digits `X` that denote `k`, at most `max_exponent`. -/
theorem intermediate_form_is_exact (input : List Nat) (s : Bool) (buffer : List Nat)
    (exponent : Int) (chars : Nat) (P X : List Nat) (k : Nat)
    (hsize : input.length ≤ 1073741823)
    (h : string_to_ieee_scan input = .ok (.convert s buffer exponent chars))
    (hP : digits P) (hlen : P.length = 772)
    (hhead : ∀ c, P.head? = some c → c ≠ ascii_widen '0')
    (hX : digits X) (hXn : X ≠ []) (hk : decimal_value X = k)
    (hmax : (k : Int) ≤ max_exponent) :
    (∃ sg lead it I dot Z F E R x, input = sg ++ (lead ++ it) ∧ optional_sign sg ∧
      leading_mark lead it ∧ digits_form it I dot Z F E R x ∧
      chars = input.length - R.length ∧
      ((lead = [] ∨ lead = [ascii_widen '0']) →
        (∀ c ∈ (I ++ F).drop 772, c = ascii_widen '0') →
        ∀ y, exact_exponent E y →
          (decimal_value buffer : ℚ) * 10 ^ exponent =
            literal_value (lead ++ I) (Z ++ F) y)) ∧
    string_to_ieee_scan (P ++ List.replicate k (ascii_widen '0')) =
      .ok (.convert false P k (772 + k)) ∧
    string_to_ieee_scan (P ++ ascii_widen 'e' :: X) =
      .ok (.convert false P k (772 + 1 + X.length)) := by
  have hPn : P ≠ [] := by
    intro hn
    rw [hn] at hlen
    cases hlen
  have hzeros : ∀ c ∈ List.replicate k (ascii_widen '0'), c = ascii_widen '0' :=
    fun c hc => List.eq_of_mem_replicate hc
  have htake : ∀ l : List Nat, (P ++ l).take 772 = P := by
    intro l
    rw [← hlen, List.take_left]
  have hdrop : ∀ l : List Nat, (P ++ l).drop 772 = l := by
    intro l
    rw [← hlen, List.drop_left]
  have hwrap : int_wrap (k : Int) = k := by
    apply int_wrap_of_range
    rw [max_exponent_eq] at hmax
    unfold int_range
    omega
  refine ⟨?_, ?_, ?_⟩
  · obtain ⟨sg, lead, it, I, dot, Z, F, E, R, x, hinput, hsg, hmark, hform, _, hb, he, hc⟩ :=
      string_to_ieee_scan_form input s buffer exponent chars h
    have hl := digits_form_lengths hform
    have hit : it.length ≤ input.length := by
      rw [hinput]
      simp only [List.length_append]
      omega
    have hx := exponent_contribution_bounds E x hform.2.2.2.2.2.2.2
    refine ⟨sg, lead, it, I, dot, Z, F, E, R, x, hinput, hsg, hmark, hform, hc, ?_⟩
    intro hlead hdr y hy
    obtain ⟨_, _, hZ, _, _, hIZ, _, hxc⟩ := hform
    have hxy := exponent_contribution_exact E x y hxc hy
    rw [hb, he, hxy]
    rw [hxy] at hx
    exact converter_exact lead I Z F y hlead hZ hIZ hdr hx (by omega) (by omega)
  · have hD : digits (P ++ List.replicate k (ascii_widen '0')) :=
      digits_append.2 ⟨hP, fun c hc => by rw [hzeros c hc]; decide⟩
    have hh : ∀ c, (P ++ List.replicate k (ascii_widen '0')).head? = some c →
        c ≠ ascii_widen '0' := by
      obtain ⟨d, ds, rfl⟩ := List.exists_cons_of_ne_nil hPn
      exact hhead
    rw [integer_literal_scan _ hD (by simp [hPn]) hh]
    have hnz : has_nonzero (List.replicate k (ascii_widen '0')) = false :=
      (has_nonzero_false_iff _).2 hzeros
    have hb : converter_buffer (P ++ List.replicate k (ascii_widen '0')) [] = P := by
      unfold converter_buffer
      rw [List.append_nil, htake, hdrop, hnz]
      simp
    have he : converter_exponent (P ++ List.replicate k (ascii_widen '0')) 0 [] 0 = k := by
      unfold converter_exponent
      rw [List.append_nil, hdrop, hnz, List.length_append, List.length_replicate, hlen]
      have ha : (0 : Int) - ((0 : Nat) : Int) -
          ((min ([] : List Nat).length (772 - (772 + k)) : Nat) : Int) +
          ((772 + k - 772 : Nat) : Int) - (if false = true then 1 else 0) = (k : Int) := by
        simp
      rw [ha, hwrap]
    rw [hb, he, List.length_append, List.length_replicate, hlen]
  · rw [integer_exponent_scan P X _ hP hPn hhead (Or.inl rfl) hX hXn,
      exponent_digits_zero X hX, hk, min_eq_left hmax]
    have h1 := htake []
    have h2 := hdrop []
    rw [List.append_nil] at h1 h2
    have hb : converter_buffer P [] = P := by
      unfold converter_buffer
      rw [List.append_nil, h1, h2]
      simp [has_nonzero]
    have he : converter_exponent P 0 [] (k : Int) = k := by
      unfold converter_exponent
      rw [List.append_nil, h2, hlen]
      have ha : (k : Int) - ((0 : Nat) : Int) -
          ((min ([] : List Nat).length (772 - 772) : Nat) : Int) +
          ((772 - 772 : Nat) : Int) - (if has_nonzero [] = true then 1 else 0) = (k : Int) := by
        simp [has_nonzero]
      rw [ha, hwrap]
    rw [hb, he, hlen]

/-- Witness of C14 at the input "1.5e3" (buffer "15", exponent 2: 15 x 10^2 is 1.5 x 10^3)
and at the 772 digits `1` followed by three zeros or by "e3". -/
theorem intermediate_form_is_exact_witness :
    (span_of "1.5e3").length ≤ 1073741823 ∧
    string_to_ieee_scan (span_of "1.5e3") = .ok (.convert false [49, 53] 2 5) ∧
    digits (List.replicate 772 49) ∧ decimal_value [51] = 3 ∧
    (∃ sg lead it I dot Z F E R x, span_of "1.5e3" = sg ++ (lead ++ it) ∧ optional_sign sg ∧
      leading_mark lead it ∧ digits_form it I dot Z F E R x ∧
      5 = (span_of "1.5e3").length - R.length ∧
      ((lead = [] ∨ lead = [ascii_widen '0']) →
        (∀ c ∈ (I ++ F).drop 772, c = ascii_widen '0') →
        ∀ y, exact_exponent E y →
          (decimal_value [49, 53] : ℚ) * 10 ^ (2 : Int) =
            literal_value (lead ++ I) (Z ++ F) y)) ∧
    string_to_ieee_scan (List.replicate 772 49 ++ List.replicate 3 (ascii_widen '0')) =
      .ok (.convert false (List.replicate 772 49) (3 : Nat) (772 + 3)) ∧
    string_to_ieee_scan (List.replicate 772 49 ++ ascii_widen 'e' :: [51]) =
      .ok (.convert false (List.replicate 772 49) (3 : Nat) (772 + 1 + [51].length)) :=
  have hP : digits (List.replicate 772 49) := fun c hc => by
    rw [List.eq_of_mem_replicate hc]; decide
  have hhead : ∀ c, (List.replicate 772 49).head? = some c → c ≠ ascii_widen '0' := by
    intro c hc
    rw [show (List.replicate 772 49).head? = some 49 from rfl] at hc
    cases hc
    decide
  ⟨by decide, rfl, hP, rfl,
    intermediate_form_is_exact (span_of "1.5e3") false [49, 53] 2 5 (List.replicate 772 49)
      [51] 3 (by decide) rfl hP (List.length_replicate _ _) hhead (by decide) (by decide) rfl
      (by rw [max_exponent_eq]; decide)⟩

/-- C15 as stated fails on the 772 digits `9`, 1073741825 zeros and "E1073741823": without
the zeros the converter is handed the exponent 1073741823, and with them, 1073741825 integer
digits that are not stored, it is handed -2147483648, not 1073741823 + 1073741825: the sum
`exponent += insignificant_digits` is not a value of the type `int`. -/
theorem dropped_digits_past_int_range :
    string_to_ieee_scan
        (List.replicate 772 (ascii_widen '9') ++ ascii_widen 'E' :: span_of "1073741823") =
      .ok (.convert false (List.replicate 772 (ascii_widen '9')) 1073741823 783) ∧
    string_to_ieee_scan
        ((List.replicate 772 (ascii_widen '9') ++
          List.replicate 1073741825 (ascii_widen '0')) ++
          ascii_widen 'E' :: span_of "1073741823") =
      .ok (.convert false (List.replicate 772 (ascii_widen '9')) (-2147483648)
        1073742608) ∧
    (-2147483648 : Int) ≠ 1073741823 + 1073741825 ∧
    ¬ int_range (1073741823 + 1073741825) := by
  have hP : digits (List.replicate 772 (ascii_widen '9')) := fun c hc => by
    rw [List.eq_of_mem_replicate hc]; decide
  have hhead : ∀ c, (List.replicate 772 (ascii_widen '9')).head? = some c →
      c ≠ ascii_widen '0' := by
    intro c hc
    rw [show (List.replicate 772 (ascii_widen '9')).head? = some (ascii_widen '9') from rfl]
      at hc
    cases hc
    decide
  have hX : digits (span_of "1073741823") := by decide
  have hXn : span_of "1073741823" ≠ [] := by decide
  have hnum : exponent_digits (span_of "1073741823") 0 = 1073741823 := by
    rw [exponent_digits_zero _ hX, max_exponent_eq]
    rfl
  have hshort := zeros_exponent_scan (List.replicate 772 (ascii_widen '9')) []
    (span_of "1073741823") (ascii_widen 'E') hP (List.length_replicate _ _) hhead
    (fun c hc => absurd hc (List.not_mem_nil c)) (Or.inr rfl) hX hXn
  have hlong := zeros_exponent_scan (List.replicate 772 (ascii_widen '9'))
    (List.replicate 1073741825 (ascii_widen '0')) (span_of "1073741823") (ascii_widen 'E') hP
    (List.length_replicate _ _) hhead (fun c hc => List.eq_of_mem_replicate hc) (Or.inr rfl)
    hX hXn
  rw [hnum, List.length_replicate] at hlong
  rw [hnum, List.append_nil, List.length_nil] at hshort
  have hw0 : int_wrap (1073741823 + ((0 : Nat) : Int)) = 1073741823 := by
    unfold int_wrap
    omega
  have hwrap : int_wrap (1073741823 + ((1073741825 : Nat) : Int)) = -2147483648 := by
    unfold int_wrap
    omega
  have hc0 : 772 + 0 + 1 + (span_of "1073741823").length = 783 := rfl
  have hchars : 772 + 1073741825 + 1 + (span_of "1073741823").length = 1073742608 := rfl
  rw [hw0, hc0] at hshort
  rw [hwrap, hchars] at hlong
  refine ⟨hshort, hlong, by omega, ?_⟩
  unfold int_range
  omega

/-- C15, amended with a bound on the length of the input for the exponent: on every input
that reaches the converter, the characters split as the scanner reads them (sign, leading
mark, integer digits `I`, skipped zeros `Z`, fraction digits `F`, exponent part `E` adding
`x`, rest `R`), the first 772 digits of `I` and `F` are stored, and the buffer is the stored
digits followed by an injected `1` exactly when one of the digits of `I` or `F` that are not
stored is not `0`; on an input of at most 1073741823 characters the exponent is lowered by
one for the injected digit, raised by one for each integer digit that is not stored, and
left alone by the fraction digits that are not stored. -/
theorem sticky_digit_injected (input : List Nat) (s : Bool) (buffer : List Nat)
    (exponent : Int) (chars : Nat)
    (h : string_to_ieee_scan input = .ok (.convert s buffer exponent chars)) :
    ∃ sg lead it I dot Z F E R x, input = sg ++ (lead ++ it) ∧ optional_sign sg ∧
      leading_mark lead it ∧ digits_form it I dot Z F E R x ∧
      chars = input.length - R.length ∧
      (buffer = I.take 772 ++ F.take (772 - I.length) ++ [ascii_widen '1'] ↔
        ∃ c ∈ I.drop 772 ++ F.drop (772 - I.length), c ≠ ascii_widen '0') ∧
      (buffer = I.take 772 ++ F.take (772 - I.length) ↔
        ¬ ∃ c ∈ I.drop 772 ++ F.drop (772 - I.length), c ≠ ascii_widen '0') ∧
      (input.length ≤ 1073741823 →
        ((∃ c ∈ I.drop 772 ++ F.drop (772 - I.length), c ≠ ascii_widen '0') →
          exponent =
            x - Z.length - (F.take (772 - I.length)).length + (I.drop 772).length - 1) ∧
        (¬ (∃ c ∈ I.drop 772 ++ F.drop (772 - I.length), c ≠ ascii_widen '0') →
          exponent =
            x - Z.length - (F.take (772 - I.length)).length + (I.drop 772).length)) := by
  obtain ⟨sg, lead, it, I, dot, Z, F, E, R, x, hinput, hsg, hmark, hform, _, hb, he, hc⟩ :=
    string_to_ieee_scan_form input s buffer exponent chars h
  refine ⟨sg, lead, it, I, dot, Z, F, E, R, x, hinput, hsg, hmark, hform, hc, ?_, ?_, ?_⟩
  · rw [hb, converter_buffer_eq, ← has_nonzero_iff]
    by_cases hd : has_nonzero (I.drop 772 ++ F.drop (772 - I.length)) = true
    · simp [hd]
    · simp [hd]
  · rw [hb, converter_buffer_eq, ← has_nonzero_iff]
    by_cases hd : has_nonzero (I.drop 772 ++ F.drop (772 - I.length)) = true
    · simp [hd]
    · simp [hd]
  · intro hsize
    have hl := digits_form_lengths hform
    have hit : it.length ≤ input.length := by
      rw [hinput]
      simp only [List.length_append]
      omega
    have hx := exponent_contribution_bounds E x hform.2.2.2.2.2.2.2
    have hce := converter_exponent_eq I Z.length F x hx (by omega) (by omega)
    refine ⟨?_, ?_⟩
    · intro hd
      rw [← has_nonzero_iff] at hd
      rw [he, hce, if_pos hd]
    · intro hd
      rw [← has_nonzero_iff] at hd
      rw [he, hce, if_neg hd]
      simp

/-- Witness of C15 at the input "1.5e3": nothing is dropped, the buffer is "15" and the
exponent is 3 - 1 = 2. -/
theorem sticky_digit_injected_witness :
    string_to_ieee_scan (span_of "1.5e3") = .ok (.convert false [49, 53] 2 5) ∧
    ∃ sg lead it I dot Z F E R x, span_of "1.5e3" = sg ++ (lead ++ it) ∧ optional_sign sg ∧
      leading_mark lead it ∧ digits_form it I dot Z F E R x ∧
      5 = (span_of "1.5e3").length - R.length ∧
      ([49, 53] = I.take 772 ++ F.take (772 - I.length) ++ [ascii_widen '1'] ↔
        ∃ c ∈ I.drop 772 ++ F.drop (772 - I.length), c ≠ ascii_widen '0') ∧
      ([49, 53] = I.take 772 ++ F.take (772 - I.length) ↔
        ¬ ∃ c ∈ I.drop 772 ++ F.drop (772 - I.length), c ≠ ascii_widen '0') ∧
      ((span_of "1.5e3").length ≤ 1073741823 →
        ((∃ c ∈ I.drop 772 ++ F.drop (772 - I.length), c ≠ ascii_widen '0') →
          (2 : Int) =
            x - Z.length - (F.take (772 - I.length)).length + (I.drop 772).length - 1) ∧
        (¬ (∃ c ∈ I.drop 772 ++ F.drop (772 - I.length), c ≠ ascii_widen '0') →
          (2 : Int) =
            x - Z.length - (F.take (772 - I.length)).length + (I.drop 772).length)) :=
  ⟨rfl, sticky_digit_injected (span_of "1.5e3") false [49, 53] 2 5 rfl⟩

/-- C16: for a non-empty run of exponent digits, `num` ends as the smaller of the decimal
value of the run and `INT_MAX / 2 = 1073741823`; after every digit it lies between 0 and
`INT_MAX / 2`; whenever `num * 10 + digit` is computed its value is at most `INT_MAX / 2`,
so it fits 32 bits; and the exponent part adds `num` to the exponent, or `-num` when the
exponent sign is `-`. -/
theorem saturating_exponent_accumulation (x : Nat) (X : List Nat) (hx : is_digit x)
    (hX : digits X) :
    max_exponent = 1073741823 ∧
    exponent_digits (x :: X) 0 = min ((decimal_value (x :: X) : Nat) : Int) max_exponent ∧
    (∀ k, 0 ≤ exponent_digits ((x :: X).take k) 0 ∧
      exponent_digits ((x :: X).take k) 0 ≤ max_exponent) ∧
    (∀ (k c : Nat), (x :: X)[k]? = some c →
      ¬ (exponent_digits ((x :: X).take k) 0 ≥ max_exponent / 10 ∧
        ¬ (exponent_digits ((x :: X).take k) 0 = max_exponent / 10 ∧
          (c : Int) - (ascii_widen '0' : Int) ≤ max_exponent % 10)) →
      exponent_digits ((x :: X).take k) 0 * 10 + ((c : Int) - (ascii_widen '0' : Int)) ≤
        max_exponent) ∧
    (∀ (in_size : Nat) (sign leading_zero : Bool) (m : Nat) (sg rest : List Nat)
      (st : digit_state), passes_validity leading_zero st →
      (m = ascii_widen 'e' ∨ m = ascii_widen 'E') → optional_sign sg → stops_digits rest →
      (-(max_exponent / 2) ≤ st.exponent ∧ st.exponent ≤ max_exponent / 2) →
      exponent_part in_size sign leading_zero (m :: (sg ++ ((x :: X) ++ rest))) st =
        parsing_done in_size sign rest
          { st with exponent := st.exponent +
              (if sg = [ascii_widen '-'] then -exponent_digits (x :: X) 0
                else exponent_digits (x :: X) 0) }) := by
  have hxX : digits (x :: X) := digits_cons.2 ⟨hx, hX⟩
  have hpre : ∀ k, 0 ≤ exponent_digits ((x :: X).take k) 0 ∧
      exponent_digits ((x :: X).take k) 0 ≤ max_exponent := by
    intro k
    rw [exponent_digits_zero _ (digits_take hxX k), max_exponent_eq]
    omega
  refine ⟨max_exponent_eq, exponent_digits_zero _ hxX, hpre, ?_, ?_⟩
  · intro k c hc hclamp
    have hcd : is_digit c := hxX c (List.getElem?_mem hc)
    obtain ⟨h0, h1⟩ := hpre k
    have hcast := digit_value_cast hcd
    have hd := digit_value_le hcd
    rw [max_exponent_eq] at hclamp h1 ⊢
    have h10 : (1073741823 : Int) / 10 = 107374182 := by decide
    have hm : (1073741823 : Int) % 10 = 3 := by decide
    rw [h10, hm] at hclamp
    simp only [ascii_widen_0] at hcast hclamp ⊢
    omega
  · intro in_size sign leading_zero m sg rest st hv hm hsg hrest hrange
    rw [exponent_part_eq in_size sign leading_zero m sg (x :: X) rest st hv hm hsg hxX hrest
      (fun _ h => absurd h (List.cons_ne_nil _ _)), if_neg (List.cons_ne_nil _ _),
      if_pos hrange]

/-- Witness of C16 at the exponent digits "99999999999" after "e-": `num` is clamped to
1073741823. -/
theorem saturating_exponent_accumulation_witness :
    is_digit 57 ∧ digits (List.replicate 10 57) ∧
    exponent_digits (57 :: List.replicate 10 57) 0 =
      min ((decimal_value (57 :: List.replicate 10 57) : Nat) : Int) max_exponent :=
  have hx : is_digit 57 := by decide
  have hX : digits (List.replicate 10 57) := by decide
  ⟨hx, hX, (saturating_exponent_accumulation 57 (List.replicate 10 57) hx hX).2.1⟩

/-- C17: the buffer never holds more than 772 characters while the digits are read and never
more than 773 at the converter call, which is below its capacity of 782: the initial state
has an empty buffer, every run of a loop body on a state with at most 772 stored characters
writes in bounds and leaves at most 772, and on every input no write is out of bounds, the
check `SCN_ENSURE(buffer_it != buffer.end())` does not fail, and the buffer handed to the
converter is at most 772 stored characters, possibly followed by the injected `1`. -/
theorem buffer_capacity_invariant :
    initial_state.wf ∧
    (∀ st : digit_state, st.wf → st.buffer.length ≤ 772) ∧
    (∀ (st : digit_state) (c : Nat), st.wf →
      ∃ st1, integer_digit c st = .ok st1 ∧ st1.wf) ∧
    (∀ (st : digit_state) (c : Nat), st.wf →
      ∃ st1, fraction_digit c st = .ok st1 ∧ st1.wf) ∧
    ∀ input : List Nat,
      string_to_ieee_scan input ≠ .error .buffer_overflow ∧
      string_to_ieee_scan input ≠ .error .ensure_buffer_not_full ∧
      ∀ sign buffer exponent chars,
        string_to_ieee_scan input = .ok (.convert sign buffer exponent chars) →
        buffer.length ≤ 773 ∧ buffer.length < buffer_size ∧
        ∃ stored, stored.length ≤ 772 ∧
          (buffer = stored ∨ buffer = stored ++ [ascii_widen '1']) := by
  refine ⟨initial_state_wf, wf_buffer_length, fun st c h => ⟨_, integer_digit_ok c st h⟩,
    fun st c h => ⟨_, fraction_digit_ok c st h⟩, ?_⟩
  intro input
  by_cases hne : input = []
  · subst hne
    refine ⟨by simp [string_to_ieee_scan], by simp [string_to_ieee_scan], ?_⟩
    intro sign buffer exponent chars h
    simp [string_to_ieee_scan] at h
  · have hout := string_to_ieee_scan_outcome input hne
    refine ⟨fun h => ?_, fun h => ?_, ?_⟩
    · exact absurd (outcome_ok_fault _ hout _ h) (by decide)
    · exact absurd (outcome_ok_fault _ hout _ h) (by decide)
    · intro sign buffer exponent chars h
      obtain ⟨stored, hlen, hb⟩ := outcome_ok_convert _ hout sign buffer exponent chars h
      refine ⟨?_, ?_, stored, hlen, hb⟩
      · rcases hb with rfl | rfl
        · omega
        · simp only [List.length_append, List.length_singleton]; omega
      · unfold buffer_size
        rcases hb with rfl | rfl
        · omega
        · simp only [List.length_append, List.length_singleton]; omega

/-- Witness of C17 at the input "12": the converter gets a buffer of 2 characters. -/
theorem buffer_capacity_invariant_witness :
    string_to_ieee_scan (span_of "12") = .ok (.convert false [49, 50] 0 2) ∧
    ([49, 50] : List Nat).length ≤ 773 :=
  ⟨rfl, ((buffer_capacity_invariant.2.2.2.2 (span_of "12")).2.2 false [49, 50] 0 2 rfl).1⟩

/-- C18: on a non-empty input no run of `string_to_ieee` reads `*it` at `in.end()`, and the
check `SCN_ENSURE(it != in.end())` after the integer digit loop does not fail: the only
check that can fail is the range check on the exponent. -/
theorem no_read_past_the_end (input : List Nat) (hne : input ≠ []) :
    string_to_ieee input ≠ .error .read_past_end ∧
    string_to_ieee input ≠ .error .ensure_it_not_end ∧
    ∀ f, string_to_ieee input = .error f → f = .expect_exponent_range := by
  have hout := string_to_ieee_scan_outcome input hne
  have key : ∀ f, string_to_ieee input = .error f → f = .expect_exponent_range :=
    fun f h => outcome_ok_fault _ hout f (string_to_ieee_fault input f h)
  exact ⟨fun h => absurd (key _ h) (by decide), fun h => absurd (key _ h) (by decide), key⟩

/-- Witness of C18 at the input "1.": the decimal point is the last character. -/
theorem no_read_past_the_end_witness :
    span_of "1." ≠ [] ∧ string_to_ieee (span_of "1.") ≠ .error .read_past_end :=
  have hne : span_of "1." ≠ [] := by decide
  ⟨hne, (no_read_past_the_end (span_of "1.") hne).1⟩

/-- C19: for a non-empty run `D` of at most 772 digits, with or without a sign, the input
`0x` ++ `D` (or `0X` ++ `D`) is accepted with every character consumed and the converter is
called with the buffer `D` and the exponent 0, as it is for the input `0` ++ `D`; the input
that ends after `0x` or `0X` returns `invalid_scanned_value`. -/
theorem hex_mark_is_skipped (sg D : List Nat) (x : Nat) (hsg : optional_sign sg)
    (hx : x = ascii_widen 'x' ∨ x = ascii_widen 'X') (hD : digits D) (hne : D ≠ [])
    (hlen : D.length ≤ 772) :
    string_to_ieee_scan (sg ++ ascii_widen '0' :: x :: D) =
      .ok (.convert (sign_flag sg) D 0 (sg.length + D.length + 2)) ∧
    (∃ v, string_to_ieee (sg ++ ascii_widen '0' :: x :: D) =
      .ok ⟨.value v, sg.length + D.length + 2⟩) ∧
    string_to_ieee_scan (sg ++ ascii_widen '0' :: D) =
      .ok (.convert (sign_flag sg) D 0 (sg.length + D.length + 1)) ∧
    string_to_ieee (sg ++ [ascii_widen '0', x]) =
      .ok ⟨.unexpected .invalid_scanned_value, 0⟩ := by
  have h0 : ¬ (ascii_widen '0' = ascii_widen '+' ∨ ascii_widen '0' = ascii_widen '-') := by
    decide
  have hst := integer_digits_short D hlen
  have hwf := integer_digits_wf D initial_state initial_state_wf
  have hfb : final_buffer (integer_digits D initial_state) = D := by rw [hst]; rfl
  have hfe : final_exponent (integer_digits D initial_state) = 0 := by rw [hst]; rfl
  have hpart : ∀ in_size sign, digits_part in_size sign true D =
      .ok (.convert sign D 0 in_size) := by
    intro in_size sign
    have h := digits_part_eq in_size sign true D [] hD stops_digits_nil
    rw [List.append_nil, if_pos rfl, if_neg hne, parsing_done_eq _ _ _ _ hwf, hfb, hfe] at h
    simpa using h
  have hhex : string_to_ieee_scan (sg ++ ascii_widen '0' :: x :: D) =
      .ok (.convert (sign_flag sg) D 0 (sg.length + D.length + 2)) := by
    rw [string_to_ieee_scan_sign sg _ (x :: D) hsg (fun _ => h0),
      after_sign_hex _ _ x D hx, if_neg hne, hpart]
    unfold sign_flag
    simp only [List.length_cons]
    congr 2
  refine ⟨hhex, string_to_ieee_of_accepts _ _ _ hhex (Or.inl ⟨_, _, _, rfl⟩), ?_, ?_⟩
  · obtain ⟨d, ds, rfl⟩ := List.exists_cons_of_ne_nil hne
    rw [string_to_ieee_scan_sign sg _ (d :: ds) hsg (fun _ => h0),
      after_sign_zero _ _ d ds (is_digit_not_letter (digits_cons.1 hD).1).2.2.1, hpart]
    unfold sign_flag
    simp only [List.length_cons]
    congr 2
  · have h := string_to_ieee_scan_sign sg _ [x] hsg (fun _ => h0)
    rw [after_sign_hex _ _ x [] hx, if_pos rfl] at h
    unfold string_to_ieee
    rw [h]

/-- Witness of C19 at the input "-0X42": the converter gets the buffer "42" and the exponent
0, and `chars` is 5. -/
theorem hex_mark_is_skipped_witness :
    optional_sign [45] ∧ digits [52, 50] ∧
    string_to_ieee_scan ([45] ++ ascii_widen '0' :: 88 :: [52, 50]) =
      .ok (.convert (sign_flag [45]) [52, 50] 0 (1 + 2 + 2)) :=
  have hsg : optional_sign [45] := Or.inr (Or.inr rfl)
  have hD : digits [52, 50] := by decide
  ⟨hsg, hD, (hex_mark_is_skipped [45] [52, 50] 88 hsg (Or.inr rfl) hD (by decide)
    (by decide)).1⟩

/-- C20 fails on the input "0abc": the call returns the value +0 with `chars` 1, and on the
first character alone, "0", it returns +0 with `chars` 0, because the return for a bare zero
does not assign `chars`.  The same missing assignment makes "nan" return with `chars` 0, and
the empty input of its first 0 characters fails the precondition.  The input "0xg" returns
+0 with `chars` 2, and its first 2 characters, "0x", return `invalid_scanned_value`. -/
theorem consumed_part_alone_differs :
    string_to_ieee (span_of "0abc") = .ok ⟨.value (.finite false 0), 1⟩ ∧
    (span_of "0abc").take 1 = span_of "0" ∧
    string_to_ieee (span_of "0") = .ok ⟨.value (.finite false 0), 0⟩ ∧
    string_to_ieee (span_of "nan") = .ok ⟨.value (.quiet_NaN false), 0⟩ ∧
    string_to_ieee ((span_of "nan").take 0) = .error .expect_nonempty_input ∧
    string_to_ieee (span_of "0xg") = .ok ⟨.value (.finite false 0), 2⟩ ∧
    (span_of "0xg").take 2 = span_of "0x" ∧
    string_to_ieee (span_of "0x") = .ok ⟨.unexpected .invalid_scanned_value, 0⟩ :=
  ⟨rfl, rfl, rfl, rfl, rfl, rfl, rfl, rfl⟩

/-- C21: on every non-empty input of at most 536870911 characters (`max_exponent / 2`) the
scan returns: the exponent range check does not fail.  When the run reaches the converter,
the input splits as the scanner reads it; with an exponent part `E`, control has reached
the exponent code on `E ++ R` in the state of the digit loops after the mantissa, whose
exponent lies between minus the count of characters consumed before the exponent part and
0, so within the checked range; and the exponent after adding `num` or `-num`, after adding
`insignificant_digits` and as handed to the converter is a value of the 32-bit `int`. -/
theorem exponent_precondition_is_met (input : List Nat) (hne : input ≠ [])
    (hlen : input.length ≤ 536870911) :
    max_exponent / 2 = 536870911 ∧
    (∃ r, string_to_ieee_scan input = .ok r) ∧
    ∀ s buffer exponent chars,
      string_to_ieee_scan input = .ok (.convert s buffer exponent chars) →
      ∃ sg lead it I dot Z F E R x, input = sg ++ (lead ++ it) ∧ optional_sign sg ∧
        leading_mark lead it ∧ digits_form it I dot Z F E R x ∧
        chars = input.length - R.length ∧
        (E ≠ [] → string_to_ieee_scan input =
          exponent_part input.length s (decide (lead ≠ [])) (E ++ R)
            (mantissa_state I Z.length F)) ∧
        -((input.length - (E ++ R).length : Nat) : Int) ≤
          (mantissa_state I Z.length F).exponent ∧
        (mantissa_state I Z.length F).exponent ≤ 0 ∧
        -(max_exponent / 2) ≤ (mantissa_state I Z.length F).exponent ∧
        (mantissa_state I Z.length F).exponent ≤ max_exponent / 2 ∧
        int_range ((mantissa_state I Z.length F).exponent + x) ∧
        int_range ((mantissa_state I Z.length F).exponent + x +
          (mantissa_state I Z.length F).insignificant_digits) ∧
        exponent = (mantissa_state I Z.length F).exponent + x +
          (mantissa_state I Z.length F).insignificant_digits -
          (if (mantissa_state I Z.length F).nonzero_digit_dropped then 1 else 0) ∧
        int_range exponent := by
  have hmax : max_exponent / 2 = 536870911 := by rw [max_exponent_eq]; rfl
  refine ⟨hmax, ?_, ?_⟩
  · rcases string_to_ieee_scan_reach input hne with ⟨r, n, h⟩ |
      ⟨sign, lz, I, Z, F, q, hl, h⟩ | ⟨sg, lead, it, I, dot, Z, F, E, R, x, _, _, _, _, h, _⟩
    · exact ⟨_, h⟩
    · have hb := mantissa_state_exponent_bounds I Z.length F
      refine absurd h (exponent_part_range_ok _ _ _ _ _ (mantissa_state_wf I Z.length F) ?_)
      rw [hmax]
      push_cast at hb
      omega
    · exact ⟨_, h⟩
  · intro s buffer exponent chars hres
    rcases string_to_ieee_scan_reach input hne with ⟨r, n, h⟩ |
      ⟨sign, lz, I, Z, F, q, hl, h⟩ |
      ⟨sg, lead, it, I, dot, Z, F, E, R, x, hinput, hsg, hmark, hform, h, hlink⟩
    · rw [h] at hres; simp at hres
    · have hb := mantissa_state_exponent_bounds I Z.length F
      refine absurd h (exponent_part_range_ok _ _ _ _ _ (mantissa_state_wf I Z.length F) ?_)
      rw [hmax]
      push_cast at hb
      omega
    · rw [h] at hres
      simp only [Except.ok.injEq, scanned.convert.injEq] at hres
      obtain ⟨hs, _, he, hc⟩ := hres
      have hb := mantissa_state_exponent_bounds I Z.length F
      have hins := mantissa_state_insignificant I Z.length F
      have hx := exponent_contribution_bounds E x hform.2.2.2.2.2.2.2
      have hdot := hform.2.2.2.2.1
      have hit := hform.1
      have hlenI : Z.length + F.length + (E ++ R).length ≤ input.length ∧
          I.length + (E ++ R).length ≤ input.length := by
        rw [hinput, hit]
        cases dot with
        | false =>
          obtain ⟨hZ, hF⟩ := hdot rfl
          subst hZ hF
          simp only [List.length_append, List.length_nil]
          omega
        | true =>
          simp only [List.length_append, List.length_cons, if_true]
          omega
      have hcs := converter_exponent_state I Z.length F x hx (by omega) (by omega)
      rw [max_exponent_eq] at hx
      push_cast at hb
      refine ⟨sg, lead, it, I, dot, Z, F, E, R, x, hinput, hsg, hmark, hform, hc.symm, ?_,
        ?_, hb.2, ?_, ?_, ?_, ?_, ?_, ?_⟩
      · rw [← hs]
        exact hlink
      · omega
      · rw [hmax]; omega
      · rw [hmax]; omega
      · unfold int_range; omega
      · unfold int_range; rw [hins]; omega
      · rw [← he, hcs]
      · rw [← he, hcs, hins]
        unfold int_range
        split_ifs <;> omega

/-- Witness of C21 at the input "1.5e3": the scan reaches the converter with the exponent
-1 + 3 = 2, and the state at the exponent part has the exponent -1, within the range. -/
theorem exponent_precondition_is_met_witness :
    span_of "1.5e3" ≠ [] ∧ (span_of "1.5e3").length ≤ 536870911 ∧
    string_to_ieee_scan (span_of "1.5e3") = .ok (.convert false [49, 53] 2 5) ∧
    (∃ r, string_to_ieee_scan (span_of "1.5e3") = .ok r) ∧
    ∃ sg lead it I dot Z F E R x, span_of "1.5e3" = sg ++ (lead ++ it) ∧ optional_sign sg ∧
      leading_mark lead it ∧ digits_form it I dot Z F E R x ∧
      5 = (span_of "1.5e3").length - R.length ∧
      (E ≠ [] → string_to_ieee_scan (span_of "1.5e3") =
        exponent_part (span_of "1.5e3").length false (decide (lead ≠ [])) (E ++ R)
          (mantissa_state I Z.length F)) ∧
      -(((span_of "1.5e3").length - (E ++ R).length : Nat) : Int) ≤
        (mantissa_state I Z.length F).exponent ∧
      (mantissa_state I Z.length F).exponent ≤ 0 ∧
      -(max_exponent / 2) ≤ (mantissa_state I Z.length F).exponent ∧
      (mantissa_state I Z.length F).exponent ≤ max_exponent / 2 ∧
      int_range ((mantissa_state I Z.length F).exponent + x) ∧
      int_range ((mantissa_state I Z.length F).exponent + x +
        (mantissa_state I Z.length F).insignificant_digits) ∧
      (2 : Int) = (mantissa_state I Z.length F).exponent + x +
        (mantissa_state I Z.length F).insignificant_digits -
        (if (mantissa_state I Z.length F).nonzero_digit_dropped then 1 else 0) ∧
      int_range 2 :=
  have h := exponent_precondition_is_met (span_of "1.5e3") (by decide) (by decide)
  ⟨by decide, by decide, rfl, h.2.1, h.2.2 false [49, 53] 2 5 rfl⟩

end detail

end scn
